import Mathlib

/-! TuringSnake: the language engine of `src/Pic/turing.c`

A shallow embedding of the Turing Machine interpreter (cursor, lexical predicates,
expression evaluator, variable table, tape, instruction executor, step function, timer
poll, command handler, flash functions) and theorems about it.

Conventions of the embedding

* The globals of `turing.c` are the fields of the structure `Turing`; a C function that
  reads and writes globals is a Lean function from `Turing` to `Turing` (paired with its
  return value when it has one).
* Arrays are functions from the index: `Symbols[i]` is `s.Symbols i`.
* `int8_t`, `int16_t`, `uint8_t` values are integers; every conversion to a narrower type is
  written out (`toInt8`, `toInt16`, `toUInt8`).  `int` is 16 bits wide on the target (XC8).
* Every C loop and every recursion takes a `fuel` argument and returns `none` when the fuel
  runs out; a result `some r` is a result the C function really returns.  The loops of
  `find_variable`, `add_variable` and `read_mem` and the row loop of `write_mem`, which count
  down a number fixed on entry, recur on that number instead.
* Things the C standard leaves undefined can be reached by the code: a read or write of
  `Program` at a negative index, an integer division by zero, and the reads of `write_mem`
  past the end of `Settings`.  What the target delivers there is the field `Target` of the
  state, about which nothing is assumed.  A read or write of `Program` at a negative index
  reaches the byte that lies at that address: `Target.front` tells to which variable of the
  engine it belongs (a tape symbol, a variable value, the head position), and the access
  reads or changes that variable; the bytes of other memory are `Target.below`.  Memory
  behind the `Program` buffer is `s.Program` at the indices from 257 on.
* `update_tape`, `set_led`, `reset_leds` drive the display only and have no effect on the
  engine state; they are left out.  `LED_Flash` is counted in the field `Flashes`.
* The millisecond counter `Ticks` of `system.c` is an argument of `TuringExec`; the command
  buffer is an argument of `ProcessCommand`, its bytes given as characters.
* The flash program memory is the field `Flash`, a function from the word address; the
  effect of the erase and write sequences of `write_mem` on it is `erase_row` and
  `program_word`.
-/

namespace TuringSnake

/-! ## constants -/

/-- The value of `#define ERROR 0x7fff`. -/
def ERROR : Int := 0x7fff

/-- The value of `#define NUM_SQUARES 27`. -/
def NUM_SQUARES : Nat := 27

/-- The value of `#define MAX_VARIABLES 10`. -/
def MAX_VARIABLES : Nat := 10

/-- The value of `#define NAME_LEN 10`. -/
def NAME_LEN : Nat := 10

/-- The value of `#define MAX_PROGRAM 256`. -/
def MAX_PROGRAM : Nat := 256

/-- The string terminator `'\0'`. -/
def NUL : Char := '\x00'

/-- Error code `ERR_SYNTAX_ERROR`. -/
def ERR_SYNTAX_ERROR : Nat := 1

/-- Error code `ERR_INSTRUCTION_ERROR`. -/
def ERR_INSTRUCTION_ERROR : Nat := 2

/-- Error code `ERR_OPERAND_ERROR`. -/
def ERR_OPERAND_ERROR : Nat := 3

/-- Error code `ERR_TOO_MANY_VARIABLES`. -/
def ERR_TOO_MANY_VARIABLES : Nat := 4

/-- Error code `ERR_VARIABLE_NOT_FOUND`. -/
def ERR_VARIABLE_NOT_FOUND : Nat := 5

/-- Error code `ERR_LABEL_NOT_FOUND`. -/
def ERR_LABEL_NOT_FOUND : Nat := 6

/-! ## machine integers -/

/-- Conversion to `int8_t`: the value modulo 256 read as a signed byte. -/
def toInt8 (x : Int) : Int := (x + 128) % 256 - 128

/-- Conversion to `int16_t` (and the result of 16-bit `int` arithmetic). -/
def toInt16 (x : Int) : Int := (x + 32768) % 65536 - 32768

/-- Conversion to `uint8_t`. -/
def toUInt8 (x : Int) : Nat := (x % 256).toNat

/-- Conversion to `uint16_t`. -/
def toUInt16 (x : Int) : Nat := (x % 65536).toNat

/-- The 16-bit pattern of an `int16_t` value. -/
def bits16 (x : Int) : Nat := (x % 65536).toNat

/-! ## the state -/

/-- A byte of the variables that `turing.c` declares in front of `Program` and that the
embedding holds byte by byte.  The names of the variables, which the embedding holds as
lists, count as other memory. -/
inductive Cell where
  /-- The byte `Symbols[i]`. -/
  | symbol (i : Nat)
  /-- The byte `VariableValues[i]`. -/
  | value (i : Nat)
  /-- The byte `HeadPosition`. -/
  | head
  /-- A byte of none of these. -/
  | other
  deriving DecidableEq

/-- What the target does where the C standard is silent. -/
structure Target where
  /-- The placement of the variables by the compiler: the variable to which the byte at
  the address of `Program[-k]` belongs. -/
  front : Nat → Cell
  /-- The bytes in front of the `Program` buffer that belong to other memory: `below k` is
  the byte at the address of `Program[-k]`. -/
  below : Nat → Char
  /-- The quotient the divide routine delivers for `x / 0`. -/
  divZero : Int → Int
  /-- Memory behind the two bytes of `Settings`: what `write_mem` reads past the record. -/
  behind_settings : Nat → Nat

/-- The global variables of `turing.c`. -/
structure Turing where
  /-- Tape symbols, `char Symbols[NUM_SQUARES]`. -/
  Symbols : Nat → Char
  /-- Variable names, `char VariableNames[MAX_VARIABLES][NAME_LEN+1]`, each as the string it holds. -/
  VariableNames : Nat → List Char
  /-- Variable values, `int8_t VariableValues[MAX_VARIABLES]`. -/
  VariableValues : Nat → Int
  /-- Tape head position, `int8_t HeadPosition`. -/
  HeadPosition : Int
  /-- Current program, `char Program[MAX_PROGRAM+1]`. -/
  Program : Nat → Char
  /-- Program length, `uint8_t ProgramLength`. -/
  ProgramLength : Nat
  /-- Program position, `int16_t ProgramPosition`. -/
  ProgramPosition : Int
  /-- Wait periods, `int8_t WaitPeriods`. -/
  WaitPeriods : Int
  /-- Clock speed setting, `uint8_t Settings.ClockSpeed`. -/
  ClockSpeed : Nat
  /-- Tapehead highlighting setting, `bool Settings.TapeheadHighlighting`. -/
  TapeheadHighlighting : Bool
  /-- Timer enabled, `bool TimerEnabled`. -/
  TimerEnabled : Bool
  /-- Timer counter, `uint16_t TimerCnt`. -/
  TimerCnt : Nat
  /-- Previous ticks, `uint16_t PrevTicks`. -/
  PrevTicks : Nat
  /-- Number of calls of the external `LED_Flash` so far. -/
  Flashes : Nat
  /-- The words of the flash program memory, by word address (`Program_` and `Settings_`
  lie at `PROGRAM_BASE` and `SETTINGS_BASE`). -/
  Flash : Nat → Nat
  /-- Behaviour of the target outside the C standard. -/
  Target : Target

/-! ## helper functions -/

/-- The byte at the address of `Program[-k]`, in front of the buffer: the byte of the
variable that lies there, as a `char`. -/
def front_at (s : Turing) (k : Nat) : Char :=
  match s.Target.front k with
  | Cell.symbol i => s.Symbols i
  | Cell.value i => Char.ofNat (toUInt8 (s.VariableValues i))
  | Cell.head => Char.ofNat (toUInt8 s.HeadPosition)
  | Cell.other => s.Target.below k

/-- The array read `Program[p]`; a negative index reaches the memory in front. -/
def Program_at (s : Turing) (p : Int) : Char :=
  if p < 0 then front_at s (-p).toNat else s.Program p.toNat

/-- The C function `current`: current character in program. -/
def current (s : Turing) : Char :=
  if s.ProgramPosition ≥ s.ProgramLength then NUL else Program_at s s.ProgramPosition

/-- The C function `step`: steps over current character in program. -/
def step (s : Turing) : Turing :=
  if s.ProgramPosition < s.ProgramLength then
    { s with ProgramPosition := s.ProgramPosition + 1 }
  else s

/-- The C function `next`: advances and returns the next character in program. -/
def next (s : Turing) : Char × Turing :=
  if s.ProgramPosition ≥ s.ProgramLength then (NUL, s)
  else
    let s1 := { s with ProgramPosition := s.ProgramPosition + 1 }
    (if s1.ProgramPosition ≥ s1.ProgramLength then NUL else Program_at s1 s1.ProgramPosition, s1)

/-- The C function `end_of_program`. -/
def end_of_program (s : Turing) : Bool :=
  s.ProgramPosition ≥ s.ProgramLength

/-- The C function `is_name`: valid character in label or variable name. -/
def is_name (c : Char) : Bool :=
  (c ≥ 'a' && c ≤ 'z') || (c ≥ '0' && c ≤ '9') || c == '_'

/-- The C function `is_symbol`. -/
def is_symbol (c : Char) : Bool :=
  c == 'R' || c == 'G' || c == 'B' || c == 'C' || c == 'M' || c == 'Y' || c == 'W' || c == 'K'

/-- The C function `is_operator`: arithmetic or bitwise operator. -/
def is_operator (c : Char) : Bool :=
  c == '+' || c == '-' || c == '*' || c == '/' || c == '&' || c == '|'

/-- The C function `is_expression`: start of expression. -/
def is_expression (c : Char) : Bool :=
  (c ≥ '0' && c ≤ '9') || c == '-' || c == '$' || c == '('

/-- The C function `cmp_strs`: true if two strings match. -/
def cmp_strs : List Char → List Char → Bool
  | [], [] => true
  | [], _ :: _ => false
  | _ :: _, [] => false
  | a :: s1, b :: s2 => if a ≠ b then false else cmp_strs s1 s2

/-- The C function `StopTuring`. -/
def StopTuring (s : Turing) : Turing :=
  { s with TimerEnabled := false }

/-- The C function `error`: flashes the LED `err` times, stops, forces the cursor. -/
def error (s : Turing) (err : Nat) : Turing :=
  let s1 := { s with Flashes := s.Flashes + err }
  let s2 := StopTuring s1
  { s2 with ProgramPosition := toInt8 s2.ProgramLength }

/-- The loop of `get_number`: accumulates decimal digits in an `int8_t`. -/
def get_number_loop : Nat → Int → Turing → Option (Int × Turing)
  | 0, _, _ => none
  | fuel + 1, n, s =>
    if current s ≠ NUL ∧ (current s ≥ '0' ∧ current s ≤ '9') then
      get_number_loop fuel
        (toInt8 (n * 10 + toInt8 ((current s).toNat - ('0').toNat : Int))) (step s)
    else some (n, s)

/-- The C function `get_number`: parses a decimal number. -/
def get_number (fuel : Nat) (s : Turing) : Option (Int × Turing) :=
  let negate := current s == '-'
  let s1 := if negate then step s else s
  (get_number_loop fuel 0 s1).bind fun r =>
    some (toInt8 (if negate then -r.1 else r.1), r.2)

/-- The inner loop of `skip_space`, `while (next() != 0 && current() != '\n') ;`. -/
def skip_comment : Nat → Turing → Option Turing
  | 0, _ => none
  | fuel + 1, s =>
    let r := next s
    if r.1 ≠ NUL ∧ current r.2 ≠ '\n' then skip_comment fuel r.2 else some r.2

/-- The C function `skip_space`: skips over whitespace and comments.  Its boolean result
(`end_of_program()`) is used by no caller and is not returned here. -/
def skip_space : Nat → Turing → Option Turing
  | 0, _ => none
  | fuel + 1, s =>
    if current s = ';' then
      (skip_comment fuel s).bind (skip_space fuel)
    else if current s = ' ' ∨ current s = '\t' ∨ current s = '\r' ∨ current s = '\n' then
      skip_space fuel (step s)
    else some s

/-- The loop of `get_name`: collects name characters, keeping the first `NAME_LEN`. -/
def get_name_loop : Nat → List Char → Turing → Option (List Char × Turing)
  | 0, _, _ => none
  | fuel + 1, name, s =>
    if is_name (current s) then
      get_name_loop fuel (if name.length < NAME_LEN then name ++ [current s] else name) (step s)
    else some (name, s)

/-- The C function `get_name`: parses a label or variable name. -/
def get_name (fuel : Nat) (s : Turing) : Option (List Char × Turing) :=
  (skip_space fuel s).bind (get_name_loop fuel [])

/-- The loop of `find_variable` from index `i`, with `k` indices left. -/
def find_variable_from (s : Turing) (name : List Char) : Nat → Nat → Int
  | 0, _ => -1
  | k + 1, i =>
    if s.VariableNames i = [] then find_variable_from s name k (i + 1)
    else if cmp_strs (s.VariableNames i) name then (i : Int)
    else find_variable_from s name k (i + 1)

/-- The C function `find_variable`: variable index or -1 if not found. -/
def find_variable (s : Turing) (name : List Char) : Int :=
  find_variable_from s name MAX_VARIABLES 0

/-- The loop of `add_variable`: the first index from `i` with an empty name, at most `k` on. -/
def free_slot_from (s : Turing) : Nat → Nat → Nat
  | 0, i => i
  | k + 1, i => if s.VariableNames i = [] then i else free_slot_from s k (i + 1)

/-- The C function `add_variable`: variable index or -1 if the table is full. -/
def add_variable (s : Turing) (name : List Char) (value : Int) : Int × Turing :=
  let i := free_slot_from s MAX_VARIABLES 0
  if i ≥ MAX_VARIABLES then (-1, s)
  else
    ((i : Int),
      { s with
        VariableNames := Function.update s.VariableNames i name
        VariableValues := Function.update s.VariableValues i value })

/-- The C function `get_operand`: parses an operand (symbol, variable or decimal number). -/
def get_operand (fuel : Nat) (s : Turing) : Option (Int × Turing) :=
  (skip_space fuel s).bind fun s1 =>
    if is_symbol (current s1) then
      let symbol := current s1
      let s2 := step s1
      if s2.HeadPosition < 0 ∨ s2.HeadPosition ≥ NUM_SQUARES then
        some (if symbol = 'K' then 1 else 0, s2)
      else some (if s2.Symbols s2.HeadPosition.toNat = symbol then 1 else 0, s2)
    else if current s1 = '$' then
      (get_name fuel (step s1)).bind fun r =>
        let ndx := find_variable r.2 r.1
        if ndx ≠ -1 then some (r.2.VariableValues ndx.toNat, r.2)
        else some (ERROR, error r.2 ERR_VARIABLE_NOT_FOUND)
    else if current s1 = '-' ∨ (current s1 ≥ '0' ∧ current s1 ≤ '9') then
      get_number fuel s1
    else some (ERROR, error s1 ERR_OPERAND_ERROR)

/-- The C operators `&` and `|` on two `int16_t` values, and the other four on integers. -/
def exact_op (t : Target) (op : Char) (x y : Int) : Int :=
  if op = '+' then x + y
  else if op = '-' then x - y
  else if op = '*' then x * y
  else if op = '/' then (if y = 0 then t.divZero x else Int.tdiv x y)
  else if op = '&' then toInt16 (Nat.land (bits16 x) (bits16 y))
  else if op = '|' then toInt16 (Nat.lor (bits16 x) (bits16 y))
  else x

/-- The `switch (op)` of `get_expression`: the compound assignment to the `int16_t` result. -/
def apply_op (t : Target) (op : Char) (result operand : Int) : Int :=
  toInt16 (exact_op t op result operand)

/-- The `while (true)` loop of `get_expression`, ending in its `return`. -/
def get_expression_loop : Nat → Int → Turing → Option (Int × Turing)
  | 0, _, _ => none
  | fuel + 1, result, s =>
    (skip_space fuel s).bind fun s1 =>
      if current s1 = ')' then some (toInt8 result, s1)
      else if !is_operator (current s1) then some (toInt8 result, s1)
      else
        (get_operand fuel (step s1)).bind fun r =>
          if r.1 = ERROR then some (ERROR, r.2)
          else get_expression_loop fuel (apply_op s.Target (current s1) result r.1) r.2

/-- The C function `get_expression`: parses an expression, returns `ERROR` if error. -/
def get_expression : Nat → Turing → Option (Int × Turing)
  | 0, _ => none
  | fuel + 1, s =>
    (skip_space fuel s).bind fun s1 =>
      if current s1 = '(' then
        (get_expression fuel (step s1)).bind fun r =>
          if current r.2 ≠ ')' then some (ERROR, r.2)
          else if r.1 = ERROR then some (ERROR, step r.2)
          else get_expression_loop fuel r.1 (step r.2)
      else
        (get_operand fuel s1).bind fun r =>
          if r.1 = ERROR then some (ERROR, r.2)
          else get_expression_loop fuel r.1 r.2

/-! ## Turing Machine functions -/

/-- The last statement of `do_movement`: allow one square off tape. -/
def clamp_head (s : Turing) : Turing :=
  if s.HeadPosition < 0 then { s with HeadPosition := -1 }
  else if s.HeadPosition ≥ NUM_SQUARES then { s with HeadPosition := NUM_SQUARES }
  else s

/-- The C function `do_movement`: handles `<`, `<n`, `<<`, `>`, `>n`, `>>`. -/
def do_movement (fuel : Nat) (s : Turing) : Option Turing :=
  if current s = '<' then
    let r := next s
    if r.1 = '<' then
      some (clamp_head { step r.2 with HeadPosition := 0 })
    else if is_expression (current r.2) then
      (get_expression fuel r.2).bind fun e =>
        if e.1 = ERROR then some e.2
        else some (clamp_head { e.2 with HeadPosition := toInt8 (e.2.HeadPosition - toInt8 e.1) })
    else some (clamp_head { r.2 with HeadPosition := toInt8 (r.2.HeadPosition - 1) })
  else if current s = '>' then
    let r := next s
    if r.1 = '>' then
      some (clamp_head { step r.2 with HeadPosition := (NUM_SQUARES : Int) - 1 })
    else if is_expression (current r.2) then
      (get_expression fuel r.2).bind fun e =>
        if e.1 = ERROR then some e.2
        else some (clamp_head { e.2 with HeadPosition := toInt8 (e.2.HeadPosition + toInt8 e.1) })
    else some (clamp_head { r.2 with HeadPosition := toInt8 (r.2.HeadPosition + 1) })
  else some (clamp_head s)

/-- The C function `skip_movement`. -/
def skip_movement (fuel : Nat) (s : Turing) : Option Turing :=
  if current s = '<' then
    let r := next s
    if r.1 = '<' then some (step r.2)
    else if is_expression (current r.2) then (get_expression fuel r.2).bind fun e => some e.2
    else some r.2
  else if current s = '>' then
    let r := next s
    if r.1 = '>' then some (step r.2)
    else if is_expression (current r.2) then (get_expression fuel r.2).bind fun e => some e.2
    else some r.2
  else some s

/-- The part of `do_assignment` after the variable index is known. -/
def do_assignment_tail (fuel : Nat) (ndx : Int) (s : Turing) : Option Turing :=
  (skip_space fuel s).bind fun s1 =>
    if current s1 = '+' then
      let r := next s1
      if r.1 = '+' then
        let s2 := step r.2
        if s2.VariableValues ndx.toNat < 127 then
          some { s2 with VariableValues :=
            Function.update s2.VariableValues ndx.toNat (toInt8 (s2.VariableValues ndx.toNat + 1)) }
        else some s2
      else some (error r.2 ERR_SYNTAX_ERROR)
    else if current s1 = '-' then
      let r := next s1
      if r.1 = '-' then
        let s2 := step r.2
        if s2.VariableValues ndx.toNat > -128 then
          some { s2 with VariableValues :=
            Function.update s2.VariableValues ndx.toNat (toInt8 (s2.VariableValues ndx.toNat - 1)) }
        else some s2
      else some (error r.2 ERR_SYNTAX_ERROR)
    else if current s1 = '=' then
      (get_expression fuel (step s1)).bind fun e =>
        let s2 : Turing := e.2
        if e.1 = ERROR then some s2
        else
          some { s2 with VariableValues :=
            Function.update s2.VariableValues ndx.toNat (toInt8 e.1) }
    else some (error s1 ERR_SYNTAX_ERROR)

/-- The C function `do_assignment`: handles assignments. -/
def do_assignment (fuel : Nat) (s : Turing) : Option Turing :=
  (get_name fuel (step s)).bind fun r =>
    let ndx := find_variable r.2 r.1
    if ndx = -1 then
      let a := add_variable r.2 r.1 0
      if a.1 = -1 then some (error a.2 ERR_TOO_MANY_VARIABLES)
      else do_assignment_tail fuel a.1 a.2
    else do_assignment_tail fuel ndx r.2

/-- The C function `skip_assignment`. -/
def skip_assignment (fuel : Nat) (s : Turing) : Option Turing :=
  (get_name fuel (step s)).bind fun r =>
    (skip_space fuel r.2).bind fun s1 =>
      if current s1 = '+' then
        let n := next s1
        if n.1 = '+' then some (step n.2) else some n.2
      else if current s1 = '-' then
        let n := next s1
        if n.1 = '-' then some (step n.2) else some n.2
      else if current s1 = '=' then
        (get_expression fuel (step s1)).bind fun e => some e.2
      else some s1

/-- The C function `skip_branch`. -/
def skip_branch (fuel : Nat) (s : Turing) : Option Turing :=
  (get_name fuel (step s)).bind fun r => some r.2

/-- The C function `skip_wait`. -/
def skip_wait (fuel : Nat) (s : Turing) : Option Turing :=
  let r := next s
  if is_expression r.1 then (get_expression fuel r.2).bind fun e => some e.2
  else some r.2

/-- The C function `skip_set`. -/
def skip_set (s : Turing) : Turing :=
  step s

/-- The part of `skip_conditional` in front of its call of `skip_instruction`:
the comparison characters, the expression and the space after it. -/
def skip_conditional_test (fuel : Nat) (s : Turing) : Option Turing :=
  let r := next s
  let s1 :=
    if r.1 = '!' then step r.2
    else if current r.2 = '>' then
      let n := next r.2
      if n.1 = '=' then step n.2 else n.2
    else if current r.2 = '<' then
      let n := next r.2
      if n.1 = '=' then step n.2 else n.2
    else r.2
  (get_expression fuel s1).bind fun e => skip_space fuel e.2

/-- The C function `skip_instruction`: skips over the next instruction.  Its call of
`skip_conditional` is `skip_conditional_test` followed by `skip_instruction` again. -/
def skip_instruction : Nat → Turing → Option Turing
  | 0, _ => none
  | fuel + 1, s =>
    if current s = '<' ∨ current s = '>' then skip_movement fuel s
    else if current s = '$' then skip_assignment fuel s
    else if current s = '?' then (skip_conditional_test fuel s).bind (skip_instruction fuel)
    else if current s = '^' then skip_branch fuel s
    else if current s = '%' then skip_wait fuel s
    else if is_symbol (current s) then some (skip_set s)
    else some s

/-- The C function `skip_conditional`. -/
def skip_conditional (fuel : Nat) (s : Turing) : Option Turing :=
  (skip_conditional_test fuel s).bind (skip_instruction fuel)

/-- The end of `do_conditional`: `if (!test) { skip_space(); skip_instruction(); }`. -/
def do_conditional_tail (fuel : Nat) (x : Int) (test : Bool) (s : Turing) : Option Turing :=
  if x = ERROR then some s
  else if !test then (skip_space fuel s).bind (skip_instruction fuel)
  else some s

/-- The C function `do_conditional`: handles conditionals. -/
def do_conditional (fuel : Nat) (s : Turing) : Option Turing :=
  let r := next s
  if r.1 = '!' then
    (get_expression fuel (step r.2)).bind fun e =>
      do_conditional_tail fuel e.1 (e.1 = 0) e.2
  else if current r.2 = '>' then
    let n := next r.2
    if n.1 = '=' then
      (get_expression fuel (step n.2)).bind fun e =>
        do_conditional_tail fuel e.1 (e.1 ≥ 0) e.2
    else
      (get_expression fuel n.2).bind fun e =>
        do_conditional_tail fuel e.1 (e.1 > 0) e.2
  else if current r.2 = '<' then
    let n := next r.2
    if n.1 = '=' then
      (get_expression fuel (step n.2)).bind fun e =>
        do_conditional_tail fuel e.1 (e.1 ≤ 0) e.2
    else
      (get_expression fuel n.2).bind fun e =>
        do_conditional_tail fuel e.1 (e.1 < 0) e.2
  else
    (get_expression fuel r.2).bind fun e =>
      do_conditional_tail fuel e.1 (e.1 ≠ 0) e.2

/-- The scanning loop of `do_branch`. -/
def do_branch_loop : Nat → List Char → Turing → Option Turing
  | 0, _, _ => none
  | fuel + 1, label, s =>
    if current s = NUL then some (error s ERR_LABEL_NOT_FOUND)
    else
      (skip_space fuel s).bind fun s1 =>
        if current s1 ≠ '#' then do_branch_loop fuel label (step s1)
        else
          (get_name fuel (step s1)).bind fun r =>
            if cmp_strs r.1 label then some r.2 else do_branch_loop fuel label r.2

/-- The C function `do_branch`: handles branches. -/
def do_branch (fuel : Nat) (s : Turing) : Option Turing :=
  (get_name fuel (step s)).bind fun r =>
    do_branch_loop fuel r.1 { r.2 with ProgramPosition := 0 }

/-- The C function `do_wait`: handles waits. -/
def do_wait (fuel : Nat) (s : Turing) : Option Turing :=
  let s1 := { s with WaitPeriods := 1 }
  let r := next s1
  if is_expression r.1 then
    (get_expression fuel r.2).bind fun e =>
      if e.1 = ERROR then some e.2
      else
        let s2 : Turing := { e.2 with WaitPeriods := toInt8 e.1 }
        if s2.WaitPeriods = 0 then some { s2 with WaitPeriods := -1 } else some s2
  else some r.2

/-- The C function `do_set`: handles `R`, `G`, `B`, `C`, `M`, `Y`, `W`, `K`. -/
def do_set (s : Turing) : Turing :=
  let symbol := current s
  let s1 := step s
  if s1.HeadPosition < 0 ∨ s1.HeadPosition ≥ NUM_SQUARES then s1
  else { s1 with Symbols := Function.update s1.Symbols s1.HeadPosition.toNat symbol }

/-- The C function `do_instruction`: handles the next instruction. -/
def do_instruction (fuel : Nat) (s : Turing) : Option Turing :=
  if current s = '<' ∨ current s = '>' then do_movement fuel s
  else if current s = '$' then do_assignment fuel s
  else if current s = '?' then do_conditional fuel s
  else if current s = '^' then do_branch fuel s
  else if current s = '%' then do_wait fuel s
  else if is_symbol (current s) then some (do_set s)
  else some (error s ERR_INSTRUCTION_ERROR)

/-! ## executive functions -/

/-- The quotient `1000 / Settings.ClockSpeed` as stored in the `uint16_t TimerCnt`. -/
def timer_interval (s : Turing) : Nat :=
  if s.ClockSpeed = 0 then toUInt16 (s.Target.divZero 1000) else 1000 / s.ClockSpeed

/-- The C function `StartTuring`. -/
def StartTuring (s : Turing) : Turing :=
  { s with TimerCnt := timer_interval s, TimerEnabled := true }

/-- The C function `ResetTuring`: resets the Turing Machine. -/
def ResetTuring (s : Turing) : Turing :=
  let s1 := StopTuring s
  { s1 with
    HeadPosition := 0
    ProgramPosition := 0
    WaitPeriods := 0
    TimerCnt := timer_interval s1
    Symbols := fun i => if i < NUM_SQUARES then 'K' else s1.Symbols i
    VariableNames := fun i => if i < MAX_VARIABLES then [] else s1.VariableNames i }

/-- The inner loop of `StepTuring`, `while (is_name(current())) step();`. -/
def skip_label_name : Nat → Turing → Option Turing
  | 0, _ => none
  | fuel + 1, s => if is_name (current s) then skip_label_name fuel (step s) else some s

/-- The loop of `StepTuring` that steps over whitespace and labels. -/
def skip_labels : Nat → Turing → Option Turing
  | 0, _ => none
  | fuel + 1, s =>
    (skip_space fuel s).bind fun s1 =>
      if current s1 ≠ '#' then some s1
      else (skip_label_name fuel (step s1)).bind (skip_labels fuel)

/-- The C function `StepTuring`: steps the machine, false if end of program or wait. -/
def StepTuring (fuel : Nat) (s : Turing) : Option (Bool × Turing) :=
  if s.WaitPeriods < 0 then some (false, s)
  else if s.WaitPeriods > 0 then some (false, { s with WaitPeriods := toInt8 (s.WaitPeriods - 1) })
  else if s.Program 0 = NUL then some (false, StopTuring s)
  else if s.ProgramPosition ≥ s.ProgramLength then some (false, StopTuring s)
  else
    (skip_labels fuel s).bind fun s1 =>
      if current s1 = NUL then some (false, StopTuring s1)
      else
        (do_instruction fuel s1).bind fun s2 =>
          if s2.WaitPeriods > 0 then
            some (false, { s2 with WaitPeriods := toInt8 (s2.WaitPeriods - 1) })
          else some (true, s2)


/-- The C function `TuringExec` up to its call of `StepTuring`: the state it leaves and
whether the call is made (the timer is enabled and the countdown has reached 0).  `Ticks`
is the value of the external millisecond counter that the poll reads. -/
def TuringExec_due (Ticks : Nat) (s : Turing) : Bool × Turing :=
  if s.PrevTicks = Ticks then (false, s)
  else
    let s1 := { s with PrevTicks := Ticks }
    if !s1.TimerEnabled then (false, s1)
    else
      let s2 := { s1 with TimerCnt := toUInt16 ((s1.TimerCnt : Int) - 1) }
      if s2.TimerCnt ≠ 0 then (false, s2)
      else (true, { s2 with TimerCnt := timer_interval s2 })

/-- The C function `TuringExec`. -/
def TuringExec (fuel : Nat) (Ticks : Nat) (s : Turing) : Option Turing :=
  let r := TuringExec_due Ticks s
  if r.1 then (StepTuring fuel r.2).bind fun x => some x.2 else some r.2

/-! ## flash functions -/

/-- The value of `#define PROGRAM_BASE 0x1e00`. -/
def PROGRAM_BASE : Nat := 0x1e00

/-- The value of `#define PROGRAM_SIZE (((MAX_PROGRAM+1)/32+1)*32)`. -/
def PROGRAM_SIZE : Nat := ((MAX_PROGRAM + 1) / 32 + 1) * 32

/-- The value of `#define SETTINGS_BASE (PROGRAM_BASE+PROGRAM_SIZE)`. -/
def SETTINGS_BASE : Nat := PROGRAM_BASE + PROGRAM_SIZE

/-- The value of `sizeof(Settings)`: one `uint8_t` and one `bool`. -/
def SETTINGS_LEN : Nat := 2

/-- The value of `sizeof(Program)`. -/
def PROGRAM_LEN : Nat := MAX_PROGRAM + 1

/-- The value of `#define ROW_ERASE 32` and of `#define WRITE_LATCHES 32`. -/
def ROW_ERASE : Nat := 32

/-- Modelled from the spec: the flash hardware is not in the sources.  A row erase (`FREE`
set, unlock sequence, `WR`) leaves the erased word 0x3FFF in every word of the row that
holds the address in `PMADR`. -/
def erase_row (flash : Nat → Nat) (PMADR : Nat) : Nat → Nat :=
  fun a => if a / ROW_ERASE = PMADR / ROW_ERASE then 0x3fff else flash a

/-- Modelled from the spec: the flash hardware is not in the sources.  Programming the word
at `PMADR` with the data in `PMDAT` (through a write latch and the final `WR`) can clear
bits only. -/
def program_word (flash : Nat → Nat) (PMADR PMDAT : Nat) : Nat → Nat :=
  Function.update flash PMADR (Nat.land (flash PMADR) PMDAT)

/-- The C function `read_byte`: the low byte `PMDATL` of the word read at `addr`. -/
def read_byte (flash : Nat → Nat) (addr : Nat) : Nat :=
  flash addr % 256

/-- The C function `read_mem`: the `len` bytes it stores through `dst`, in order. -/
def read_mem (flash : Nat → Nat) : Nat → Nat → List Nat
  | _, 0 => []
  | addr, len + 1 => read_byte flash addr :: read_mem flash (addr + 1) len

/-- The first loop of `write_mem`: erases the rows, `i` a `uint8_t`. -/
def erase_rows (addr len : Nat) : Nat → Nat → (Nat → Nat) → Option (Nat → Nat)
  | 0, _, _ => none
  | fuel + 1, i, flash =>
    if i ≤ len / ROW_ERASE then
      erase_rows addr len fuel (toUInt8 ((i : Int) + 1)) (erase_row flash (addr + i * ROW_ERASE))
    else some flash

/-- The `while (true)` loop of `write_mem` with the write that follows it: the bytes from
`src[k]` on go to the words from `PMADR` to the end of its row.  The result is the index of
the next source byte and the flash.  The loop ends within 32 passes. -/
def write_row (src : Nat → Nat) : Nat → Nat → Nat → (Nat → Nat) → Nat × (Nat → Nat)
  | 0, _, k, flash => (k, flash)
  | n + 1, PMADR, k, flash =>
    let flash1 := program_word flash PMADR (src k)
    if PMADR % ROW_ERASE = ROW_ERASE - 1 then (k + 1, flash1)
    else write_row src n (PMADR + 1) (k + 1) flash1

/-- The second loop of `write_mem`: writes the rows, `i` a `uint8_t`. -/
def write_rows (addr len : Nat) (src : Nat → Nat) :
    Nat → Nat → Nat → (Nat → Nat) → Option (Nat → Nat)
  | 0, _, _, _ => none
  | fuel + 1, i, k, flash =>
    if i ≤ len / ROW_ERASE then
      let r := write_row src ROW_ERASE (addr + i * ROW_ERASE) k flash
      write_rows addr len src fuel (toUInt8 ((i : Int) + 1)) r.1 r.2
    else some flash

/-- The C function `write_mem`: writes to flash memory the bytes found from `src` on. -/
def write_mem (fuel : Nat) (addr len : Nat) (src : Nat → Nat) (flash : Nat → Nat) :
    Option (Nat → Nat) :=
  (erase_rows addr len fuel 0 flash).bind fun flash1 => write_rows addr len src fuel 0 0 flash1

/-- The bytes of memory from `&Settings` on. -/
def Settings_bytes (s : Turing) : Nat → Nat :=
  fun i =>
    if i = 0 then s.ClockSpeed
    else if i = 1 then (if s.TapeheadHighlighting then 1 else 0)
    else s.Target.behind_settings (i - 2)

/-- The bytes of memory from `Program` on. -/
def Program_bytes (s : Turing) : Nat → Nat :=
  fun i => (s.Program i).toNat

/-- The loop of `str_len`, `len` a `uint8_t`. -/
def str_len_loop (mem : Nat → Char) : Nat → Nat → Nat → Option Nat
  | 0, _, _ => none
  | fuel + 1, i, len =>
    if mem i ≠ NUL then str_len_loop mem fuel (i + 1) (toUInt8 ((len : Int) + 1)) else some len

/-- The C function `str_len`: length of a string (excluding zero terminator). -/
def str_len (fuel : Nat) (mem : Nat → Char) : Option Nat :=
  str_len_loop mem fuel 0 0

/-- The write of the byte `c` at the address of `Program[-k]`, in front of the buffer: it
changes the variable that lies there (an `int8_t` takes the byte as a signed value). -/
def front_set (s : Turing) (k : Nat) (c : Char) : Turing :=
  match s.Target.front k with
  | Cell.symbol i => { s with Symbols := Function.update s.Symbols i c }
  | Cell.value i =>
    { s with VariableValues := Function.update s.VariableValues i (toInt8 c.toNat) }
  | Cell.head => { s with HeadPosition := toInt8 c.toNat }
  | Cell.other =>
    { s with Target := { s.Target with below := Function.update s.Target.below k c } }

/-- The array write `Program[p] = c`; a negative index reaches the memory in front. -/
def Program_set (s : Turing) (p : Int) (c : Char) : Turing :=
  if p < 0 then front_set s (-p).toNat c
  else { s with Program := Function.update s.Program p.toNat c }

/-- The `for` loop of the `LOAD` command, `i` an `int8_t`. -/
def load_loop (buffer : Int → Char) (cnt : Nat) : Nat → Int → Turing → Option Turing
  | 0, _, _ => none
  | fuel + 1, i, s =>
    if i < cnt then
      load_loop buffer cnt fuel (toInt8 (i + 1))
        (if s.ProgramPosition < MAX_PROGRAM then
          { Program_set s s.ProgramPosition (buffer i) with
            ProgramPosition := s.ProgramPosition + 1 }
         else s)
    else some s

/-- The C function `ProcessCommand`: processes USB commands, fed with the buffer (its bytes
as characters, by index) and the character count. -/
def ProcessCommand (fuel : Nat) (buffer : Int → Char) (cnt : Nat) (s : Turing) :
    Option Turing :=
  if (buffer 0).toNat = 1 then some (ResetTuring s)
  else if (buffer 0).toNat = 2 then
    (load_loop buffer cnt fuel 1 s).bind fun s1 =>
      let s2 := Program_set s1 s1.ProgramPosition NUL
      (str_len fuel s2.Program).bind fun len => some { s2 with ProgramLength := len }
  else if (buffer 0).toNat = 3 then some (StartTuring (ResetTuring s))
  else if (buffer 0).toNat = 4 then (StepTuring fuel (StopTuring s)).bind fun r => some r.2
  else if (buffer 0).toNat = 5 then
    if cnt > 1 then
      let s1 := { s with ClockSpeed := (buffer 1).toNat }
      some { s1 with TimerCnt := timer_interval s1 }
    else some s
  else if (buffer 0).toNat = 6 then
    if cnt > 1 then some { s with TapeheadHighlighting := decide ((buffer 1).toNat ≠ 0) }
    else some s
  else if (buffer 0).toNat = 7 then
    (write_mem fuel SETTINGS_BASE SETTINGS_LEN (Settings_bytes s) s.Flash).bind fun flash1 =>
      (write_mem fuel PROGRAM_BASE PROGRAM_LEN (Program_bytes s) flash1).bind fun flash2 =>
        some { s with Flash := flash2, Flashes := s.Flashes + 1 }
  else some s

/-- The C function `InitTuring`.  The byte that `read_mem` stores in the `bool` of
`Settings` counts as true when it is not 0. -/
def InitTuring (fuel : Nat) (s : Turing) : Option Turing :=
  let settings := read_mem s.Flash SETTINGS_BASE SETTINGS_LEN
  let s1 := { s with
    ClockSpeed := settings.getD 0 0
    TapeheadHighlighting := decide (settings.getD 1 0 ≠ 0) }
  let program := read_mem s1.Flash PROGRAM_BASE PROGRAM_LEN
  let s2 := { s1 with
    Program := fun i => if i < PROGRAM_LEN then Char.ofNat (program.getD i 0) else s1.Program i }
  (str_len fuel s2.Program).bind fun len =>
    let s3 := { s2 with ProgramLength := len }
    let s4 :=
      if read_byte s3.Flash SETTINGS_BASE = 0xff ∨ read_byte s3.Flash SETTINGS_BASE = 0 then
        { s3 with ClockSpeed := 1, TapeheadHighlighting := true }
      else s3
    if read_byte s4.Flash PROGRAM_BASE ≠ 0xff ∧ read_byte s4.Flash PROGRAM_BASE ≠ 0 then
      some (StartTuring (ResetTuring s4))
    else some s4

/-! ## the program text seen by the cursor -/

/-- The state `s` with the cursor placed so that exactly the text `r` remains to be read. -/
def at_rest (s : Turing) (r : List Char) : Turing :=
  { s with ProgramPosition := (s.ProgramLength : Int) - (r.length : Int) }

/-- The program text from the cursor to the end of the program is `t`: the cursor is inside
the buffer, `ProgramLength` is the length of the text and the text holds no terminator. -/
structure AtText (s : Turing) (t : List Char) : Prop where
  /-- the cursor is not negative -/
  nonneg : 0 ≤ s.ProgramPosition
  /-- the text ends where the program ends -/
  length_eq : s.ProgramPosition + (t.length : Int) = (s.ProgramLength : Int)
  /-- the buffer holds the text -/
  chars : ∀ i, i < t.length → s.Program (s.ProgramPosition.toNat + i) = t.getD i NUL
  /-- the text holds no terminator -/
  no_nul : NUL ∉ t

/-- A target on which no variable of the engine lies in front of the buffer and reads there
give the terminator, `x / 0` gives 0 and the memory behind `Settings` holds zeros. -/
def plain_target : Target :=
  { front := fun _ => Cell.other, below := fun _ => NUL, divZero := fun _ => 0,
    behind_settings := fun _ => 0 }

/-- The engine after power-up and `ResetTuring` with the text `text` as its program:
black tape, head 0, no variables, cursor 0, length as `str_len` computes it, erased flash. -/
def engine_with (text : List Char) : Turing :=
  { Symbols := fun _ => 'K'
    VariableNames := fun _ => []
    VariableValues := fun _ => 0
    HeadPosition := 0
    Program := fun i => text.getD i NUL
    ProgramLength := toUInt8 text.length
    ProgramPosition := 0
    WaitPeriods := 0
    ClockSpeed := 1
    TapeheadHighlighting := true
    TimerEnabled := false
    TimerCnt := 1000
    PrevTicks := 65535
    Flashes := 0
    Flash := fun _ => 0x3fff
    Target := plain_target }

/-- What `skip_space` leaves of a text: whitespace and comments (from `;` to the end of the
line) are dropped.  The flag says that the text starts inside a comment. -/
def skip_text : Bool → List Char → List Char
  | _, [] => []
  | true, c :: cs => if c = '\n' then skip_text false cs else skip_text true cs
  | false, c :: cs =>
    if c = ';' then skip_text true cs
    else if c = ' ' ∨ c = '\t' ∨ c = '\r' ∨ c = '\n' then skip_text false cs
    else c :: cs

/-- The name `get_name` reads from a text: the name characters after whitespace and
comments, of which the first `NAME_LEN` are kept. -/
def name_text (t : List Char) : List Char :=
  ((skip_text false t).takeWhile is_name).take NAME_LEN

/-- What `get_name` leaves of a text. -/
def name_rest (t : List Char) : List Char :=
  (skip_text false t).dropWhile is_name

/-- A decimal digit, the test `c >= '0' && c <= '9'`. -/
def is_digit (c : Char) : Bool :=
  c ≥ '0' && c ≤ '9'

/-- The number written by a string of decimal digits. -/
def digits_value (ds : List Char) : Nat :=
  ds.foldl (fun n c => n * 10 + (c.toNat - ('0').toNat)) 0

/-- The slot that binds `name`: the first of the `MAX_VARIABLES` slots whose name is not
empty and equals `name`. -/
def bound_slot (s : Turing) (name : List Char) : Option Nat :=
  (List.range MAX_VARIABLES).find? fun i =>
    decide (s.VariableNames i ≠ [] ∧ s.VariableNames i = name)

/-- The first free slot of the variable table, if there is one. -/
def free_slot (s : Turing) : Option Nat :=
  (List.range MAX_VARIABLES).find? fun i => decide (s.VariableNames i = [])

/-- The `int8_t` accumulator of `get_number` after the digits `ds`, started at `n`. -/
def number_fold (n : Int) (ds : List Char) : Int :=
  ds.foldl (fun n c => toInt8 (n * 10 + toInt8 ((c.toNat : Int) - (('0').toNat : Int)))) n

/-- A character at which `skip_space` does not stop: whitespace or the start of a comment. -/
def is_blank (c : Char) : Bool :=
  c == ';' || c == ' ' || c == '\t' || c == '\r' || c == '\n'

/-- The first character of a text, the terminator if the text is empty. -/
def first_char (t : List Char) : Char :=
  t.headD NUL

/-- An operand as it is written in a program. -/
inductive Operand where
  /-- a symbol test, one of the eight colour letters -/
  | sym (c : Char)
  /-- a variable, written as a dollar sign and its name -/
  | var (name : List Char)
  /-- a decimal literal, with or without a minus sign -/
  | num (neg : Bool) (digits : List Char)

/-- The text of an operand. -/
def Operand.text : Operand → List Char
  | Operand.sym c => [c]
  | Operand.var name => '$' :: name
  | Operand.num neg ds => (if neg then ['-'] else []) ++ ds

/-- The value of a symbol test in state `s`: off-tape squares read as black. -/
def symbol_test (s : Turing) (c : Char) : Int :=
  if s.HeadPosition < 0 ∨ s.HeadPosition ≥ NUM_SQUARES then (if c = 'K' then 1 else 0)
  else if s.Symbols s.HeadPosition.toNat = c then 1 else 0

/-- The integer a literal denotes. -/
def literal_value (neg : Bool) (ds : List Char) : Int :=
  if neg then -(digits_value ds : Int) else (digits_value ds : Int)

/-- The value of an operand in state `s`, for the operands of the claims: a colour letter,
a variable that is bound (its slot holding an `int8_t` value), a literal with at least one
digit that lies in [-128, 127]. -/
def Operand.value (s : Turing) : Operand → Option Int
  | Operand.sym c => if is_symbol c then some (symbol_test s c) else none
  | Operand.var name =>
    if name.all is_name then
      (bound_slot s (name.take NAME_LEN)).bind fun i =>
        if -128 ≤ s.VariableValues i ∧ s.VariableValues i ≤ 127 then some (s.VariableValues i)
        else none
    else none
  | Operand.num neg ds =>
    if ds ≠ [] ∧ ds.all is_digit = true ∧ -128 ≤ literal_value neg ds ∧ literal_value neg ds ≤ 127
    then some (literal_value neg ds) else none

/-- The operand `a` ends where the text `r` starts: no digit follows a literal and no name
character follows a variable name. -/
def Operand.ends_before (a : Operand) (r : List Char) : Prop :=
  match a with
  | Operand.sym _ => True
  | Operand.var _ => is_name (first_char r) = false
  | Operand.num _ _ => is_digit (first_char r) = false

/-- The value of an operand, 0 where `Operand.value` gives none. -/
def Operand.eval (s : Turing) (a : Operand) : Int :=
  (a.value s).getD 0

/-- A whitespace character, as `skip_space` tests it. -/
def is_space (c : Char) : Bool :=
  c == ' ' || c == '\t' || c == '\r' || c == '\n'

/-- One further member of an operand chain: an operator and an operand, each with the
whitespace written in front of it. -/
structure Link where
  /-- whitespace in front of the operator -/
  before : List Char
  /-- the operator character -/
  op : Char
  /-- whitespace between the operator and the operand -/
  between : List Char
  /-- the operand -/
  operand : Operand

/-- The text of the operators and operands that follow the first operand of a chain. -/
def chain_text : List Link → List Char
  | [] => []
  | l :: rest => l.before ++ l.op :: (l.between ++ (l.operand.text ++ chain_text rest))

/-- The strict left fold of a chain: `(((a0 op1 a1) op2 a2) ... opn an)`, each operator
applied to the result so far and the next operand, in the order of the text. -/
def chain_fold (s : Turing) (a0 : Int) (chain : List Link) : Int :=
  chain.foldl (fun acc l => exact_op s.Target l.op acc (l.operand.eval s)) a0

/-- The last operand of a chain that starts with the operand `a0`. -/
def last_operand (a0 : Operand) : List Link → Operand
  | [] => a0
  | l :: rest => last_operand l.operand rest

/-- Whether the position behind the text `pre` lies inside a comment, `b` saying whether
the position in front of `pre` does: a comment starts at `;` and ends with the line. -/
def comment_state (b : Bool) : List Char → Bool
  | [] => b
  | c :: cs => comment_state (if c = ';' then true else if c = '\n' then false else b) cs

/-- The part of an assignment that follows the variable name: `++`, `--` or `=` and a
decimal literal. -/
inductive Assign where
  /-- the increment `++` -/
  | inc
  /-- the decrement `--` -/
  | dec
  /-- the assignment of a literal, `=` followed by the literal -/
  | set (neg : Bool) (digits : List Char)

/-- The text of the part of an assignment that follows the variable name. -/
def Assign.text : Assign → List Char
  | Assign.inc => ['+', '+']
  | Assign.dec => ['-', '-']
  | Assign.set neg ds => '=' :: (Operand.num neg ds).text

/-- The literal of `=literal` has at least one digit and lies in [-128, 127]. -/
def Assign.valid : Assign → Prop
  | Assign.inc => True
  | Assign.dec => True
  | Assign.set neg ds =>
    ds ≠ [] ∧ ds.all is_digit = true ∧ -128 ≤ literal_value neg ds ∧ literal_value neg ds ≤ 127

/-- The value a variable of value `v` has after the assignment: saturating at 127 and -128. -/
def Assign.result (v : Int) : Assign → Int
  | Assign.inc => min (v + 1) 127
  | Assign.dec => max (v - 1) (-128)
  | Assign.set neg ds => literal_value neg ds

/-- What the assignment leaves of the text `r` behind it: the expression of `=literal` also
takes the whitespace and comments that follow. -/
def Assign.rest (r : List Char) : Assign → List Char
  | Assign.inc => r
  | Assign.dec => r
  | Assign.set _ _ => skip_text false r

/-- The text `r` can follow the assignment: after a literal comes no further digit and,
behind whitespace and comments, no operator. -/
def Assign.ends_before (r : List Char) : Assign → Prop
  | Assign.inc => True
  | Assign.dec => True
  | Assign.set _ _ =>
    is_digit (first_char r) = false ∧ is_operator (first_char (skip_text false r)) = false

/-- The text of the assignment instruction `$name` followed by `a`. -/
def assign_text (name : List Char) (a : Assign) : List Char :=
  '$' :: (name ++ a.text)

/-- The run of `k` step attempts, each a call of `StepTuring`. -/
def steps (fuel : Nat) : Nat → Turing → Option Turing
  | 0, s => some s
  | k + 1, s => (StepTuring fuel s).bind fun r => steps fuel k r.2

/-- The text of a program that consists of assignment instructions only. -/
def program_text : List (List Char × Assign) → List Char
  | [] => []
  | p :: rest => assign_text p.1 p.2 ++ program_text rest

/-- The variable names after the assignments `instrs` have bound their variables to the
slots `k`, `k + 1`, ... of the table `names`. -/
def table_names : Nat → List (List Char × Assign) → (Nat → List Char) → (Nat → List Char)
  | _, [], names => names
  | k, p :: rest, names => table_names (k + 1) rest (Function.update names k (p.1.take NAME_LEN))

/-- The variable values after the assignments `instrs` have bound their variables to the
slots `k`, `k + 1`, ... of the table `values`: each new variable starts at 0. -/
def table_values : Nat → List (List Char × Assign) → (Nat → Int) → (Nat → Int)
  | _, [], values => values
  | k, p :: rest, values => table_values (k + 1) rest (Function.update values k (p.2.result 0))

instance (a : Assign) : Decidable a.valid := by
  cases a <;> unfold Assign.valid <;> infer_instance

instance (r : List Char) (a : Assign) : Decidable (a.ends_before r) := by
  cases a <;> unfold Assign.ends_before <;> infer_instance

instance (a : Operand) (r : List Char) : Decidable (a.ends_before r) := by
  cases a <;> unfold Operand.ends_before <;> infer_instance

/-- The state `t` is the state `s` but for the cursor, the flash count, which has not gone
down, and the timer flag, which has not been set: what scanning the program text can do. -/
def Frame (s t : Turing) : Prop :=
  ∃ (p : Int) (e : Bool) (f : Nat),
    t = { s with ProgramPosition := p, TimerEnabled := e, Flashes := f } ∧
    (e = true → s.TimerEnabled = true) ∧ s.Flashes ≤ f

/-- The state `t` is the state `s` but for what an instruction can change: the tape, the
variables, the wait counter, the head, which is as before or within one square of the tape,
and what `Frame` allows. -/
def Exec (s t : Turing) : Prop :=
  ∃ (t0 : Turing) (sym : Nat → Char) (names : Nat → List Char) (vals : Nat → Int) (h w : Int),
    Frame s t0 ∧
    t = { t0 with Symbols := sym, VariableNames := names, VariableValues := vals,
                  HeadPosition := h, WaitPeriods := w } ∧
    (h = s.HeadPosition ∨ (-1 ≤ h ∧ h ≤ NUM_SQUARES))

/-- The results of `k` consecutive calls of `StepTuring` and the state they leave. -/
def attempts (fuel : Nat) : Nat → Turing → Option (List Bool × Turing)
  | 0, s => some ([], s)
  | k + 1, s =>
    (StepTuring fuel s).bind fun r =>
      (attempts fuel k r.2).bind fun q => some (r.1 :: q.1, q.2)

/-- Consecutive polls of `TuringExec`, one for each value of the tick counter in `ticks`:
the number of polls that called `StepTuring` and the state left. -/
def polls (fuel : Nat) : List Nat → Turing → Option (Nat × Turing)
  | [], s => some (0, s)
  | t :: ts, s =>
    (TuringExec fuel t s).bind fun s1 =>
      (polls fuel ts s1).bind fun q =>
        some ((if (TuringExec_due t s).1 then 1 else 0) + q.1, q.2)

/-- The number of polls in `ticks` that find the tick counter changed, `prev` being the
value that the poll before them has seen. -/
def observed : Nat → List Nat → Nat
  | _, [] => 0
  | prev, t :: ts => (if t = prev then 0 else 1) + observed t ts

/-- The wait instruction at the cursor of `s` as `do_wait` reads it: the value of its
expression, 1 for a bare `%`, and the state in which the reading leaves the engine. -/
def wait_value (fuel : Nat) (s : Turing) : Option (Int × Turing) :=
  let r := next { s with WaitPeriods := 1 }
  if is_expression r.1 then get_expression fuel r.2 else some (1, r.2)

/-- The part of `StepTuring` behind its two tests of the wait counter: the end-of-program
tests, the loop over whitespace and labels and the call of `do_instruction`. -/
def dispatch (fuel : Nat) (s : Turing) : Option (Bool × Turing) :=
  if s.Program 0 = NUL then some (false, StopTuring s)
  else if s.ProgramPosition ≥ s.ProgramLength then some (false, StopTuring s)
  else
    (skip_labels fuel s).bind fun s1 =>
      if current s1 = NUL then some (false, StopTuring s1)
      else (do_instruction fuel s1).bind fun s2 =>
        if s2.WaitPeriods > 0 then some (false, { s2 with WaitPeriods := toInt8 (s2.WaitPeriods - 1) })
        else some (true, s2)

/-- The payload of a command buffer: the `k` bytes behind the command byte. -/
def payload (buffer : Int → Char) (k : Nat) : List Char :=
  (List.range k).map fun (j : Nat) => buffer ((j : Int) + 1)

/-- A command buffer with the bytes of `l`, zeros behind them. -/
def command (l : List Nat) : Int → Char :=
  fun i => if i < 0 then NUL else Char.ofNat (l.getD i.toNat 0)

/-- The text that a LOAD with the payload `pl` leaves in the buffer when the cursor is at
`c` in the program `P`: the first `c` bytes of `P`, then the payload, cut off at the
capacity of the buffer. -/
def loaded (P : List Char) (c : Nat) (pl : List Char) : List Char :=
  (P.take c ++ pl).take MAX_PROGRAM

/-- The engine as the C start-up code leaves it at power-up, the flash memory holding
`flash`: the initialisers of the globals of `turing.c`, zero where there is none. -/
def power_up (flash : Nat → Nat) : Turing :=
  { Symbols := fun _ => NUL
    VariableNames := fun _ => []
    VariableValues := fun _ => 0
    HeadPosition := 0
    Program := fun _ => NUL
    ProgramLength := 0
    ProgramPosition := 0
    WaitPeriods := 0
    ClockSpeed := 0
    TapeheadHighlighting := false
    TimerEnabled := false
    TimerCnt := 1000
    PrevTicks := 65535
    Flashes := 0
    Flash := flash
    Target := plain_target }

/-- The function `get_operand` with a failure flag beside its result: the flag is set on the
two paths on which `get_operand` calls `error` (unbound variable, unrecognised operand) and
nowhere else. -/
def get_operand_flagged (fuel : Nat) (s : Turing) : Option (Int × Bool × Turing) :=
  (skip_space fuel s).bind fun s1 =>
    if is_symbol (current s1) then
      let symbol := current s1
      let s2 := step s1
      if s2.HeadPosition < 0 ∨ s2.HeadPosition ≥ NUM_SQUARES then
        some (if symbol = 'K' then 1 else 0, false, s2)
      else some (if s2.Symbols s2.HeadPosition.toNat = symbol then 1 else 0, false, s2)
    else if current s1 = '$' then
      (get_name fuel (step s1)).bind fun r =>
        let ndx := find_variable r.2 r.1
        if ndx ≠ -1 then some (r.2.VariableValues ndx.toNat, false, r.2)
        else some (ERROR, true, error r.2 ERR_VARIABLE_NOT_FOUND)
    else if current s1 = '-' ∨ (current s1 ≥ '0' ∧ current s1 ≤ '9') then
      (get_number fuel s1).bind fun r => some (r.1, false, r.2)
    else some (ERROR, true, error s1 ERR_OPERAND_ERROR)

/-- The loop of `get_expression` with the failure flag: it ends with the flag set when an
operand has failed, told by the flag of the operand and not by its value. -/
def get_expression_loop_flagged : Nat → Int → Turing → Option (Int × Bool × Turing)
  | 0, _, _ => none
  | fuel + 1, result, s =>
    (skip_space fuel s).bind fun s1 =>
      if current s1 = ')' then some (toInt8 result, false, s1)
      else if !is_operator (current s1) then some (toInt8 result, false, s1)
      else
        (get_operand_flagged fuel (step s1)).bind fun r =>
          if r.2.1 then some (ERROR, true, r.2.2)
          else get_expression_loop_flagged fuel (apply_op s.Target (current s1) result r.1) r.2.2

/-- The function `get_expression` with the failure flag: set when an operand or a nested
expression has failed, told by their flags, or when a parenthesis is not closed. -/
def get_expression_flagged : Nat → Turing → Option (Int × Bool × Turing)
  | 0, _ => none
  | fuel + 1, s =>
    (skip_space fuel s).bind fun s1 =>
      if current s1 = '(' then
        (get_expression_flagged fuel (step s1)).bind fun r =>
          if current r.2.2 ≠ ')' then some (ERROR, true, r.2.2)
          else if r.2.1 then some (ERROR, true, step r.2.2)
          else get_expression_loop_flagged fuel r.1 (step r.2.2)
      else
        (get_operand_flagged fuel s1).bind fun r =>
          if r.2.1 then some (ERROR, true, r.2.2)
          else get_expression_loop_flagged fuel r.1 r.2.2

/-- The stored variable values are `int8_t` values. -/
def values_int8 (s : Turing) : Prop :=
  ∀ i, i < MAX_VARIABLES → -128 ≤ s.VariableValues i ∧ s.VariableValues i ≤ 127

/-- No two occupied slots of the variable table hold the same name. -/
def names_distinct (s : Turing) : Prop :=
  ∀ i, i < MAX_VARIABLES → ∀ j, j < MAX_VARIABLES → s.VariableNames i ≠ [] →
    s.VariableNames i = s.VariableNames j → i = j

/-- The number of occupied slots of the variable table. -/
def occupied (s : Turing) : Nat :=
  ((List.range MAX_VARIABLES).filter fun i => decide (s.VariableNames i ≠ [])).length

/-- The state `t` has the variable names of `s`, and `int8_t` values if `s` has. -/
def Keeps (s t : Turing) : Prop :=
  t.VariableNames = s.VariableNames ∧ (values_int8 s → values_int8 t)

/-- The state `t` has the variable names of `s`, or those with one more name, one that no
occupied slot of `s` holds, stored in a free slot of the table; and `t` has `int8_t` values
if `s` has. -/
def Binds (s t : Turing) : Prop :=
  (t.VariableNames = s.VariableNames ∨
    ∃ j name, j < MAX_VARIABLES ∧ s.VariableNames j = [] ∧
      (∀ i, i < MAX_VARIABLES → s.VariableNames i ≠ [] → s.VariableNames i ≠ name) ∧
      t.VariableNames = Function.update s.VariableNames j name) ∧
  (values_int8 s → values_int8 t)

instance (s : Turing) : Decidable (names_distinct s) := by
  unfold names_distinct; infer_instance

instance (s : Turing) : Decidable (values_int8 s) := by
  unfold values_int8; infer_instance

/-- The placement of a compiler that lays the variables out in the order of their
declarations in `turing.c`, without padding: `HeadPosition` is the byte in front of
`Program`, the 10 bytes of `VariableValues` lie in front of it, the 110 bytes of
`VariableNames` in front of these and the 27 bytes of `Symbols` in front of those. -/
def declared_front (k : Nat) : Cell :=
  if k = 0 then Cell.other
  else if k = 1 then Cell.head
  else if k ≤ 11 then Cell.value (11 - k)
  else if k ≤ 121 then Cell.other
  else if k ≤ 148 then Cell.symbol (148 - k)
  else Cell.other

/-- The target `plain_target` with the variables placed in the order of their declarations. -/
def declared_target : Target :=
  { plain_target with front := declared_front }

/-- The placement of a compiler for a 64-bit host that lays the variables out in the order
of their declarations and aligns the arrays (`Program` and `VariableNames` on 32 bytes,
`VariableValues` on 8 bytes): `HeadPosition` is `Program[-6]`, the 10 bytes of
`VariableValues` are `Program[-16]` to `Program[-7]`, the names `Program[-128]` to
`Program[-19]` and the 27 bytes of `Symbols` are `Program[-160]` to `Program[-134]`; the
other bytes are padding. -/
def host_front (k : Nat) : Cell :=
  if k = 6 then Cell.head
  else if 7 ≤ k ∧ k ≤ 16 then Cell.value (16 - k)
  else if 134 ≤ k ∧ k ≤ 160 then Cell.symbol (160 - k)
  else Cell.other

/-- The target `plain_target` with the variables placed as on a 64-bit host. -/
def host_target : Target :=
  { plain_target with front := host_front }

/-- The engine after power-up and `ResetTuring`, with no program, on the target `T`. -/
def engine_on (T : Target) : Turing :=
  { engine_with [] with Target := T }

/-- The characters left between the cursor and the end of the program. -/
def rest (s : Turing) : Nat :=
  ((s.ProgramLength : Int) - s.ProgramPosition).toNat

/-- The state `t` is reached from the state `s` by `n` calls of `StepTuring`, in front of
which, between which and behind which nothing changes but the copy of the tick counter and
the countdown, the two variables that a poll of `TuringExec` changes by itself. -/
def stepped (fuel : Nat) : Nat → Turing → Turing → Prop
  | 0, s, t => ∃ p c, t = { s with PrevTicks := p, TimerCnt := c }
  | n + 1, s, t =>
    ∃ p c r, StepTuring fuel { s with PrevTicks := p, TimerCnt := c } = some r ∧
      stepped fuel n r.2 t

/-- The LOAD command with the payload `text`, given to `ProcessCommand`. -/
def send_load (fuel : Nat) (text : List Char) (s : Turing) : Option Turing :=
  ProcessCommand fuel (command (2 :: text.map Char.toNat)) (text.length + 1) s

/-- The engine on the target `T` after RESET, four LOAD commands that deliver the 240 bytes
`x` and 239 spaces, RUN and a STEP command, which finds no instruction at `x`. -/
def step_failed (T : Target) : Option Turing :=
  ((((((ProcessCommand 0 (command [1]) 1 (engine_on T)).bind
    (send_load 300 ('x' :: List.replicate 62 ' '))).bind
    (send_load 300 (List.replicate 63 ' '))).bind
    (send_load 300 (List.replicate 63 ' '))).bind
    (send_load 300 (List.replicate 51 ' '))).bind
    (ProcessCommand 0 (command [3]) 1)).bind
    (ProcessCommand 300 (command [4]) 1)

/-- A program of 246 bytes: ten assignments of 63, the code of `?`, to the variables `a` to
`j`, the conditionals `?0` and `?x`, and 182 spaces. -/
def values_program : List Char :=
  "$a=63 $b=63 $c=63 $d=63 $e=63 $f=63 $g=63 $h=63 $i=63 $j=63 ?0?x".toList
    ++ List.replicate 182 ' '

/-- The engine on the target `T` after RESET, four LOAD commands that deliver
`values_program`, and RUN. -/
def values_loaded (T : Target) : Option Turing :=
  (((((ProcessCommand 0 (command [1]) 1 (engine_on T)).bind
    (send_load 300 (values_program.take 63))).bind
    (send_load 300 ((values_program.drop 63).take 63))).bind
    (send_load 300 ((values_program.drop 126).take 63))).bind
    (send_load 300 (values_program.drop 189))).bind
    (ProcessCommand 0 (command [3]) 1)

/-- The state `values_loaded T` after ten calls of `StepTuring`, one for each assignment. -/
def values_set (T : Target) : Option Turing :=
  ((values_loaded T).bind (attempts 300 10)).map fun q => q.2

/-- The state `t` stands in front of a call of `StepTuring` that skips a conditional with
an unrecognised operand, in a program of 256 - k bytes: no wait, the cursor at `?0?x`, and
the bytes at `Program[-k]` and `Program[-k+1]` both read `?`. -/
def skips_bad_test (k : Nat) (t : Turing) : Bool :=
  decide (t.WaitPeriods = 0 ∧ t.Program 0 ≠ NUL ∧ t.ProgramLength = 256 - k ∧
    current t = '?' ∧ current (step t) = '0' ∧ current (step (step t)) = '?' ∧
    current (step (step (step t))) = 'x' ∧ front_at t k = '?' ∧ front_at t (k - 1) = '?')

/-! # Theorems -/

/-! ## machine integers -/

theorem toInt8_of_range {x : Int} (h1 : -128 ≤ x) (h2 : x ≤ 127) : toInt8 x = x := by
  unfold toInt8; omega

theorem toInt8_range (x : Int) : -128 ≤ toInt8 x ∧ toInt8 x ≤ 127 := by
  unfold toInt8; omega

theorem toInt8_ne_ERROR (x : Int) : toInt8 x ≠ ERROR := by
  unfold toInt8 ERROR; omega

theorem toInt16_of_range {x : Int} (h1 : -32768 ≤ x) (h2 : x ≤ 32767) : toInt16 x = x := by
  unfold toInt16; omega

theorem toInt8_toInt8 (x : Int) : toInt8 (toInt8 x) = toInt8 x := by
  unfold toInt8; omega

/-! ## strings -/

theorem cmp_strs_iff (a b : List Char) : cmp_strs a b = true ↔ a = b := by
  induction a generalizing b with
  | nil => cases b <;> simp [cmp_strs]
  | cons x xs ih =>
    cases b with
    | nil => simp [cmp_strs]
    | cons y ys =>
      by_cases hxy : x = y
      · simp [cmp_strs, hxy, ih]
      · simp [cmp_strs, hxy]

/-! ## the cursor -/

theorem next_eq (s : Turing) : next s = (current (step s), step s) := by
  unfold next step current
  by_cases h : s.ProgramPosition ≥ s.ProgramLength
  · have h2 : ¬ s.ProgramPosition < s.ProgramLength := by omega
    simp [h, h2]
  · have h2 : s.ProgramPosition < s.ProgramLength := by omega
    simp [h, h2, Program_at]

theorem at_rest_self {s : Turing} {t : List Char} (h : AtText s t) : at_rest s t = s := by
  have h2 := h.length_eq
  cases s
  simp only [at_rest] at *
  congr
  omega

@[simp] theorem at_rest_at_rest (s : Turing) (a b : List Char) :
    at_rest (at_rest s a) b = at_rest s b := rfl

theorem AtText.suffix {s : Turing} {a b : List Char} (h : AtText s (a ++ b)) :
    AtText (at_rest s b) b := by
  have h1 := h.nonneg
  have h2 := h.length_eq
  have h3 := h.chars
  have h4 := h.no_nul
  simp only [List.length_append, Nat.cast_add] at h2
  refine ⟨?_, ?_, ?_, ?_⟩
  · simp only [at_rest]; omega
  · simp only [at_rest]; omega
  · intro i hi
    simp only [at_rest]
    have h5 := h3 (a.length + i) (by simp; omega)
    have h6 : ((s.ProgramLength : Int) - (b.length : Int)).toNat + i
        = s.ProgramPosition.toNat + (a.length + i) := by omega
    rw [h6, h5, List.getD_append_right _ _ _ _ (by omega)]
    simp
  · intro hm
    exact h4 (List.mem_append_right _ hm)

theorem AtText.tail {s : Turing} {c : Char} {t : List Char} (h : AtText s (c :: t)) :
    AtText (at_rest s t) t :=
  AtText.suffix (a := [c]) h

theorem AtText.current_cons {s : Turing} {c : Char} {t : List Char} (h : AtText s (c :: t)) :
    current s = c := by
  have h1 := h.nonneg
  have h2 := h.length_eq
  have h3 := h.chars 0 (by simp)
  simp only [List.length_cons, Nat.cast_add, Nat.cast_one] at h2
  unfold current Program_at
  have h5 : ¬ s.ProgramPosition ≥ s.ProgramLength := by omega
  have h6 : ¬ s.ProgramPosition < 0 := by omega
  simpa [h5, h6] using h3

theorem AtText.current_nil {s : Turing} (h : AtText s []) : current s = NUL := by
  have h2 := h.length_eq
  unfold current
  simp at h2
  simp [h2]

theorem AtText.step_cons {s : Turing} {c : Char} {t : List Char} (h : AtText s (c :: t)) :
    step s = at_rest s t := by
  have h2 := h.length_eq
  simp only [List.length_cons, Nat.cast_add, Nat.cast_one] at h2
  unfold step at_rest
  have h5 : s.ProgramPosition < s.ProgramLength := by omega
  rw [if_pos h5]
  have h6 : s.ProgramPosition + 1 = (s.ProgramLength : Int) - (t.length : Int) := by omega
  rw [h6]

theorem AtText.step_nil {s : Turing} (h : AtText s []) : step s = s := by
  have h2 := h.length_eq
  unfold step
  simp at h2
  simp [h2]

theorem AtText.ne_nul {s : Turing} {c : Char} {t : List Char} (h : AtText s (c :: t)) :
    c ≠ NUL := by
  intro hc
  exact h.no_nul (by simp [hc])

theorem AtText.of_suffix {s : Turing} {t r : List Char} (h : AtText s t) (hr : r <:+ t) :
    AtText (at_rest s r) r := by
  obtain ⟨a, ha⟩ := hr
  subst ha
  exact h.suffix

theorem skip_text_suffix (b : Bool) (t : List Char) : skip_text b t <:+ t := by
  induction t generalizing b with
  | nil => cases b <;> simp [skip_text]
  | cons c cs ih =>
    cases b
    · simp only [skip_text]
      split
      · exact (ih true).trans (List.suffix_cons _ _)
      · split
        · exact (ih false).trans (List.suffix_cons _ _)
        · exact List.suffix_refl _
    · simp only [skip_text]
      split
      · exact (ih false).trans (List.suffix_cons _ _)
      · exact (ih true).trans (List.suffix_cons _ _)

theorem skip_text_length_le (b : Bool) (t : List Char) : (skip_text b t).length ≤ t.length :=
  (skip_text_suffix b t).length_le

theorem dropWhile_nl_ne {c : Char} (cs : List Char) (hc : c ≠ '\n') :
    (c :: cs).dropWhile (fun c => c != '\n') = cs.dropWhile (fun c => c != '\n') :=
  List.dropWhile_cons_of_pos (by simp [hc])

theorem dropWhile_nl_eq (cs : List Char) :
    ('\n' :: cs).dropWhile (fun c => c != '\n') = '\n' :: cs :=
  List.dropWhile_cons_of_neg (by simp)

theorem skip_text_true (t : List Char) :
    skip_text true t = skip_text false (t.dropWhile (fun c => c != '\n')) := by
  induction t with
  | nil => simp [skip_text]
  | cons c cs ih =>
    by_cases hc : c = '\n'
    · subst hc
      simp [skip_text, dropWhile_nl_eq]
    · simp [skip_text, dropWhile_nl_ne, hc, ih]

theorem skip_comment_eq (fuel : Nat) (s : Turing) (c : Char) (t : List Char)
    (h : AtText s (c :: t)) (hf : t.length < fuel) :
    skip_comment fuel s = some (at_rest s (t.dropWhile (fun c => c != '\n'))) := by
  induction t generalizing s c fuel with
  | nil =>
    cases fuel with
    | zero => simp at hf
    | succ f =>
      have h2 := h.tail
      simp [skip_comment, next_eq, h.step_cons, h2.current_nil]
  | cons d t ih =>
    cases fuel with
    | zero => simp at hf
    | succ f =>
      have h2 := h.tail
      have hd := h2.ne_nul
      simp only [List.length_cons] at hf
      by_cases hn : d = '\n'
      · subst hn
        simp [skip_comment, next_eq, h.step_cons, h2.current_cons, dropWhile_nl_eq]
      · have := ih f (at_rest s (d :: t)) d h2 (by omega)
        simp [skip_comment, next_eq, h.step_cons, h2.current_cons, dropWhile_nl_ne, hn, hd, this]

theorem skip_space_eq (fuel : Nat) (s : Turing) (t : List Char)
    (h : AtText s t) (hf : t.length < fuel) :
    skip_space fuel s = some (at_rest s (skip_text false t)) := by
  induction fuel generalizing s t with
  | zero => simp at hf
  | succ f ih =>
    cases t with
    | nil =>
      have hc := h.current_nil
      simp [skip_space, hc, skip_text, at_rest_self h, NUL]
    | cons c t =>
      have hc := h.current_cons
      simp only [List.length_cons] at hf
      by_cases h1 : c = ';'
      · subst h1
        have hs : (t.dropWhile (fun c => c != '\n')) <:+ (';' :: t) :=
          (List.dropWhile_suffix _).trans (List.suffix_cons _ _)
        have hl : (t.dropWhile (fun c => c != '\n')).length ≤ t.length :=
          (List.dropWhile_suffix _).length_le
        have h3 := ih (at_rest s (t.dropWhile (fun c => c != '\n'))) _ (h.of_suffix hs) (by omega)
        simp [skip_space, hc, skip_comment_eq f s ';' t h (by omega), h3, skip_text, skip_text_true]
      · by_cases h2 : c = ' ' ∨ c = '\t' ∨ c = '\r' ∨ c = '\n'
        · have h3 := ih (at_rest s t) t h.tail (by omega)
          simp [skip_space, hc, h1, h2, h.step_cons, h3, skip_text]
        · simp [skip_space, hc, h1, h2, skip_text, at_rest_self h]

theorem AtText.skip {s : Turing} {t : List Char} (h : AtText s t) :
    AtText (at_rest s (skip_text false t)) (skip_text false t) :=
  h.of_suffix (skip_text_suffix false t)

theorem get_name_loop_eq (fuel : Nat) (acc : List Char) (s : Turing) (t : List Char)
    (h : AtText s t) (hf : t.length < fuel) (ha : acc.length ≤ NAME_LEN) :
    get_name_loop fuel acc s
      = some ((acc ++ t.takeWhile is_name).take NAME_LEN, at_rest s (t.dropWhile is_name)) := by
  induction t generalizing fuel acc s with
  | nil =>
    cases fuel with
    | zero => simp at hf
    | succ f =>
      have hn : is_name NUL = false := by decide
      simp [get_name_loop, h.current_nil, hn, at_rest_self h, List.take_of_length_le ha]
  | cons c t ih =>
    cases fuel with
    | zero => simp at hf
    | succ f =>
      simp only [List.length_cons] at hf
      by_cases hc : is_name c = true
      · have hacc : (if acc.length < NAME_LEN then acc ++ [c] else acc).length ≤ NAME_LEN := by
          split
          · simp; omega
          · exact ha
        have h3 := ih f _ (at_rest s t) h.tail (by omega) hacc
        simp only [get_name_loop, h.current_cons, hc, if_true, h.step_cons, h3, at_rest_at_rest,
          List.takeWhile_cons_of_pos hc, List.dropWhile_cons_of_pos hc]
        congr 2
        by_cases hl : acc.length < NAME_LEN
        · simp [hl]
        · have hl2 : acc.length = NAME_LEN := by omega
          simp only [hl, if_false]
          rw [List.take_append_of_le_length (by omega), List.take_append_of_le_length (by omega)]
      · simp only [Bool.not_eq_true] at hc
        simp [get_name_loop, h.current_cons, hc, at_rest_self h, List.take_of_length_le ha]

theorem get_name_eq (fuel : Nat) (s : Turing) (t : List Char)
    (h : AtText s t) (hf : t.length < fuel) :
    get_name fuel s = some (name_text t, at_rest s (name_rest t)) := by
  have h2 := get_name_loop_eq fuel [] _ _ h.skip
    (lt_of_le_of_lt (skip_text_length_le false t) hf) (by simp)
  simp [get_name, skip_space_eq fuel s t h hf, h2, name_text, name_rest]

theorem name_rest_suffix (t : List Char) : name_rest t <:+ t :=
  (List.dropWhile_suffix _).trans (skip_text_suffix false t)

theorem find_variable_from_eq (s : Turing) (name : List Char) (k i : Nat) :
    find_variable_from s name k i
      = match (List.range' i k).find? (fun i =>
          decide (s.VariableNames i ≠ [] ∧ s.VariableNames i = name)) with
        | some j => (j : Int)
        | none => -1 := by
  induction k generalizing i with
  | zero => simp [find_variable_from]
  | succ k ih =>
    simp only [find_variable_from, List.range'_succ, List.find?_cons]
    by_cases h1 : s.VariableNames i = []
    · simp [h1, ih]
    · by_cases h2 : s.VariableNames i = name
      · subst h2
        simp [h1, (cmp_strs_iff _ _).2 rfl]
      · have h3 : cmp_strs (s.VariableNames i) name = false := by
          rw [← Bool.not_eq_true, cmp_strs_iff]; exact h2
        simp [h1, h2, h3, ih]

theorem find_variable_eq (s : Turing) (name : List Char) :
    find_variable s name = match bound_slot s name with
      | some j => (j : Int)
      | none => -1 := by
  simp only [find_variable, bound_slot, find_variable_from_eq, List.range_eq_range']

theorem free_slot_from_eq (s : Turing) (k i : Nat) :
    free_slot_from s k i
      = match (List.range' i k).find? (fun i => decide (s.VariableNames i = [])) with
        | some j => j
        | none => i + k := by
  induction k generalizing i with
  | zero => simp [free_slot_from]
  | succ k ih =>
    simp only [free_slot_from, List.range'_succ, List.find?_cons]
    by_cases h1 : s.VariableNames i = []
    · simp [h1]
    · simp only [h1, if_false, ih, decide_False]
      cases hfind : List.find? (fun i => decide (s.VariableNames i = [])) (List.range' (i + 1) k) with
      | none => simp only []; ring
      | some j => simp
theorem is_digit_toNat {c : Char} (h : is_digit c = true) : 48 ≤ c.toNat ∧ c.toNat ≤ 57 := by
  simp only [is_digit, Bool.and_eq_true, decide_eq_true_eq, ge_iff_le] at h
  obtain ⟨h1, h2⟩ := h
  have h3 : ('0' : Char).val.toNat ≤ c.val.toNat := h1
  have h4 : c.val.toNat ≤ ('9' : Char).val.toNat := h2
  have e1 : ('0' : Char).val.toNat = 48 := by decide
  have e2 : ('9' : Char).val.toNat = 57 := by decide
  rw [e1] at h3
  rw [e2] at h4
  exact ⟨h3, h4⟩

theorem AtText.current_eq {s : Turing} {t : List Char} (h : AtText s t) :
    current s = first_char t := by
  cases t with
  | nil => simpa [first_char] using h.current_nil
  | cons c t => simpa [first_char] using h.current_cons

theorem skip_text_of_not_blank {t : List Char} (h : is_blank (first_char t) = false) :
    skip_text false t = t := by
  cases t with
  | nil => simp [skip_text]
  | cons c t =>
    simp only [first_char, List.headD_cons, is_blank, Bool.or_eq_false_iff, beq_eq_false_iff_ne,
      ne_eq] at h
    obtain ⟨⟨⟨⟨h1, h2⟩, h3⟩, h4⟩, h5⟩ := h
    simp [skip_text, h1, h2, h3, h4, h5]

theorem get_number_loop_eq (fuel : Nat) (n : Int) (s : Turing) (t : List Char)
    (h : AtText s t) (hf : t.length < fuel) :
    get_number_loop fuel n s
      = some (number_fold n (t.takeWhile is_digit), at_rest s (t.dropWhile is_digit)) := by
  induction t generalizing fuel n s with
  | nil =>
    cases fuel with
    | zero => simp at hf
    | succ f => simp [get_number_loop, h.current_nil, number_fold, at_rest_self h]
  | cons c t ih =>
    cases fuel with
    | zero => simp at hf
    | succ f =>
      simp only [List.length_cons] at hf
      by_cases hc : is_digit c = true
      · have h3 := ih f (toInt8 (n * 10 + toInt8 ((c.toNat : Int) - (('0').toNat : Int))))
          (at_rest s t) h.tail (by omega)
        have hc2 : c ≥ '0' ∧ c ≤ '9' := by
          simpa [is_digit] using hc
        simp only [get_number_loop, h.current_cons, ne_eq, h.ne_nul, not_false_eq_true, hc2,
          and_self, if_true, h.step_cons, h3, at_rest_at_rest,
          List.takeWhile_cons_of_pos hc, List.dropWhile_cons_of_pos hc]
        simp [number_fold]
      · have hc2 : ¬ (c ≥ '0' ∧ c ≤ '9') := by
          simpa [is_digit] using hc
        have hc3 : is_digit c = false := by simpa using hc
        simp [get_number_loop, h.current_cons, hc2, at_rest_self h, number_fold,
          List.takeWhile_cons, List.dropWhile_cons, hc3]

theorem number_fold_mod (n : Int) (m : Nat) (ds : List Char) (hd : ∀ c ∈ ds, is_digit c = true)
    (hnm : toInt8 n = toInt8 m) :
    toInt8 (number_fold n ds)
      = toInt8 (ds.foldl (fun n c => n * 10 + (c.toNat - ('0').toNat)) m : Nat) := by
  induction ds generalizing n m with
  | nil => simpa [number_fold] using hnm
  | cons c ds ih =>
    simp only [number_fold, List.foldl_cons]
    have hc := is_digit_toNat (hd c (by simp))
    have e0 : ('0' : Char).toNat = 48 := by decide
    apply ih
    · intro d hd2; exact hd d (by simp [hd2])
    · rw [e0]
      have e1 : ((m * 10 + (c.toNat - 48) : Nat) : Int) = (m : Int) * 10 + ((c.toNat : Int) - 48) := by
        omega
      rw [e1]
      simp only [Nat.cast_ofNat]
      unfold toInt8 at hnm ⊢
      omega

theorem number_fold_zero (ds : List Char) (hd : ∀ c ∈ ds, is_digit c = true) :
    number_fold 0 ds = toInt8 (digits_value ds) := by
  have h1 := number_fold_mod 0 0 ds hd (by simp)
  have h2 : toInt8 (number_fold 0 ds) = number_fold 0 ds := by
    rcases List.eq_nil_or_concat ds with rfl | ⟨l, c, rfl⟩
    · simp [number_fold, toInt8]
    · simp [number_fold, List.foldl_append, toInt8_toInt8]
  rw [← h2, h1]
  rfl
theorem takeWhile_append_stop (p : Char → Bool) (a r : List Char)
    (h1 : ∀ c ∈ a, p c = true) (h2 : r = [] ∨ p (first_char r) = false) :
    (a ++ r).takeWhile p = a ∧ (a ++ r).dropWhile p = r := by
  induction a with
  | nil =>
    cases r with
    | nil => simp
    | cons c r =>
      have h3 : p c = false := by simpa [first_char] using h2
      simp [List.takeWhile_cons, List.dropWhile_cons, h3]
  | cons c a ih =>
    have hc : p c = true := h1 c (by simp)
    have ih2 := ih (fun d hd => h1 d (by simp [hd]))
    simp [List.takeWhile_cons, List.dropWhile_cons, hc, ih2]

theorem is_digit_NUL : is_digit NUL = false := by decide

theorem is_name_NUL : is_name NUL = false := by decide

theorem first_char_stop (p : Char → Bool) (r : List Char) (h : p (first_char r) = false) :
    r = [] ∨ p (first_char r) = false := Or.inr h

theorem is_digit_not_blank {c : Char} (h : is_digit c = true) : is_blank c = false := by
  have h2 := is_digit_toNat h
  simp only [is_blank, Bool.or_eq_false_iff, beq_eq_false_iff_ne, ne_eq]
  refine ⟨⟨⟨⟨?_, ?_⟩, ?_⟩, ?_⟩, ?_⟩ <;> (intro hc; subst hc; revert h; decide)

theorem is_name_not_blank {c : Char} (h : is_name c = true) : is_blank c = false := by
  simp only [is_blank, Bool.or_eq_false_iff, beq_eq_false_iff_ne, ne_eq]
  refine ⟨⟨⟨⟨?_, ?_⟩, ?_⟩, ?_⟩, ?_⟩ <;> (intro hc; subst hc; revert h; decide)

theorem is_symbol_iff (c : Char) : is_symbol c = true ↔
    c = 'R' ∨ c = 'G' ∨ c = 'B' ∨ c = 'C' ∨ c = 'M' ∨ c = 'Y' ∨ c = 'W' ∨ c = 'K' := by
  simp [is_symbol, or_assoc]

theorem is_operator_iff (c : Char) : is_operator c = true ↔
    c = '+' ∨ c = '-' ∨ c = '*' ∨ c = '/' ∨ c = '&' ∨ c = '|' := by
  simp [is_operator, or_assoc]

theorem is_symbol_not_blank {c : Char} (h : is_symbol c = true) : is_blank c = false := by
  rcases (is_symbol_iff c).1 h with rfl | rfl | rfl | rfl | rfl | rfl | rfl | rfl <;> decide

theorem is_operator_not_blank {c : Char} (h : is_operator c = true) : is_blank c = false := by
  rcases (is_operator_iff c).1 h with rfl | rfl | rfl | rfl | rfl | rfl <;> decide

theorem is_operator_not_name {c : Char} (h : is_operator c = true) : is_name c = false := by
  rcases (is_operator_iff c).1 h with rfl | rfl | rfl | rfl | rfl | rfl <;> decide

theorem is_operator_not_digit {c : Char} (h : is_operator c = true) : is_digit c = false := by
  rcases (is_operator_iff c).1 h with rfl | rfl | rfl | rfl | rfl | rfl <;> decide

theorem get_number_eq (fuel : Nat) (s : Turing) (neg : Bool) (ds r : List Char)
    (h : AtText s ((if neg then ['-'] else []) ++ ds ++ r))
    (hne : ds ≠ []) (hd : ∀ c ∈ ds, is_digit c = true) (hr : is_digit (first_char r) = false)
    (hf : ((if neg then ['-'] else []) ++ ds ++ r).length < fuel) :
    get_number fuel s = some (toInt8 (literal_value neg ds), at_rest s r) := by
  obtain ⟨htw, hdw⟩ := takeWhile_append_stop is_digit ds r hd (Or.inr hr)
  have hval : ∀ b : Bool, toInt8 (if b = true then -toInt8 (digits_value ds) else toInt8 (digits_value ds))
      = toInt8 (literal_value b ds) := by
    intro b
    cases b <;> simp only [literal_value, Bool.false_eq_true, if_false, if_true] <;>
      unfold toInt8 <;> omega
  cases neg with
  | true =>
    simp only [if_true, List.singleton_append, List.cons_append, List.append_assoc, List.nil_append] at h hf
    have h2 := get_number_loop_eq fuel 0 _ _ h.tail (by simp only [List.length_cons] at hf; omega)
    rw [htw, hdw, number_fold_zero ds hd] at h2
    have hv := hval true
    simp only [if_true] at hv
    simp [get_number, h.current_cons, h.step_cons, h2, hv]
  | false =>
    simp only [Bool.false_eq_true, if_false, List.nil_append, List.append_assoc] at h hf
    have h2 := get_number_loop_eq fuel 0 _ _ h hf
    rw [htw, hdw, number_fold_zero ds hd] at h2
    obtain ⟨d, ds2, rfl⟩ := List.exists_cons_of_ne_nil hne
    have hd0 : is_digit d = true := hd d (by simp)
    have hcur : current s = d := h.current_cons
    have hdm : d ≠ '-' := by
      intro hc; subst hc; revert hd0; decide
    have hv := hval false
    simp only [Bool.false_eq_true, if_false] at hv
    simp [get_number, hcur, hdm, h2, hv]
theorem skip_space_not_blank (fuel : Nat) (s : Turing) (t : List Char)
    (h : AtText s t) (hf : t.length < fuel) (hb : is_blank (first_char t) = false) :
    skip_space fuel s = some s := by
  rw [skip_space_eq fuel s t h hf, skip_text_of_not_blank hb, at_rest_self h]

theorem bound_slot_lt {s : Turing} {name : List Char} {i : Nat} (h : bound_slot s name = some i) :
    i < MAX_VARIABLES ∧ s.VariableNames i ≠ [] ∧ s.VariableNames i = name := by
  unfold bound_slot at h
  have h1 := List.find?_some h
  have h2 := List.mem_of_find?_eq_some h
  simp only [ne_eq, decide_eq_true_eq] at h1
  exact ⟨List.mem_range.1 h2, h1.1, h1.2⟩

theorem get_operand_eq (fuel : Nat) (s : Turing) (a : Operand) (r : List Char) (v : Int)
    (h : AtText s (a.text ++ r)) (hv : a.value s = some v) (he : a.ends_before r)
    (hf : (a.text ++ r).length < fuel) :
    get_operand fuel s = some (v, at_rest s r) := by
  cases a with
  | sym c =>
    simp only [Operand.text, List.singleton_append] at h hf
    simp only [Operand.value] at hv
    split at hv
    · rename_i hs
      simp only [Option.some.injEq] at hv
      have hsk := skip_space_not_blank fuel s _ h hf (by simpa [first_char] using is_symbol_not_blank hs)
      subst hv
      simp only [get_operand, hsk, Option.some_bind, h.current_cons, hs, if_true, h.step_cons,
        symbol_test]
      simp only [at_rest]
      split <;> rfl
    · simp at hv
  | var name =>
    simp only [Operand.text, List.cons_append] at h hf
    simp only [Operand.value] at hv
    split at hv
    · rename_i hn
      cases hb : bound_slot s (name.take NAME_LEN) with
      | none => simp [hb] at hv
      | some i =>
        simp only [hb, Option.some_bind] at hv
        split at hv
        swap
        · simp at hv
        simp only [Option.some.injEq] at hv
        obtain ⟨hi1, hi2, hi3⟩ := bound_slot_lt hb
        have hne : name ≠ [] := by
          intro h0; subst h0; simp at hi3; exact hi2 hi3
        obtain ⟨c, cs, rfl⟩ := List.exists_cons_of_ne_nil hne
        have hall : ∀ d ∈ c :: cs, is_name d = true := by
          simpa using hn
        have hc : is_name c = true := hall c (by simp)
        have hsk := skip_space_not_blank fuel s _ h hf (by show is_blank '$' = false; decide)
        have hnsym : is_symbol '$' = false := by decide
        have hsk2 : skip_text false (c :: cs ++ r) = c :: cs ++ r :=
          skip_text_of_not_blank (by simpa [first_char] using is_name_not_blank hc)
        obtain ⟨htw, hdw⟩ := takeWhile_append_stop is_name (c :: cs) r hall (Or.inr he)
        have hgn := get_name_eq fuel _ _ h.tail (by simp only [List.length_cons] at hf ⊢; omega)
        simp only [name_text, name_rest, hsk2, htw, hdw, at_rest_at_rest] at hgn
        have hfv : find_variable (at_rest s r) (List.take NAME_LEN (c :: cs)) = (i : Int) := by
          rw [find_variable_eq]
          have : bound_slot (at_rest s r) (List.take NAME_LEN (c :: cs)) = some i := hb
          rw [this]
        subst hv
        have hd : ('$' : Char) = '$' := rfl
        simp only [get_operand, hsk, Option.some_bind, h.current_cons, hnsym, Bool.false_eq_true,
          if_false, if_true, h.step_cons, hgn, hfv]
        have hne1 : (i : Int) ≠ -1 := by omega
        simp [hne1, at_rest]
    · simp at hv
  | num neg ds =>
    simp only [Operand.text] at h hf
    simp only [Operand.value] at hv
    split at hv
    · rename_i hn
      obtain ⟨hne, hall, hlo, hhi⟩ := hn
      simp only [Option.some.injEq] at hv
      have hall2 : ∀ c ∈ ds, is_digit c = true := by simpa using hall
      have hgn := get_number_eq fuel s neg ds r h hne hall2 he hf
      rw [toInt8_of_range hlo hhi, hv] at hgn
      obtain ⟨d, ds2, rfl⟩ := List.exists_cons_of_ne_nil hne
      have hd0 : is_digit d = true := hall2 d (by simp)
      have hd1 : d ≥ '0' ∧ d ≤ '9' := by simpa [is_digit] using hd0
      have hfc : is_blank (first_char ((if neg = true then ['-'] else []) ++ d :: ds2 ++ r)) = false := by
        cases neg
        · simpa [first_char] using is_digit_not_blank hd0
        · show is_blank '-' = false
          decide
      have hsk := skip_space_not_blank fuel s _ h hf hfc
      have hcur : current s = if neg = true then '-' else d := by
        rw [h.current_eq]; cases neg <;> simp [first_char]
      have hns : is_symbol (if neg = true then '-' else d) = false := by
        cases neg
        · simp only [Bool.false_eq_true, if_false]
          cases hsy : is_symbol d with
          | false => rfl
          | true =>
            rcases (is_symbol_iff d).1 hsy with rfl | rfl | rfl | rfl | rfl | rfl | rfl | rfl <;>
              exact absurd hd0 (by decide)
        · show is_symbol '-' = false
          decide
      have hnd : (if neg = true then '-' else d) ≠ '$' := by
        cases neg
        · simp only [Bool.false_eq_true, if_false]
          intro hc; subst hc; exact absurd hd0 (by decide)
        · show ('-' : Char) ≠ '$'
          decide
      have hdig : (if neg = true then '-' else d) = '-' ∨
          ((if neg = true then '-' else d) ≥ '0' ∧ (if neg = true then '-' else d) ≤ '9') := by
        cases neg
        · right; simpa using hd1
        · left; rfl
      simp only [get_operand, hsk, Option.some_bind, hcur, hns, Bool.false_eq_true, if_false, hnd,
        hdig, if_true, hgn]
    · simp at hv
theorem symbol_test_range (s : Turing) (c : Char) : 0 ≤ symbol_test s c ∧ symbol_test s c ≤ 1 := by
  unfold symbol_test
  split
  · split <;> simp
  · split <;> simp

theorem Operand.value_range {s : Turing} {a : Operand} {v : Int} (h : a.value s = some v) :
    -128 ≤ v ∧ v ≤ 127 := by
  cases a with
  | sym c =>
    simp only [Operand.value] at h
    split at h
    · simp only [Option.some.injEq] at h
      have := symbol_test_range s c
      omega
    · simp at h
  | var name =>
    simp only [Operand.value] at h
    split at h
    · cases hb : bound_slot s (name.take NAME_LEN) with
      | none => simp [hb] at h
      | some i =>
        simp only [hb, Option.some_bind] at h
        split at h
        · simp only [Option.some.injEq] at h
          omega
        · simp at h
    · simp at h
  | num neg ds =>
    simp only [Operand.value] at h
    split at h
    · rename_i hn
      simp only [Option.some.injEq] at h
      omega
    · simp at h

theorem Operand.first_char_text {s : Turing} {a : Operand} {v : Int} (h : a.value s = some v)
    (r : List Char) :
    is_blank (first_char (a.text ++ r)) = false ∧ first_char (a.text ++ r) ≠ '(' := by
  cases a with
  | sym c =>
    simp only [Operand.value] at h
    split at h
    · rename_i hs
      refine ⟨by simpa [first_char, Operand.text] using is_symbol_not_blank hs, ?_⟩
      simp only [first_char, Operand.text, List.singleton_append, List.headD_cons]
      intro hc; subst hc; exact absurd hs (by decide)
    · simp at h
  | var name =>
    constructor
    · show is_blank '$' = false
      decide
    · show ('$' : Char) ≠ '('
      decide
  | num neg ds =>
    simp only [Operand.value] at h
    split at h
    · rename_i hn
      obtain ⟨hne, hall, -, -⟩ := hn
      obtain ⟨d, ds2, rfl⟩ := List.exists_cons_of_ne_nil hne
      have hall2 : ∀ c ∈ d :: ds2, is_digit c = true := by simpa using hall
      have hd0 : is_digit d = true := hall2 d (by simp)
      cases neg
      · refine ⟨by simpa [first_char, Operand.text] using is_digit_not_blank hd0, ?_⟩
        simp only [first_char, Operand.text, Bool.false_eq_true, if_false, List.nil_append,
          List.cons_append, List.headD_cons]
        intro hc; subst hc; exact absurd hd0 (by decide)
      · constructor
        · show is_blank '-' = false
          decide
        · show ('-' : Char) ≠ '('
          decide
    · simp at h

theorem Operand.ends_before_operator (a : Operand) {c : Char} (t : List Char)
    (h : is_operator c = true) : a.ends_before (c :: t) := by
  cases a with
  | sym _ => trivial
  | var _ => exact is_operator_not_name h
  | num _ _ => exact is_operator_not_digit h

theorem Operand.eval_eq {s : Turing} {a : Operand} {v : Int} (h : a.value s = some v) :
    a.eval s = v := by
  simp [Operand.eval, h]

theorem is_space_blank {c : Char} (h : is_space c = true) : is_blank c = true := by
  simp only [is_space, Bool.or_eq_true, beq_iff_eq] at h
  simp only [is_blank, Bool.or_eq_true, beq_iff_eq]
  tauto

theorem is_space_not_name {c : Char} (h : is_space c = true) : is_name c = false := by
  simp only [is_space, Bool.or_eq_true, beq_iff_eq] at h
  rcases h with ((rfl | rfl) | rfl) | rfl <;> decide

theorem is_space_not_digit {c : Char} (h : is_space c = true) : is_digit c = false := by
  simp only [is_space, Bool.or_eq_true, beq_iff_eq] at h
  rcases h with ((rfl | rfl) | rfl) | rfl <;> decide

theorem skip_text_spaces (g x : List Char) (hg : ∀ c ∈ g, is_space c = true) :
    skip_text false (g ++ x) = skip_text false x := by
  induction g with
  | nil => rfl
  | cons c g ih =>
    have hc := hg c (by simp)
    simp only [is_space, Bool.or_eq_true, beq_iff_eq] at hc
    have h1 : c ≠ ';' := by
      rcases hc with ((rfl | rfl) | rfl) | rfl <;> decide
    have h2 : c = ' ' ∨ c = '\t' ∨ c = '\r' ∨ c = '\n' := by tauto
    simp only [List.cons_append, skip_text, h1, if_false, h2, if_true]
    exact ih (fun d hd => hg d (by simp [hd]))

/-- An operand ends in front of a text that starts with whitespace or with an operator. -/
theorem Operand.ends_before_link (a : Operand) (l : Link) (t : List Char)
    (hb : ∀ c ∈ l.before, is_space c = true) (hop : is_operator l.op = true) :
    a.ends_before (l.before ++ l.op :: t) := by
  cases hl : l.before with
  | nil => exact a.ends_before_operator _ hop
  | cons c g =>
    have hc : is_space c = true := hb c (by simp [hl])
    cases a with
    | sym _ => trivial
    | var _ => exact is_space_not_name hc
    | num _ _ => exact is_space_not_digit hc

theorem get_operand_gap (fuel : Nat) (s : Turing) (g : List Char) (a : Operand)
    (r : List Char) (v : Int)
    (h : AtText s (g ++ (a.text ++ r))) (hg : ∀ c ∈ g, is_space c = true)
    (hv : a.value s = some v) (he : a.ends_before r)
    (hf : (g ++ (a.text ++ r)).length < fuel) :
    get_operand fuel s = some (v, at_rest s r) := by
  have hfc := (Operand.first_char_text hv r).1
  have hsk := skip_space_eq fuel s _ h hf
  rw [skip_text_spaces g _ hg, skip_text_of_not_blank hfc] at hsk
  have h2 : AtText (at_rest s (a.text ++ r)) (a.text ++ r) := h.suffix
  have hlen : (a.text ++ r).length < fuel := by
    simp only [List.length_append] at hf ⊢
    omega
  have hget := get_operand_eq fuel (at_rest s (a.text ++ r)) a r v h2 (by simpa using hv) he hlen
  have hsk2 := skip_space_not_blank fuel _ _ h2 hlen hfc
  rw [at_rest_at_rest] at hget
  rw [← hget]
  unfold get_operand
  rw [hsk, hsk2]

@[simp] theorem Operand.value_at_rest (s : Turing) (r : List Char) (a : Operand) :
    a.value (at_rest s r) = a.value s := by
  cases a <;> rfl

@[simp] theorem Operand.eval_at_rest (s : Turing) (r : List Char) (a : Operand) :
    a.eval (at_rest s r) = a.eval s := by
  simp [Operand.eval]

@[simp] theorem chain_fold_at_rest (s : Turing) (r : List Char) (acc : Int)
    (chain : List Link) :
    chain_fold (at_rest s r) acc chain = chain_fold s acc chain := by
  simp only [chain_fold, Operand.eval_at_rest]
  rfl

theorem operand_ends_before_chain (a : Operand) (chain : List Link) (r : List Char)
    (hb : ∀ l ∈ chain, ∀ c ∈ l.before, is_space c = true)
    (hop : ∀ l ∈ chain, is_operator l.op = true)
    (hlast : (last_operand a chain).ends_before r) :
    a.ends_before (chain_text chain ++ r) := by
  cases chain with
  | nil => simpa [chain_text, last_operand] using hlast
  | cons q chain2 =>
    simp only [chain_text, List.cons_append, List.append_assoc]
    exact a.ends_before_link q _ (hb q (by simp)) (hop q (by simp))

theorem get_expression_loop_chain (s : Turing) (r : List Char)
    (hstop : is_operator (first_char (skip_text false r)) = false) :
    ∀ (chain : List Link) (a0 : Operand) (acc : Int) (fuel : Nat),
      AtText (at_rest s (chain_text chain ++ r)) (chain_text chain ++ r) →
      (∀ l ∈ chain, ∀ c ∈ l.before, is_space c = true) →
      (∀ l ∈ chain, ∀ c ∈ l.between, is_space c = true) →
      (∀ l ∈ chain, is_operator l.op = true) →
      (∀ l ∈ chain, (l.operand.value s).isSome = true) →
      (∀ k, 0 < k → k ≤ chain.length →
        -32768 ≤ chain_fold s acc (chain.take k) ∧ chain_fold s acc (chain.take k) ≤ 32767) →
      (last_operand a0 chain).ends_before r →
      (chain_text chain ++ r).length + 1 < fuel →
      get_expression_loop fuel acc (at_rest s (chain_text chain ++ r))
        = some (toInt8 (chain_fold s acc chain), at_rest s (skip_text false r)) := by
  intro chain
  induction chain with
  | nil =>
    intro a0 acc fuel h _ _ _ _ _ _ hf
    cases fuel with
    | zero => simp at hf
    | succ f =>
      simp only [chain_text, List.nil_append] at h hf ⊢
      have hsk := skip_space_eq f _ r h (by omega)
      have hcur := h.skip.current_eq
      simp only [at_rest_at_rest] at hsk hcur
      simp only [get_expression_loop, hsk, Option.some_bind, hcur, hstop, Bool.not_false,
        if_true, chain_fold, List.foldl_nil]
      split <;> rfl
  | cons l chain ih =>
    intro a0 acc fuel h hbef hbet hop hval hrange hlast hf
    cases fuel with
    | zero => simp at hf
    | succ f =>
      obtain ⟨g1, op, g2, a⟩ := l
      simp only [chain_text, List.append_assoc, List.cons_append] at h hf ⊢
      have hg1 : ∀ c ∈ g1, is_space c = true := hbef ⟨g1, op, g2, a⟩ (by simp)
      have hg2 : ∀ c ∈ g2, is_space c = true := hbet ⟨g1, op, g2, a⟩ (by simp)
      have hopc : is_operator op = true := hop ⟨g1, op, g2, a⟩ (by simp)
      obtain ⟨v, hv⟩ := Option.isSome_iff_exists.1 (hval ⟨g1, op, g2, a⟩ (by simp))
      have hv : a.value s = some v := hv
      have hlen1 : (op :: (g2 ++ (a.text ++ (chain_text chain ++ r)))).length
          ≤ (g1 ++ op :: (g2 ++ (a.text ++ (chain_text chain ++ r)))).length := by
        simp only [List.length_append]; omega
      have hlen2 : (chain_text chain ++ r).length + 1
          ≤ (op :: (g2 ++ (a.text ++ (chain_text chain ++ r)))).length := by
        simp only [List.length_cons, List.length_append]; omega
      have hsk := skip_space_eq f _ _ h (by omega)
      rw [skip_text_spaces g1 _ hg1,
        skip_text_of_not_blank (by simpa using is_operator_not_blank hopc),
        at_rest_at_rest] at hsk
      have h2 : AtText (at_rest s (op :: (g2 ++ (a.text ++ (chain_text chain ++ r)))))
          (op :: (g2 ++ (a.text ++ (chain_text chain ++ r)))) := by
        simpa using h.suffix
      have hnp : op ≠ ')' := by
        intro hc; subst hc; exact absurd hopc (by decide)
      have hend : a.ends_before (chain_text chain ++ r) :=
        operand_ends_before_chain a chain r (fun q hq => hbef q (by simp [hq]))
          (fun q hq => hop q (by simp [hq])) (by simpa [last_operand] using hlast)
      have hget := get_operand_gap f (at_rest s (g2 ++ (a.text ++ (chain_text chain ++ r)))) g2 a
        (chain_text chain ++ r) v (by simpa using h2.tail) hg2 (by simpa using hv) hend
        (by simp only [List.length_cons] at hlen1 hf; omega)
      have hvr := Operand.value_range hv
      have hne : v ≠ ERROR := by unfold ERROR; omega
      have hr1 := hrange 1 (by omega) (by simp)
      simp only [List.take_succ_cons, List.take_zero, chain_fold, List.foldl_cons,
        List.foldl_nil, Operand.eval_eq hv] at hr1
      have happ : apply_op s.Target op acc v = exact_op s.Target op acc v := by
        unfold apply_op
        exact toInt16_of_range hr1.1 hr1.2
      have hrec := ih a (exact_op s.Target op acc v) f
        (by
          have hs : (chain_text chain ++ r) <:+ (op :: (g2 ++ (a.text ++ (chain_text chain ++ r)))) :=
            ((List.suffix_append _ _).trans (List.suffix_append _ _)).trans (List.suffix_cons _ _)
          simpa using h2.of_suffix hs)
        (fun q hq => hbef q (by simp [hq]))
        (fun q hq => hbet q (by simp [hq]))
        (fun q hq => hop q (by simp [hq]))
        (fun q hq => hval q (by simp [hq]))
        (by
          intro k hk1 hk2
          have := hrange (k + 1) (by omega) (by simp; omega)
          simpa [chain_fold, Operand.eval_eq hv] using this)
        (by simpa [last_operand] using hlast)
        (by omega)
      have htg : (at_rest s (g1 ++ op :: (g2 ++ (a.text ++ (chain_text chain ++ r))))).Target
          = s.Target := rfl
      simp only [get_expression_loop, hsk, Option.some_bind, h2.current_cons, hnp, if_false,
        hopc, Bool.not_true, Bool.false_eq_true, h2.step_cons, hget, at_rest_at_rest, hne, happ,
        htg, hrec]
      simp [chain_fold, Operand.eval_eq hv]

theorem get_expression_loop_range (fuel : Nat) (acc : Int) (s : Turing) (v : Int) (s2 : Turing)
    (h : get_expression_loop fuel acc s = some (v, s2)) :
    v = ERROR ∨ (-128 ≤ v ∧ v ≤ 127) := by
  induction fuel generalizing acc s with
  | zero => simp [get_expression_loop] at h
  | succ f ih =>
    simp only [get_expression_loop] at h
    cases hsk : skip_space f s with
    | none => simp [hsk] at h
    | some s1 =>
      simp only [hsk, Option.some_bind] at h
      split at h
      · simp only [Option.some.injEq, Prod.mk.injEq] at h
        right; rw [← h.1]; exact toInt8_range acc
      · split at h
        · simp only [Option.some.injEq, Prod.mk.injEq] at h
          right; rw [← h.1]; exact toInt8_range acc
        · cases hop : get_operand f (step s1) with
          | none => simp [hop] at h
          | some r =>
            simp only [hop, Option.some_bind] at h
            split at h
            · simp only [Option.some.injEq, Prod.mk.injEq] at h
              left; exact h.1.symm
            · exact ih _ _ h

theorem get_expression_range (fuel : Nat) (s : Turing) (v : Int) (s2 : Turing)
    (h : get_expression fuel s = some (v, s2)) :
    v = ERROR ∨ (-128 ≤ v ∧ v ≤ 127) := by
  cases fuel with
  | zero => simp [get_expression] at h
  | succ f =>
    simp only [get_expression] at h
    cases hsk : skip_space f s with
    | none => simp [hsk] at h
    | some s1 =>
      simp only [hsk, Option.some_bind] at h
      split at h
      · cases hin : get_expression f (step s1) with
        | none => simp [hin] at h
        | some r =>
          simp only [hin, Option.some_bind] at h
          split at h
          · simp only [Option.some.injEq, Prod.mk.injEq] at h
            left; exact h.1.symm
          · split at h
            · simp only [Option.some.injEq, Prod.mk.injEq] at h
              left; exact h.1.symm
            · exact get_expression_loop_range _ _ _ _ _ h
      · cases hop : get_operand f s1 with
        | none => simp [hop] at h
        | some r =>
          simp only [hop, Option.some_bind] at h
          split at h
          · simp only [Option.some.injEq, Prod.mk.injEq] at h
            left; exact h.1.symm
          · exact get_expression_loop_range _ _ _ _ _ h

theorem get_expression_paren (fuel : Nat) (s s1 : Turing) (v : Int) (s2 : Turing)
    (h : get_expression (fuel + 1) s = some (v, s2)) (hv : v ≠ ERROR)
    (hsk : skip_space fuel s = some s1) (hp : current s1 = '(') :
    ∃ w s3, get_expression fuel (step s1) = some (w, s3) ∧ (-128 ≤ w ∧ w ≤ 127) ∧
      current s3 = ')' ∧ get_expression_loop fuel w (step s3) = some (v, s2) := by
  simp only [get_expression, hsk, Option.some_bind, hp, if_true] at h
  cases hin : get_expression fuel (step s1) with
  | none => simp [hin] at h
  | some r =>
    obtain ⟨w, s3⟩ := r
    simp only [hin, Option.some_bind] at h
    split at h
    · simp only [Option.some.injEq, Prod.mk.injEq] at h
      exact absurd h.1.symm hv
    · rename_i hc
      split at h
      · simp only [Option.some.injEq, Prod.mk.injEq] at h
        exact absurd h.1.symm hv
      · rename_i hw
        refine ⟨w, s3, rfl, ?_, by simpa using hc, h⟩
        rcases get_expression_range _ _ _ _ hin with h1 | h1
        · exact absurd h1 hw
        · exact h1
theorem current_lt_of_ne {s : Turing} (h : current s ≠ NUL) :
    s.ProgramPosition < s.ProgramLength := by
  unfold current at h
  by_contra hc
  have : s.ProgramPosition ≥ s.ProgramLength := by omega
  simp [this] at h

theorem step_of_current_ne {s : Turing} (h : current s ≠ NUL) :
    step s = { s with ProgramPosition := s.ProgramPosition + 1 } := by
  unfold step
  simp [current_lt_of_ne h]

theorem is_symbol_ne_NUL {c : Char} (h : is_symbol c = true) : c ≠ NUL := by
  intro hc; subst hc; exact absurd h (by decide)

theorem skip_space_of_not_blank (fuel : Nat) (s : Turing) (h : is_blank (current s) = false) :
    skip_space (fuel + 1) s = some s := by
  simp only [is_blank, Bool.or_eq_false_iff, beq_eq_false_iff_ne, ne_eq] at h
  obtain ⟨⟨⟨⟨h1, h2⟩, h3⟩, h4⟩, h5⟩ := h
  simp [skip_space, h1, h2, h3, h4, h5]

theorem comment_state_append (b : Bool) (a c : List Char) :
    comment_state b (a ++ c) = comment_state (comment_state b a) c := by
  induction a generalizing b with
  | nil => rfl
  | cons x a ih =>
    show comment_state _ (a ++ c) = _
    rw [ih]
    rfl

theorem comment_state_names (b : Bool) (nm : List Char) (h : ∀ x ∈ nm, is_name x = true) :
    comment_state b nm = b := by
  induction nm generalizing b with
  | nil => rfl
  | cons x nm ih =>
    have hx : is_name x = true := h x (by simp)
    have h1 : x ≠ ';' := by intro hc; subst hc; exact absurd hx (by decide)
    have h2 : x ≠ '\n' := by intro hc; subst hc; exact absurd hx (by decide)
    simp only [comment_state, h1, h2, if_false]
    exact ih b (fun y hy => h y (by simp [hy]))

/-- `skip_space` does not run past a character outside comments that is not blank. -/
theorem skip_text_stops (c : Char) (more : List Char) (hc : is_blank c = false) :
    ∀ (d : List Char) (b : Bool), comment_state b d = false →
      ∃ d1 d2, d = d1 ++ d2 ∧ skip_text b (d ++ c :: more) = d2 ++ c :: more ∧
        comment_state b d1 = false ∧ (d2 = [] ∨ is_blank (first_char d2) = false) := by
  intro d
  induction d with
  | nil =>
    intro b hb
    simp only [comment_state] at hb
    subst hb
    refine ⟨[], [], rfl, ?_, rfl, Or.inl rfl⟩
    simpa using skip_text_of_not_blank (t := c :: more) (by simpa [first_char] using hc)
  | cons x d ih =>
    intro b hb
    simp only [comment_state] at hb
    cases b with
    | true =>
      by_cases hx : x = '\n'
      · subst hx
        have hb2 : comment_state false d = false := by simpa using hb
        obtain ⟨d1, d2, h1, h2, h3, h4⟩ := ih false hb2
        refine ⟨'\n' :: d1, d2, by simp [h1], ?_, ?_, h4⟩
        · simpa [skip_text] using h2
        · simpa [comment_state] using h3
      · have hb2 : comment_state true d = false := by
          by_cases hs : x = ';'
          · simpa [hs] using hb
          · simpa [hs, hx] using hb
        obtain ⟨d1, d2, h1, h2, h3, h4⟩ := ih true hb2
        refine ⟨x :: d1, d2, by simp [h1], ?_, ?_, h4⟩
        · simpa [skip_text, hx] using h2
        · by_cases hs : x = ';'
          · simpa [comment_state, hs] using h3
          · simpa [comment_state, hs, hx] using h3
    | false =>
      by_cases hs : x = ';'
      · subst hs
        have hb2 : comment_state true d = false := by simpa using hb
        obtain ⟨d1, d2, h1, h2, h3, h4⟩ := ih true hb2
        refine ⟨';' :: d1, d2, by simp [h1], ?_, ?_, h4⟩
        · simpa [skip_text] using h2
        · simpa [comment_state] using h3
      · by_cases hw : x = ' ' ∨ x = '\t' ∨ x = '\r' ∨ x = '\n'
        · have hb2 : comment_state false d = false := by
            by_cases hn : x = '\n'
            · simpa [hs, hn] using hb
            · simpa [hs, hn] using hb
          obtain ⟨d1, d2, h1, h2, h3, h4⟩ := ih false hb2
          refine ⟨x :: d1, d2, by simp [h1], ?_, ?_, h4⟩
          · simpa [skip_text, hs, hw] using h2
          · by_cases hn : x = '\n'
            · simpa [comment_state, hs, hn] using h3
            · simpa [comment_state, hs, hn] using h3
        · refine ⟨[], x :: d, rfl, ?_, rfl, Or.inr ?_⟩
          · simp [skip_text, hs, hw]
          · simp only [not_or] at hw
            simp [first_char, is_blank, hs, hw.1, hw.2.1, hw.2.2.1, hw.2.2.2]

/-- Dropping name characters does not run past a character that is not a name character. -/
theorem dropWhile_name_stops (c : Char) (more : List Char) (hc : is_name c = false) :
    ∀ d : List Char, ∃ nm d3, d = nm ++ d3 ∧ (∀ x ∈ nm, is_name x = true) ∧
      List.takeWhile is_name (d ++ c :: more) = nm ∧
      List.dropWhile is_name (d ++ c :: more) = d3 ++ c :: more := by
  intro d
  induction d with
  | nil =>
    refine ⟨[], [], rfl, by simp, ?_, ?_⟩
    · simp [List.takeWhile_cons, hc]
    · simp [List.dropWhile_cons, hc]
  | cons x d ih =>
    by_cases hx : is_name x = true
    · obtain ⟨nm, d3, h1, h2, h3, h4⟩ := ih
      refine ⟨x :: nm, d3, by simp [h1], ?_, ?_, ?_⟩
      · intro y hy
        rcases List.mem_cons.1 hy with rfl | hy
        · exact hx
        · exact h2 y hy
      · simp [List.takeWhile_cons, hx, h3]
      · simp [List.dropWhile_cons, hx, h4]
    · simp only [Bool.not_eq_true] at hx
      refine ⟨[], x :: d, rfl, by simp, ?_, ?_⟩
      · simp [List.takeWhile_cons, hx]
      · simp [List.dropWhile_cons, hx]
theorem AtText.current_ne_nul {s : Turing} {t : List Char} (h : AtText s t) (ht : t ≠ []) :
    current s ≠ NUL := by
  obtain ⟨c, cs, rfl⟩ := List.exists_cons_of_ne_nil ht
  rw [h.current_cons]
  exact h.ne_nul

theorem AtText.rest {s : Turing} {t r : List Char} (h : AtText (at_rest s t) t) (hr : r <:+ t) :
    AtText (at_rest s r) r := by
  simpa using h.of_suffix hr

theorem comment_state_not_blank (b : Bool) (x : Char) (d : List Char)
    (hx : is_blank x = false) : comment_state b (x :: d) = comment_state b d := by
  simp only [is_blank, Bool.or_eq_false_iff, beq_eq_false_iff_ne, ne_eq] at hx
  simp [comment_state, hx.1.1.1.1, hx.2]

theorem do_branch_loop_found (s : Turing) (label more : List Char)
    (hmatch : name_text more = label) :
    ∀ (fuel : Nat) (d : List Char),
      comment_state false d = false →
      AtText (at_rest s (d ++ '#' :: more)) (d ++ '#' :: more) →
      (∀ d1 d2, d = d1 ++ '#' :: d2 → comment_state false d1 = false →
        name_text (d2 ++ '#' :: more) ≠ label) →
      (d ++ '#' :: more).length + 1 < fuel →
      do_branch_loop fuel label (at_rest s (d ++ '#' :: more))
        = some (at_rest s (name_rest more)) := by
  intro fuel
  induction fuel with
  | zero => intro d _ _ _ hf; simp at hf
  | succ f ih =>
    intro d hd h hfirst hf
    have hblank : is_blank '#' = false := by decide
    have hnn : is_name '#' = false := by decide
    have hcur : current (at_rest s (d ++ '#' :: more)) ≠ NUL := h.current_ne_nul (by simp)
    have hsk := skip_space_eq f _ _ h (by omega)
    obtain ⟨d1, d2, hd12, hst, hc1, hd2⟩ := skip_text_stops '#' more hblank d false hd
    rw [hst, at_rest_at_rest] at hsk
    have hsuf : (d2 ++ '#' :: more) <:+ (d ++ '#' :: more) := by
      rw [hd12, List.append_assoc]; exact List.suffix_append _ _
    have h2 : AtText (at_rest s (d2 ++ '#' :: more)) (d2 ++ '#' :: more) := h.rest hsuf
    have hcs2 : comment_state false d2 = false := by
      rw [hd12, comment_state_append, hc1] at hd; exact hd
    simp only [do_branch_loop, hcur, if_false, hsk, Option.some_bind]
    cases d2 with
    | nil =>
      simp only [List.nil_append] at h2 hsuf ⊢
      have hgn := get_name_eq f _ _ h2.tail (by
        have := hsuf.length_le
        simp only [List.length_cons] at this hf
        omega)
      simp only [at_rest_at_rest] at hgn
      simp [h2.current_cons, h2.step_cons, hgn, hmatch, (cmp_strs_iff _ _).2 rfl]
    | cons x d2 =>
      simp only [List.cons_append] at h2 hsuf ⊢
      have hxb : is_blank x = false := by
        rcases hd2 with h0 | h0
        · simp at h0
        · simpa [first_char] using h0
      have hcs3 : comment_state false d2 = false := by
        rw [comment_state_not_blank _ _ _ hxb] at hcs2; exact hcs2
      have hlen : (d2 ++ '#' :: more).length + 1 ≤ (d ++ '#' :: more).length := by
        have := hsuf.length_le
        simp only [List.length_cons] at this ⊢
        omega
      by_cases hx : x = '#'
      · subst hx
        have hne := hfirst d1 d2 hd12 hc1
        have hgn := get_name_eq f _ _ h2.tail (by omega)
        simp only [at_rest_at_rest] at hgn
        obtain ⟨e1, e2, he12, hst2, hce1, -⟩ := skip_text_stops '#' more hblank d2 false hcs3
        obtain ⟨nm, d3, hnm, hall, -, hdw⟩ := dropWhile_name_stops '#' more hnn e2
        have hrest : name_rest (d2 ++ '#' :: more) = d3 ++ '#' :: more := by
          simp only [name_rest, hst2, hdw]
        have hcmp : cmp_strs (name_text (d2 ++ '#' :: more)) label = false := by
          rw [← Bool.not_eq_true, cmp_strs_iff]; exact hne
        have hsuf3 : (d3 ++ '#' :: more) <:+ (d2 ++ '#' :: more) := by
          rw [← hrest]; exact name_rest_suffix _
        have hcs4 : comment_state false d3 = false := by
          rw [he12, hnm, comment_state_append, hce1, comment_state_append,
            comment_state_names _ _ hall] at hcs3
          exact hcs3
        have hrec := ih d3 hcs4 (h.rest (hsuf3.trans ((List.suffix_cons _ _).trans hsuf)))
          (by
            intro g1 g2 hg hcg
            apply hfirst (d1 ++ '#' :: (e1 ++ (nm ++ g1))) g2
            · rw [hd12, he12, hnm, hg]; simp
            · rw [comment_state_append, hc1, comment_state_not_blank _ _ _ hblank,
                comment_state_append, hce1, comment_state_append,
                comment_state_names _ _ hall]
              exact hcg)
          (by have := hsuf3.length_le; omega)
        simp only [h2.current_cons, ne_eq, not_true_eq_false, if_false, h2.step_cons,
          at_rest_at_rest, hgn,
          Option.some_bind, hrest, hcmp, Bool.false_eq_true, hrec]
      · have hrec := ih d2 hcs3 (h.rest ((List.suffix_cons _ _).trans hsuf))
          (by
            intro g1 g2 hg hcg
            apply hfirst (d1 ++ x :: g1) g2
            · rw [hd12, hg]; simp
            · rw [comment_state_append, hc1, comment_state_not_blank _ _ _ hxb]
              exact hcg)
          (by omega)
        simp only [h2.current_cons, ne_eq, hx, not_false_eq_true, if_true, h2.step_cons,
          at_rest_at_rest, hrec]
theorem split_at_index {P : List Char} {i : Nat} {c : Char} (h : P[i]? = some c) :
    P = P.take i ++ c :: P.drop (i + 1) := by
  obtain ⟨hi, hc⟩ := List.getElem?_eq_some_iff.1 h
  have h1 := List.drop_eq_getElem_cons hi
  rw [hc] at h1
  rw [← h1, List.take_append_drop]

theorem index_of_split {d1 d2 : List Char} {c : Char} :
    (d1 ++ c :: d2)[d1.length]? = some c ∧ (d1 ++ c :: d2).take d1.length = d1 ∧
      (d1 ++ c :: d2).drop (d1.length + 1) = d2 := by
  refine ⟨?_, by simp, ?_⟩
  · rw [List.getElem?_append_right (le_refl _)]
    simp
  · rw [← List.drop_drop]
    simp


@[simp] theorem first_char_cons (c : Char) (t : List Char) : first_char (c :: t) = c := rfl

theorem get_expression_of_chain (s : Turing) (g0 : List Char) (a0 : Operand)
    (chain : List Link) (r : List Char) (fuel : Nat)
    (h : AtText s (g0 ++ (a0.text ++ (chain_text chain ++ r))))
    (hg0 : ∀ c ∈ g0, is_space c = true)
    (h0 : (a0.value s).isSome = true)
    (hbef : ∀ l ∈ chain, ∀ c ∈ l.before, is_space c = true)
    (hbet : ∀ l ∈ chain, ∀ c ∈ l.between, is_space c = true)
    (hop : ∀ l ∈ chain, is_operator l.op = true)
    (hval : ∀ l ∈ chain, (l.operand.value s).isSome = true)
    (hrange : ∀ k, 0 < k → k ≤ chain.length →
      -32768 ≤ chain_fold s (a0.eval s) (chain.take k) ∧
        chain_fold s (a0.eval s) (chain.take k) ≤ 32767)
    (hlast : (last_operand a0 chain).ends_before r)
    (hstop : is_operator (first_char (skip_text false r)) = false)
    (hf : (g0 ++ (a0.text ++ (chain_text chain ++ r))).length + 2 < fuel) :
    get_expression fuel s
      = some (toInt8 (chain_fold s (a0.eval s) chain), at_rest s (skip_text false r)) := by
  cases fuel with
  | zero => simp at hf
  | succ f =>
    obtain ⟨v, hv⟩ := Option.isSome_iff_exists.1 h0
    obtain ⟨hb, hp⟩ := Operand.first_char_text hv (chain_text chain ++ r)
    have hsk := skip_space_eq f s _ h (by omega)
    rw [skip_text_spaces g0 _ hg0, skip_text_of_not_blank hb] at hsk
    have h2 : AtText (at_rest s (a0.text ++ (chain_text chain ++ r)))
        (a0.text ++ (chain_text chain ++ r)) := h.suffix
    have hlen : (a0.text ++ (chain_text chain ++ r)).length
        ≤ (g0 ++ (a0.text ++ (chain_text chain ++ r))).length := by
      simp only [List.length_append]; omega
    have hend : a0.ends_before (chain_text chain ++ r) :=
      operand_ends_before_chain a0 chain r hbef hop hlast
    have hget := get_operand_eq f _ a0 (chain_text chain ++ r) v h2 (by simpa using hv) hend
      (by omega)
    rw [at_rest_at_rest] at hget
    have hvr := Operand.value_range hv
    have hne : v ≠ ERROR := by unfold ERROR; omega
    have hloop := get_expression_loop_chain s r hstop chain a0 v f (by simpa using h2.suffix)
      hbef hbet hop hval (by simpa [Operand.eval_eq hv] using hrange) hlast
      (by simp only [List.length_append] at hf hlen ⊢; omega)
    simp only [get_expression, hsk, Option.some_bind, h2.current_eq, hp, if_false, hget, hne,
      hloop, Operand.eval_eq hv]

theorem do_assignment_tail_eq (fuel : Nat) (s : Turing) (a : Assign) (r : List Char) (i : Nat)
    (h : AtText s (a.text ++ r)) (hv : a.valid) (he : a.ends_before r)
    (hrange : -128 ≤ s.VariableValues i ∧ s.VariableValues i ≤ 127)
    (hf : (a.text ++ r).length + 3 < fuel) :
    do_assignment_tail fuel (i : Int) s
      = some { at_rest s (a.rest r) with
          VariableValues := Function.update s.VariableValues i (a.result (s.VariableValues i)) } := by
  cases a with
  | inc =>
    simp only [Assign.text, List.cons_append, List.nil_append] at h hf
    have hsk := skip_space_not_blank fuel s _ h (by omega) (by rw [first_char_cons]; decide)
    have h2 := h.tail
    simp only [do_assignment_tail, hsk, Option.some_bind, h.current_cons, if_true, next_eq,
      h.step_cons, h2.current_cons, h2.step_cons, at_rest_at_rest, Int.toNat_ofNat,
      Assign.rest, Assign.result]
    by_cases hlt : s.VariableValues i < 127
    · have e1 : toInt8 (s.VariableValues i + 1) = s.VariableValues i + 1 :=
        toInt8_of_range (by omega) (by omega)
      have e2 : min (s.VariableValues i + 1) 127 = s.VariableValues i + 1 := by omega
      simp [at_rest, hlt, e1, e2]
    · have e2 : min (s.VariableValues i + 1) 127 = s.VariableValues i := by omega
      simp [at_rest, hlt, e2]
  | dec =>
    simp only [Assign.text, List.cons_append, List.nil_append] at h hf
    have hsk := skip_space_not_blank fuel s _ h (by omega) (by rw [first_char_cons]; decide)
    have h2 := h.tail
    have hne : ('-' : Char) ≠ '+' := by decide
    simp only [do_assignment_tail, hsk, Option.some_bind, h.current_cons, hne, if_false, if_true,
      next_eq, h.step_cons, h2.current_cons, h2.step_cons, at_rest_at_rest, Int.toNat_ofNat,
      Assign.rest, Assign.result]
    by_cases hlt : s.VariableValues i > -128
    · have e1 : toInt8 (s.VariableValues i - 1) = s.VariableValues i - 1 :=
        toInt8_of_range (by omega) (by omega)
      have e2 : max (s.VariableValues i - 1) (-128) = s.VariableValues i - 1 := by omega
      simp [at_rest, hlt, e1, e2]
    · have e2 : max (s.VariableValues i - 1) (-128) = s.VariableValues i := by omega
      simp [at_rest, hlt, e2]
  | set neg ds =>
    simp only [Assign.text, List.cons_append] at h hf
    obtain ⟨he1, he2⟩ := he
    have hval : (Operand.num neg ds).value (at_rest s ((Operand.num neg ds).text ++ r))
        = some (literal_value neg ds) := by
      simp only [Operand.value_at_rest, Operand.value]
      exact if_pos hv
    have hsk := skip_space_not_blank fuel s _ h (by omega) (by rw [first_char_cons]; decide)
    have hne1 : ('=' : Char) ≠ '+' := by decide
    have hne2 : ('=' : Char) ≠ '-' := by decide
    have hge := get_expression_of_chain (at_rest s ((Operand.num neg ds).text ++ r)) []
      (Operand.num neg ds) [] r fuel (by simpa [chain_text] using h.tail) (by simp)
      (by rw [hval]; rfl) (by simp) (by simp) (by simp) (by simp)
      (by intro k hk1 hk2; simp at hk2; omega)
      he1 he2 (by simp only [chain_text, List.nil_append, List.length_cons] at hf ⊢; omega)
    simp only [Operand.eval_eq hval, chain_fold, List.foldl_nil, at_rest_at_rest] at hge
    have hr2 := hv.2.2
    have e1 : toInt8 (literal_value neg ds) = literal_value neg ds :=
      toInt8_of_range hr2.1 hr2.2
    have hne3 : literal_value neg ds ≠ ERROR := by unfold ERROR; omega
    simp only [do_assignment_tail, hsk, Option.some_bind, h.current_cons, hne1, hne2, if_false,
      if_true, h.step_cons, hge, e1, hne3, Int.toNat_ofNat, Assign.rest, Assign.result]
    rfl
theorem Assign.first_not_name (a : Assign) (r : List Char) :
    is_name (first_char (a.text ++ r)) = false := by
  cases a <;> simp only [Assign.text, List.cons_append, first_char_cons] <;> decide

@[simp] theorem bound_slot_at_rest (s : Turing) (r name : List Char) :
    bound_slot (at_rest s r) name = bound_slot s name := rfl

@[simp] theorem free_slot_at_rest (s : Turing) (r : List Char) :
    free_slot (at_rest s r) = free_slot s := rfl

theorem free_slot_lt {s : Turing} {j : Nat} (h : free_slot s = some j) :
    j < MAX_VARIABLES ∧ s.VariableNames j = [] := by
  unfold free_slot at h
  have h1 := List.find?_some h
  have h2 := List.mem_of_find?_eq_some h
  simp only [decide_eq_true_eq] at h1
  exact ⟨List.mem_range.1 h2, h1⟩

theorem add_variable_eq (s : Turing) (name : List Char) (value : Int) :
    add_variable s name value = match free_slot s with
      | some j => ((j : Int), { s with
          VariableNames := Function.update s.VariableNames j name
          VariableValues := Function.update s.VariableValues j value })
      | none => (-1, s) := by
  unfold add_variable
  simp only [free_slot_from_eq, free_slot, List.range_eq_range']
  cases hfind : List.find? (fun i => decide (s.VariableNames i = [])) (List.range' 0 MAX_VARIABLES) with
  | none => simp
  | some j =>
    have h2 := List.mem_of_find?_eq_some hfind
    have h3 : j < MAX_VARIABLES := by
      have := List.mem_range'_1.1 h2
      omega
    have h4 : ¬ j ≥ MAX_VARIABLES := by omega
    simp only [h4, if_false]

theorem do_assignment_name (fuel : Nat) (s : Turing) (name : List Char) (a : Assign)
    (r : List Char) (h : AtText s (assign_text name a ++ r))
    (hne : name ≠ []) (hall : ∀ c ∈ name, is_name c = true)
    (hf : (assign_text name a ++ r).length < fuel) :
    get_name fuel (step s) = some (name.take NAME_LEN, at_rest s (a.text ++ r)) := by
  simp only [assign_text, List.cons_append, List.append_assoc] at h hf
  obtain ⟨c, cs, rfl⟩ := List.exists_cons_of_ne_nil hne
  have hc : is_name c = true := hall c (by simp)
  have hsk : skip_text false (c :: cs ++ (a.text ++ r)) = c :: cs ++ (a.text ++ r) :=
    skip_text_of_not_blank (by simpa using is_name_not_blank hc)
  obtain ⟨htw, hdw⟩ := takeWhile_append_stop is_name (c :: cs) (a.text ++ r) hall
    (Or.inr (a.first_not_name r))
  have hgn := get_name_eq fuel _ _ h.tail (by simp only [List.length_cons] at hf; omega)
  simp only [name_text, name_rest, hsk, htw, hdw, at_rest_at_rest] at hgn
  rw [h.step_cons]
  exact hgn

theorem do_assignment_bound (fuel : Nat) (s : Turing) (name : List Char) (a : Assign)
    (r : List Char) (i : Nat) (h : AtText s (assign_text name a ++ r))
    (hne : name ≠ []) (hall : ∀ c ∈ name, is_name c = true)
    (hv : a.valid) (he : a.ends_before r)
    (hb : bound_slot s (name.take NAME_LEN) = some i)
    (hrange : -128 ≤ s.VariableValues i ∧ s.VariableValues i ≤ 127)
    (hf : (assign_text name a ++ r).length + 4 < fuel) :
    do_assignment fuel s
      = some { at_rest s (a.rest r) with
          VariableValues := Function.update s.VariableValues i (a.result (s.VariableValues i)) } := by
  have hgn := do_assignment_name fuel s name a r h hne hall (by omega)
  have hsuf : (a.text ++ r) <:+ (assign_text name a ++ r) := by
    simp only [assign_text, List.cons_append, List.append_assoc]
    exact (List.suffix_append _ _).trans (List.suffix_cons _ _)
  have h2 := h.of_suffix hsuf
  have hfv : find_variable (at_rest s (a.text ++ r)) (List.take NAME_LEN name) = (i : Int) := by
    rw [find_variable_eq, bound_slot_at_rest, hb]
  have hni : (i : Int) ≠ -1 := by omega
  have htail := do_assignment_tail_eq fuel (at_rest s (a.text ++ r)) a r i h2 hv he hrange
    (by have := hsuf.length_le; omega)
  simp only [do_assignment, hgn, Option.some_bind, hfv, hni, if_false, htail]
  rfl

theorem do_assignment_fresh (fuel : Nat) (s : Turing) (name : List Char) (a : Assign)
    (r : List Char) (j : Nat) (h : AtText s (assign_text name a ++ r))
    (hne : name ≠ []) (hall : ∀ c ∈ name, is_name c = true)
    (hv : a.valid) (he : a.ends_before r)
    (hb : bound_slot s (name.take NAME_LEN) = none) (hfree : free_slot s = some j)
    (hf : (assign_text name a ++ r).length + 4 < fuel) :
    do_assignment fuel s
      = some { at_rest s (a.rest r) with
          VariableNames := Function.update s.VariableNames j (name.take NAME_LEN)
          VariableValues := Function.update s.VariableValues j (a.result 0) } := by
  have hgn := do_assignment_name fuel s name a r h hne hall (by omega)
  have hsuf : (a.text ++ r) <:+ (assign_text name a ++ r) := by
    simp only [assign_text, List.cons_append, List.append_assoc]
    exact (List.suffix_append _ _).trans (List.suffix_cons _ _)
  have h2 := h.of_suffix hsuf
  have hfv : find_variable (at_rest s (a.text ++ r)) (List.take NAME_LEN name) = -1 := by
    rw [find_variable_eq, bound_slot_at_rest, hb]
  have hadd := add_variable_eq (at_rest s (a.text ++ r)) (List.take NAME_LEN name) 0
  rw [free_slot_at_rest, hfree] at hadd
  have hni : (j : Int) ≠ -1 := by omega
  have h3 : AtText ({ at_rest s (a.text ++ r) with
      VariableNames := Function.update s.VariableNames j (name.take NAME_LEN)
      VariableValues := Function.update s.VariableValues j 0 } : Turing) (a.text ++ r) :=
    ⟨h2.nonneg, h2.length_eq, h2.chars, h2.no_nul⟩
  have htail := do_assignment_tail_eq fuel _ a r j h3 hv he (by simp)
    (by have := hsuf.length_le; omega)
  simp only [do_assignment, hgn, Option.some_bind, hfv, if_true, hadd, hni, if_false]
  rw [show ({ at_rest s (a.text ++ r) with
      VariableNames := Function.update (at_rest s (a.text ++ r)).VariableNames j (name.take NAME_LEN)
      VariableValues := Function.update (at_rest s (a.text ++ r)).VariableValues j 0 } : Turing)
      = { at_rest s (a.text ++ r) with
      VariableNames := Function.update s.VariableNames j (name.take NAME_LEN)
      VariableValues := Function.update s.VariableValues j 0 } from rfl, htail]
  simp [at_rest]

theorem do_assignment_full (fuel : Nat) (s : Turing) (name : List Char) (a : Assign)
    (r : List Char) (h : AtText s (assign_text name a ++ r))
    (hne : name ≠ []) (hall : ∀ c ∈ name, is_name c = true)
    (hb : bound_slot s (name.take NAME_LEN) = none) (hfree : free_slot s = none)
    (hf : (assign_text name a ++ r).length + 4 < fuel) :
    do_assignment fuel s = some (error (at_rest s (a.text ++ r)) ERR_TOO_MANY_VARIABLES) := by
  have hgn := do_assignment_name fuel s name a r h hne hall (by omega)
  have hfv : find_variable (at_rest s (a.text ++ r)) (List.take NAME_LEN name) = -1 := by
    rw [find_variable_eq, bound_slot_at_rest, hb]
  have hadd := add_variable_eq (at_rest s (a.text ++ r)) (List.take NAME_LEN name) 0
  rw [free_slot_at_rest, hfree] at hadd
  simp only [do_assignment, hgn, Option.some_bind, hfv, if_true, hadd]
theorem find?_range'_first (p : Nat → Bool) (a n k : Nat) (h1 : a ≤ k) (h2 : k < a + n)
    (hk : p k = true) (hlt : ∀ i, a ≤ i → i < k → p i = false) :
    (List.range' a n).find? p = some k := by
  induction n generalizing a with
  | zero => omega
  | succ n ih =>
    rw [List.range'_succ, List.find?_cons]
    by_cases hak : a = k
    · subst hak; simp [hk]
    · have := hlt a (le_refl _) (by omega)
      simp only [this]
      exact ih (a + 1) (by omega) (by omega) (fun i hi1 hi2 => hlt i (by omega) hi2)

theorem find?_range'_none (p : Nat → Bool) (a n : Nat)
    (h : ∀ i, a ≤ i → i < a + n → p i = false) :
    (List.range' a n).find? p = none := by
  rw [List.find?_eq_none]
  intro x hx
  have := List.mem_range'_1.1 hx
  simp [h x this.1 this.2]

theorem free_slot_eq_some (s : Turing) (k : Nat) (hk : k < MAX_VARIABLES)
    (h1 : ∀ i, i < k → s.VariableNames i ≠ []) (h2 : s.VariableNames k = []) :
    free_slot s = some k := by
  unfold free_slot
  rw [List.range_eq_range']
  exact find?_range'_first _ 0 _ k (by omega) (by omega) (by simp [h2])
    (fun i _ hi => by simp [h1 i hi])

theorem free_slot_eq_none (s : Turing) (h1 : ∀ i, i < MAX_VARIABLES → s.VariableNames i ≠ []) :
    free_slot s = none := by
  unfold free_slot
  rw [List.range_eq_range']
  exact find?_range'_none _ 0 _ (fun i _ hi => by simp [h1 i (by omega)])

theorem bound_slot_eq_none (s : Turing) (name : List Char)
    (h : ∀ i, i < MAX_VARIABLES → s.VariableNames i = [] ∨ s.VariableNames i ≠ name) :
    bound_slot s name = none := by
  unfold bound_slot
  rw [List.range_eq_range']
  apply find?_range'_none
  intro i _ hi
  rcases h i (by omega) with h0 | h0
  · simp [h0]
  · simp [h0]

theorem bound_slot_eq_some (s : Turing) (name : List Char) (k : Nat) (hk : k < MAX_VARIABLES)
    (hne : name ≠ []) (h1 : s.VariableNames k = name)
    (h2 : ∀ i, i < k → s.VariableNames i ≠ name) :
    bound_slot s name = some k := by
  unfold bound_slot
  rw [List.range_eq_range']
  exact find?_range'_first _ 0 _ k (by omega) (by omega) (by simp [h1, hne])
    (fun i _ hi => by simp [h2 i hi])

theorem table_names_lt (k : Nat) (instrs : List (List Char × Assign)) (names : Nat → List Char)
    (i : Nat) (hi : i < k) : table_names k instrs names i = names i := by
  induction instrs generalizing k names with
  | nil => rfl
  | cons p rest ih =>
    simp only [table_names]
    rw [ih (k + 1) _ (by omega), Function.update_noteq (by omega)]

theorem table_names_ge (k : Nat) (instrs : List (List Char × Assign)) (names : Nat → List Char)
    (i : Nat) (hi : k + instrs.length ≤ i) : table_names k instrs names i = names i := by
  induction instrs generalizing k names with
  | nil => rfl
  | cons p rest ih =>
    simp only [List.length_cons] at hi
    simp only [table_names]
    rw [ih (k + 1) _ (by omega), Function.update_noteq (by omega)]

theorem table_names_get (k : Nat) (instrs : List (List Char × Assign)) (names : Nat → List Char)
    (i : Nat) (hi : i < instrs.length) :
    table_names k instrs names (k + i) = (instrs.get ⟨i, hi⟩).1.take NAME_LEN := by
  induction instrs generalizing k names i with
  | nil => simp at hi
  | cons p rest ih =>
    simp only [table_names]
    cases i with
    | zero =>
      rw [table_names_lt _ _ _ _ (by omega)]
      simp
    | succ i =>
      simp only [List.length_cons] at hi
      have := ih (k + 1) (Function.update names k (p.1.take NAME_LEN)) i (by omega)
      rw [show k + (i + 1) = k + 1 + i by omega, this]
      rfl

theorem table_values_get (k : Nat) (instrs : List (List Char × Assign)) (values : Nat → Int)
    (i : Nat) (hi : i < instrs.length) :
    table_values k instrs values (k + i) = (instrs.get ⟨i, hi⟩).2.result 0 := by
  induction instrs generalizing k values i with
  | nil => simp at hi
  | cons p rest ih =>
    simp only [table_values]
    cases i with
    | zero =>
      have hlt : ∀ (k2 : Nat) (l : List (List Char × Assign)) (v : Nat → Int) (j : Nat),
          j < k2 → table_values k2 l v j = v j := by
        intro k2 l
        induction l generalizing k2 with
        | nil => intro v j _; rfl
        | cons q l ih2 =>
          intro v j hj
          simp only [table_values]
          rw [ih2 (k2 + 1) _ j (by omega), Function.update_noteq (by omega)]
      rw [hlt _ _ _ _ (by omega)]
      simp
    | succ i =>
      simp only [List.length_cons] at hi
      have := ih (k + 1) (Function.update values k (p.2.result 0)) i (by omega)
      rw [show k + (i + 1) = k + 1 + i by omega, this]
      rfl
theorem StepTuring_assignment (fuel : Nat) (s : Turing) (t : List Char)
    (h : AtText s ('$' :: t)) (hw : s.WaitPeriods = 0) (hp : s.Program 0 ≠ NUL) :
    StepTuring (fuel + 2) s = (do_assignment (fuel + 2) s).bind fun s2 =>
      if s2.WaitPeriods > 0 then
        some (false, { s2 with WaitPeriods := toInt8 (s2.WaitPeriods - 1) })
      else some (true, s2) := by
  have hcur : current s = '$' := h.current_cons
  have hlt : ¬ s.ProgramPosition ≥ s.ProgramLength := by
    have := current_lt_of_ne (s := s) (by rw [hcur]; decide)
    omega
  have hsk : skip_space (fuel + 1) s = some s :=
    skip_space_of_not_blank fuel s (by rw [hcur]; decide)
  have hlab : skip_labels (fuel + 2) s = some s := by
    simp [skip_labels, hsk, hcur]
  have h1 : ('$' : Char) ≠ NUL := by decide
  have h2 : ¬ (('$' : Char) = '<' ∨ ('$' : Char) = '>') := by decide
  simp only [StepTuring, hw, lt_self_iff_false, if_false, hp, hlt, hlab, Option.some_bind, hcur,
    h1, do_instruction, h2, if_true, gt_iff_lt]

theorem starts_assignment (tail : List Char) (h : tail = [] ∨ first_char tail = '$')
    (a : Assign) : a.ends_before tail ∧ a.rest tail = tail := by
  have hsk : skip_text false tail = tail := by
    rcases h with rfl | h
    · rfl
    · exact skip_text_of_not_blank (by rw [h]; decide)
  cases a with
  | inc => exact ⟨trivial, rfl⟩
  | dec => exact ⟨trivial, rfl⟩
  | set neg ds =>
    refine ⟨⟨?_, ?_⟩, hsk⟩
    · rcases h with rfl | h
      · decide
      · rw [h]; decide
    · rw [hsk]
      rcases h with rfl | h
      · decide
      · rw [h]; decide

theorem program_text_starts (instrs : List (List Char × Assign)) (tail : List Char)
    (h : tail = [] ∨ first_char tail = '$') :
    program_text instrs ++ tail = [] ∨ first_char (program_text instrs ++ tail) = '$' := by
  cases instrs with
  | nil => simpa [program_text] using h
  | cons p rest => right; rfl

theorem take_name_ne_nil {name : List Char} (h : name ≠ []) : name.take NAME_LEN ≠ [] := by
  obtain ⟨c, cs, rfl⟩ := List.exists_cons_of_ne_nil h
  simp [NAME_LEN]

theorem run_assignments (fuel : Nat) (tail : List Char)
    (htail : tail = [] ∨ first_char tail = '$') :
    ∀ (instrs : List (List Char × Assign)) (k : Nat) (s : Turing),
      AtText s (program_text instrs ++ tail) →
      k + instrs.length ≤ MAX_VARIABLES →
      (∀ i, i < k → s.VariableNames i ≠ []) →
      (∀ i, k ≤ i → i < MAX_VARIABLES → s.VariableNames i = []) →
      (∀ p ∈ instrs, p.1 ≠ [] ∧ (∀ c ∈ p.1, is_name c = true) ∧ p.2.valid) →
      (instrs.map (fun p => p.1.take NAME_LEN)).Nodup →
      (∀ p ∈ instrs, ∀ i, i < k → s.VariableNames i ≠ p.1.take NAME_LEN) →
      s.WaitPeriods = 0 → s.Program 0 ≠ NUL →
      (program_text instrs ++ tail).length + 5 < fuel →
      steps fuel instrs.length s
        = some { at_rest s tail with
            VariableNames := table_names k instrs s.VariableNames
            VariableValues := table_values k instrs s.VariableValues } := by
  intro instrs
  induction instrs with
  | nil =>
    intro k s h _ _ _ _ _ _ _ _ _
    simp only [program_text, List.nil_append] at h
    simp only [steps, List.length_nil, table_names, table_values, at_rest_self h]
  | cons p rest ih =>
    intro k s h hk hocc hfree hvalid hnodup hnew hw hp hf
    obtain ⟨name, a⟩ := p
    simp only [program_text, List.append_assoc] at h hf
    simp only [List.length_cons] at hk
    obtain ⟨hne, hall, hav⟩ := hvalid (name, a) (by simp)
    obtain ⟨hend, hrest⟩ := starts_assignment _ (program_text_starts rest tail htail) a
    have hb : bound_slot s (name.take NAME_LEN) = none := by
      apply bound_slot_eq_none
      intro i hi
      by_cases hik : i < k
      · right; exact hnew (name, a) (by simp) i hik
      · left; exact hfree i (by omega) hi
    have hfs : free_slot s = some k :=
      free_slot_eq_some s k (by omega) hocc (hfree k (le_refl _) (by omega))
    obtain ⟨fuel2, rfl⟩ : ∃ f2, fuel = f2 + 2 := ⟨fuel - 2, by omega⟩
    have hdo := do_assignment_fresh (fuel2 + 2) s name a (program_text rest ++ tail) k h hne hall
      hav hend hb hfs (by omega)
    rw [hrest] at hdo
    have hstep := StepTuring_assignment fuel2 s _ (by simpa [assign_text] using h) hw hp
    rw [hdo] at hstep
    simp only [Option.some_bind] at hstep
    rw [if_neg (by show ¬ (s.WaitPeriods > 0); omega)] at hstep
    have hsuf : (program_text rest ++ tail) <:+ (assign_text name a ++ (program_text rest ++ tail)) :=
      List.suffix_append _ _
    have h2 := h.of_suffix hsuf
    simp only [List.map_cons, List.nodup_cons, List.mem_map, not_exists, not_and] at hnodup
    have hrec := ih (k + 1)
      ({ at_rest s (program_text rest ++ tail) with
          VariableNames := Function.update s.VariableNames k (name.take NAME_LEN)
          VariableValues := Function.update s.VariableValues k (a.result 0) } : Turing)
      ⟨h2.nonneg, h2.length_eq, h2.chars, h2.no_nul⟩ (by omega)
      (by
        intro i hi
        by_cases hik : i = k
        · subst hik
          simpa using take_name_ne_nil hne
        · simpa [Function.update_noteq hik] using hocc i (by omega))
      (by
        intro i hi1 hi2
        have hik : i ≠ k := by omega
        simpa [Function.update_noteq hik] using hfree i (by omega) hi2)
      (fun q hq => hvalid q (by simp [hq]))
      hnodup.2
      (by
        intro q hq i hi
        by_cases hik : i = k
        · subst hik
          simpa using fun hc => hnodup.1 q hq hc.symm
        · simpa [Function.update_noteq hik] using hnew q (by simp [hq]) i (by omega))
      hw hp (by have := hsuf.length_le; omega)
    simp only [steps, List.length_cons, hstep, Option.some_bind]
    rw [hrec]
    rfl

theorem variable_table_full (s0 : Turing) (instrs : List (List Char × Assign))
    (name : List Char) (a : Assign) (r : List Char) (fuel : Nat)
    (hP : AtText { s0 with ProgramPosition := 0 } (program_text instrs ++ (assign_text name a ++ r)))
    (hlen : instrs.length = MAX_VARIABLES)
    (hvalid : ∀ p ∈ instrs, p.1 ≠ [] ∧ (∀ c ∈ p.1, is_name c = true) ∧ p.2.valid)
    (hname : name ≠ [] ∧ ∀ c ∈ name, is_name c = true)
    (hnodup : (instrs.map (fun p => p.1.take NAME_LEN) ++ [name.take NAME_LEN]).Nodup)
    (hf : (program_text instrs ++ (assign_text name a ++ r)).length + 5 < fuel) :
    ∃ s10 s11 b,
      steps fuel MAX_VARIABLES (StartTuring (ResetTuring s0)) = some s10 ∧
      s10.Flashes = s0.Flashes ∧ s10.TimerEnabled = true ∧
      (∀ i (hi : i < instrs.length),
        s10.VariableNames i = (instrs.get ⟨i, hi⟩).1.take NAME_LEN ∧
        s10.VariableValues i = (instrs.get ⟨i, hi⟩).2.result 0) ∧
      StepTuring fuel s10 = some (b, s11) ∧
      s11.Flashes = s0.Flashes + ERR_TOO_MANY_VARIABLES ∧ s11.TimerEnabled = false ∧
      s11.VariableNames = s10.VariableNames ∧ s11.VariableValues = s10.VariableValues ∧
      (∀ (t : Turing) (i : Nat) (hi : i < instrs.length) (a2 : Assign) (r2 : List Char)
        (fuel2 : Nat),
        t.VariableNames = s10.VariableNames →
        (-128 ≤ t.VariableValues i ∧ t.VariableValues i ≤ 127) →
        AtText t (assign_text (instrs.get ⟨i, hi⟩).1 a2 ++ r2) →
        a2.valid → a2.ends_before r2 →
        (assign_text (instrs.get ⟨i, hi⟩).1 a2 ++ r2).length + 4 < fuel2 →
        do_assignment fuel2 t
          = some { at_rest t (a2.rest r2) with
              VariableValues :=
                Function.update t.VariableValues i (a2.result (t.VariableValues i)) }) := by
  have hs : AtText (StartTuring (ResetTuring s0))
      (program_text instrs ++ (assign_text name a ++ r)) :=
    ⟨hP.nonneg, hP.length_eq, hP.chars, hP.no_nul⟩
  have hp0 : (StartTuring (ResetTuring s0)).Program 0 ≠ NUL := by
    have h1 := hP.chars 0 (by
      cases instrs with
      | nil => simp [assign_text]
      | cons p rest => simp [program_text, assign_text])
    have h2 : (program_text instrs ++ (assign_text name a ++ r)).getD 0 NUL ≠ NUL := by
      cases hl : program_text instrs ++ (assign_text name a ++ r) with
      | nil => cases instrs <;> simp [program_text, assign_text] at hl
      | cons c cs =>
        have := hP.no_nul
        rw [hl] at this
        simp only [List.getD_cons_zero]
        intro hc
        exact this (by simp [hc])
    simp only [Int.toNat_zero, zero_add] at h1
    show s0.Program 0 ≠ NUL
    rw [h1]; exact h2
  rw [List.nodup_append] at hnodup
  obtain ⟨hnd1, -, hdisj⟩ := hnodup
  have hrun := run_assignments fuel (assign_text name a ++ r) (Or.inr rfl) instrs 0
    (StartTuring (ResetTuring s0)) hs (by omega) (by intro i hi; omega)
    (by
      intro i _ hi
      show (if i < MAX_VARIABLES then [] else s0.VariableNames i) = []
      simp [hi])
    hvalid hnd1 (by intro p _ i hi; omega) rfl hp0 hf
  have hnames : ∀ i (hi : i < instrs.length),
      table_names 0 instrs (StartTuring (ResetTuring s0)).VariableNames i
        = (instrs.get ⟨i, hi⟩).1.take NAME_LEN := by
    intro i hi
    have := table_names_get 0 instrs (StartTuring (ResetTuring s0)).VariableNames i hi
    simpa using this
  have hvalues : ∀ i (hi : i < instrs.length),
      table_values 0 instrs (StartTuring (ResetTuring s0)).VariableValues i
        = (instrs.get ⟨i, hi⟩).2.result 0 := by
    intro i hi
    have := table_values_get 0 instrs (StartTuring (ResetTuring s0)).VariableValues i hi
    simpa using this
  have hnonempty : ∀ i (hi : i < instrs.length), (instrs.get ⟨i, hi⟩).1.take NAME_LEN ≠ [] :=
    fun i hi => take_name_ne_nil (hvalid _ (List.get_mem _ _ _)).1
  generalize hs10 : ({ at_rest (StartTuring (ResetTuring s0)) (assign_text name a ++ r) with
      VariableNames := table_names 0 instrs (StartTuring (ResetTuring s0)).VariableNames
      VariableValues := table_values 0 instrs (StartTuring (ResetTuring s0)).VariableValues }
      : Turing) = s10 at hrun
  have hn10 : ∀ i (hi : i < instrs.length),
      s10.VariableNames i = (instrs.get ⟨i, hi⟩).1.take NAME_LEN := by
    intro i hi; rw [← hs10]; exact hnames i hi
  have hv10 : ∀ i (hi : i < instrs.length),
      s10.VariableValues i = (instrs.get ⟨i, hi⟩).2.result 0 := by
    intro i hi; rw [← hs10]; exact hvalues i hi
  have hat10 : AtText s10 (assign_text name a ++ r) := by
    have h2 := hs.of_suffix (List.suffix_append (program_text instrs) (assign_text name a ++ r))
    rw [← hs10]
    exact ⟨h2.nonneg, h2.length_eq, h2.chars, h2.no_nul⟩
  have hw10 : s10.WaitPeriods = 0 := by rw [← hs10]; rfl
  have hp10 : s10.Program 0 ≠ NUL := by rw [← hs10]; exact hp0
  have hfl10 : s10.Flashes = s0.Flashes := by rw [← hs10]; rfl
  have hte10 : s10.TimerEnabled = true := by rw [← hs10]; rfl
  have hb : bound_slot s10 (name.take NAME_LEN) = none := by
    apply bound_slot_eq_none
    intro i hi
    right
    rw [hn10 i (by omega)]
    intro hc
    exact hdisj (List.mem_map.2 ⟨instrs.get ⟨i, by omega⟩, List.get_mem _ _ _, hc⟩) (by simp)
  have hfs : free_slot s10 = none := by
    apply free_slot_eq_none
    intro i hi
    rw [hn10 i (by omega)]
    exact hnonempty i (by omega)
  obtain ⟨fuel3, rfl⟩ : ∃ f3, fuel = f3 + 2 := ⟨fuel - 2, by omega⟩
  have hfull := do_assignment_full (fuel3 + 2) s10 name a r hat10 hname.1 hname.2 hb hfs
    (by
      have := (List.suffix_append (program_text instrs) (assign_text name a ++ r)).length_le
      omega)
  have hstep := StepTuring_assignment fuel3 s10 _ (by simpa [assign_text] using hat10) hw10 hp10
  rw [hfull] at hstep
  simp only [Option.some_bind] at hstep
  rw [if_neg (by show ¬ (s10.WaitPeriods > 0); omega)] at hstep
  refine ⟨s10, _, true, hlen ▸ hrun, hfl10, hte10, fun i hi => ⟨hn10 i hi, hv10 i hi⟩, hstep,
    ?_, rfl, rfl, rfl, ?_⟩
  · show s10.Flashes + ERR_TOO_MANY_VARIABLES = s0.Flashes + ERR_TOO_MANY_VARIABLES
    rw [hfl10]
  · intro t i hi a2 r2 fuel2 htn hrange hat hav he hf2
    have hbi : bound_slot t ((instrs.get ⟨i, hi⟩).1.take NAME_LEN) = some i := by
      apply bound_slot_eq_some t _ i (by omega) (hnonempty i hi)
      · rw [htn]; exact hn10 i hi
      · intro j hj
        rw [htn, hn10 j (by omega)]
        intro hc
        have hinj := (@List.Nodup.getElem_inj_iff _ _ hnd1 j (by simp; omega) i
          (by simp; omega)).1 (by simpa using hc)
        omega
    have hv := hvalid _ (List.get_mem instrs i hi)
    exact do_assignment_bound fuel2 t _ a2 r2 i hat hv.1 hv.2.1 hav he hbi hrange hf2

/-! ## what the functions leave alone -/

theorem Frame.refl (s : Turing) : Frame s s :=
  ⟨s.ProgramPosition, s.TimerEnabled, s.Flashes, rfl, id, le_refl _⟩

theorem Frame.trans {s t u : Turing} (h1 : Frame s t) (h2 : Frame t u) : Frame s u := by
  obtain ⟨p, e, f, rfl, he, hf⟩ := h1
  obtain ⟨p2, e2, f2, rfl, he2, hf2⟩ := h2
  exact ⟨p2, e2, f2, rfl, fun h => he (he2 h), le_trans hf hf2⟩

theorem Frame.cursor (s : Turing) (p : Int) : Frame s { s with ProgramPosition := p } :=
  ⟨p, s.TimerEnabled, s.Flashes, rfl, id, le_refl _⟩

theorem Frame.step (s : Turing) : Frame s (step s) := by
  unfold TuringSnake.step
  split
  · exact Frame.cursor s _
  · exact Frame.refl s

theorem Frame.next (s : Turing) : Frame s (next s).2 := by
  rw [next_eq]; exact Frame.step s

theorem Frame.error (s : Turing) (err : Nat) : Frame s (error s err) :=
  ⟨_, false, s.Flashes + err, rfl, fun h => Bool.noConfusion h, Nat.le_add_right _ _⟩

theorem Frame.stop (s : Turing) : Frame s (StopTuring s) :=
  ⟨s.ProgramPosition, false, s.Flashes, rfl, fun h => Bool.noConfusion h, le_refl _⟩

theorem skip_comment_frame : ∀ (fuel : Nat) (s t : Turing), skip_comment fuel s = some t → Frame s t
  | 0, s, t, h => by simp [skip_comment] at h
  | fuel + 1, s, t, h => by
    rw [skip_comment] at h
    split at h
    · exact (Frame.next s).trans (skip_comment_frame fuel _ _ h)
    · cases h; exact Frame.next s

theorem skip_space_frame : ∀ (fuel : Nat) (s t : Turing), skip_space fuel s = some t → Frame s t
  | 0, s, t, h => by simp [skip_space] at h
  | fuel + 1, s, t, h => by
    rw [skip_space] at h
    split at h
    · obtain ⟨u, hu, hut⟩ := Option.bind_eq_some.mp h
      exact (skip_comment_frame fuel _ _ hu).trans (skip_space_frame fuel _ _ hut)
    · split at h
      · exact (Frame.step s).trans (skip_space_frame fuel _ _ h)
      · cases h; exact Frame.refl s

theorem get_name_loop_frame : ∀ (fuel : Nat) (name : List Char) (s : Turing) (r : List Char × Turing),
    get_name_loop fuel name s = some r → Frame s r.2
  | 0, name, s, r, h => by simp [get_name_loop] at h
  | fuel + 1, name, s, r, h => by
    rw [get_name_loop] at h
    split at h
    · exact (Frame.step s).trans (get_name_loop_frame fuel _ _ _ h)
    · cases h; exact Frame.refl s

theorem get_name_frame (fuel : Nat) (s : Turing) (r : List Char × Turing)
    (h : get_name fuel s = some r) : Frame s r.2 := by
  obtain ⟨u, hu, hur⟩ := Option.bind_eq_some.mp h
  exact (skip_space_frame fuel _ _ hu).trans (get_name_loop_frame fuel _ _ _ hur)

theorem get_number_loop_frame : ∀ (fuel : Nat) (n : Int) (s : Turing) (r : Int × Turing),
    get_number_loop fuel n s = some r → Frame s r.2
  | 0, n, s, r, h => by simp [get_number_loop] at h
  | fuel + 1, n, s, r, h => by
    rw [get_number_loop] at h
    split at h
    · exact (Frame.step s).trans (get_number_loop_frame fuel _ _ _ h)
    · cases h; exact Frame.refl s

theorem get_number_frame (fuel : Nat) (s : Turing) (r : Int × Turing)
    (h : get_number fuel s = some r) : Frame s r.2 := by
  unfold get_number at h
  simp only at h
  obtain ⟨u, hu, hur⟩ := Option.bind_eq_some.mp h
  cases hur
  refine Frame.trans ?_ (get_number_loop_frame fuel _ _ u hu)
  split
  · exact Frame.step s
  · exact Frame.refl s

theorem get_operand_frame (fuel : Nat) (s : Turing) (r : Int × Turing)
    (h : get_operand fuel s = some r) : Frame s r.2 := by
  unfold get_operand at h
  obtain ⟨s1, h1, h⟩ := Option.bind_eq_some.mp h
  refine (skip_space_frame fuel _ _ h1).trans ?_
  split at h
  · simp only at h
    split at h <;> (cases h; exact Frame.step s1)
  · split at h
    · obtain ⟨u, hu, h⟩ := Option.bind_eq_some.mp h
      refine (Frame.step s1).trans ((get_name_frame fuel _ _ hu).trans ?_)
      simp only at h
      split at h
      · cases h; exact Frame.refl _
      · cases h; exact Frame.error _ _
    · split at h
      · exact get_number_frame fuel _ _ h
      · cases h; exact Frame.error _ _

theorem get_expression_loop_frame : ∀ (fuel : Nat) (x : Int) (s : Turing) (r : Int × Turing),
    get_expression_loop fuel x s = some r → Frame s r.2
  | 0, x, s, r, h => by simp [get_expression_loop] at h
  | fuel + 1, x, s, r, h => by
    rw [get_expression_loop] at h
    obtain ⟨s1, h1, h⟩ := Option.bind_eq_some.mp h
    refine (skip_space_frame fuel _ _ h1).trans ?_
    split at h
    · cases h; exact Frame.refl _
    · split at h
      · cases h; exact Frame.refl _
      · obtain ⟨u, hu, h⟩ := Option.bind_eq_some.mp h
        refine (Frame.step s1).trans ((get_operand_frame fuel _ _ hu).trans ?_)
        split at h
        · cases h; exact Frame.refl _
        · exact get_expression_loop_frame fuel _ _ _ h

theorem get_expression_frame : ∀ (fuel : Nat) (s : Turing) (r : Int × Turing),
    get_expression fuel s = some r → Frame s r.2
  | 0, s, r, h => by simp [get_expression] at h
  | fuel + 1, s, r, h => by
    rw [get_expression] at h
    obtain ⟨s1, h1, h⟩ := Option.bind_eq_some.mp h
    refine (skip_space_frame fuel _ _ h1).trans ?_
    split at h
    · obtain ⟨u, hu, h⟩ := Option.bind_eq_some.mp h
      refine (Frame.step s1).trans ((get_expression_frame fuel _ _ hu).trans ?_)
      split at h
      · cases h; exact Frame.refl _
      · split at h
        · cases h; exact Frame.step _
        · exact (Frame.step _).trans (get_expression_loop_frame fuel _ _ _ h)
    · obtain ⟨u, hu, h⟩ := Option.bind_eq_some.mp h
      refine (get_operand_frame fuel _ _ hu).trans ?_
      split at h
      · cases h; exact Frame.refl _
      · exact get_expression_loop_frame fuel _ _ _ h
theorem Frame.exec {s t : Turing} (h : Frame s t) : Exec s t :=
  ⟨t, t.Symbols, t.VariableNames, t.VariableValues, t.HeadPosition, t.WaitPeriods, h, rfl,
    Or.inl (by obtain ⟨p, e, f, rfl, _, _⟩ := h; rfl)⟩

theorem Exec.self (s : Turing) : Exec s s := (Frame.refl s).exec

theorem Exec.comp {s t u : Turing} (h1 : Exec s t) (h2 : Exec t u) : Exec s u := by
  obtain ⟨t0, sym, names, vals, h, w, ⟨p, e, f, rfl, he, hf⟩, rfl, hh⟩ := h1
  obtain ⟨u0, sym2, names2, vals2, h2, w2, ⟨p2, e2, f2, rfl, he2, hf2⟩, rfl, hh2⟩ := h2
  refine ⟨{ s with ProgramPosition := p2, TimerEnabled := e2, Flashes := f2 },
    sym2, names2, vals2, h2, w2, ⟨p2, e2, f2, rfl, fun x => he (he2 x), le_trans hf hf2⟩, rfl, ?_⟩
  rcases hh2 with hh2 | hh2
  · rcases hh with hh | hh
    · exact Or.inl (hh2.trans hh)
    · exact Or.inr (by rw [hh2]; exact hh)
  · exact Or.inr hh2

theorem Exec.head {s t : Turing} (h : Exec s t)
    (hs : -1 ≤ s.HeadPosition ∧ s.HeadPosition ≤ NUM_SQUARES) :
    -1 ≤ t.HeadPosition ∧ t.HeadPosition ≤ NUM_SQUARES := by
  obtain ⟨t0, sym, names, vals, h, w, _, rfl, hh⟩ := h
  rcases hh with hh | hh
  · show -1 ≤ h ∧ h ≤ NUM_SQUARES
    rw [hh]; exact hs
  · exact hh

theorem Exec.timer {s t : Turing} (h : Exec s t) :
    t.TimerCnt = s.TimerCnt ∧ t.PrevTicks = s.PrevTicks ∧ t.ClockSpeed = s.ClockSpeed ∧
      (t.TimerEnabled = true → s.TimerEnabled = true) := by
  obtain ⟨t0, sym, names, vals, h, w, ⟨p, e, f, rfl, he, hf⟩, rfl, hh⟩ := h
  exact ⟨rfl, rfl, rfl, he⟩

theorem Exec.program {s t : Turing} (h : Exec s t) :
    t.Program = s.Program ∧ t.ProgramLength = s.ProgramLength ∧ t.Target = s.Target ∧
      t.Flash = s.Flash ∧ t.TapeheadHighlighting = s.TapeheadHighlighting := by
  obtain ⟨t0, sym, names, vals, h, w, ⟨p, e, f, rfl, he, hf⟩, rfl, hh⟩ := h
  exact ⟨rfl, rfl, rfl, rfl, rfl⟩

theorem Exec.wait {s : Turing} (w : Int) : Exec s { s with WaitPeriods := w } :=
  ⟨s, s.Symbols, s.VariableNames, s.VariableValues, s.HeadPosition, w, Frame.refl s, rfl, Or.inl rfl⟩

theorem Exec.values {s : Turing} (v : Nat → Int) : Exec s { s with VariableValues := v } :=
  ⟨s, s.Symbols, s.VariableNames, v, s.HeadPosition, s.WaitPeriods, Frame.refl s, rfl, Or.inl rfl⟩

theorem Exec.table {s : Turing} (n : Nat → List Char) (v : Nat → Int) :
    Exec s { s with VariableNames := n, VariableValues := v } :=
  ⟨s, s.Symbols, n, v, s.HeadPosition, s.WaitPeriods, Frame.refl s, rfl, Or.inl rfl⟩

theorem Exec.symbols {s : Turing} (y : Nat → Char) : Exec s { s with Symbols := y } :=
  ⟨s, y, s.VariableNames, s.VariableValues, s.HeadPosition, s.WaitPeriods, Frame.refl s, rfl, Or.inl rfl⟩

theorem Exec.clamp {s : Turing} (h : Int) : Exec s (clamp_head { s with HeadPosition := h }) := by
  unfold clamp_head
  have hn : (NUM_SQUARES : Int) = 27 := rfl
  split
  · exact ⟨s, s.Symbols, s.VariableNames, s.VariableValues, -1, s.WaitPeriods, Frame.refl s, rfl,
      Or.inr ⟨le_refl _, by rw [hn]; omega⟩⟩
  · split
    · exact ⟨s, s.Symbols, s.VariableNames, s.VariableValues, NUM_SQUARES, s.WaitPeriods,
        Frame.refl s, rfl, Or.inr ⟨by rw [hn]; omega, le_refl _⟩⟩
    · rename_i h1 h2
      exact ⟨s, s.Symbols, s.VariableNames, s.VariableValues, h, s.WaitPeriods, Frame.refl s, rfl,
        Or.inr ⟨by simp only [not_lt] at h1; omega, by simp only [ge_iff_le, not_le] at h2; omega⟩⟩

theorem do_movement_exec (fuel : Nat) (s t : Turing) (h : do_movement fuel s = some t) :
    Exec s t := by
  unfold do_movement at h
  split at h
  · simp only at h
    split at h
    · cases h; exact (Frame.next s).exec.comp ((Frame.step _).exec.comp (Exec.clamp _))
    · split at h
      · obtain ⟨e, he, h⟩ := Option.bind_eq_some.mp h
        have hf := (Frame.next s).trans (get_expression_frame fuel _ _ he)
        split at h
        · cases h; exact hf.exec
        · cases h; exact hf.exec.comp (Exec.clamp _)
      · cases h; exact (Frame.next s).exec.comp (Exec.clamp _)
  · split at h
    · simp only at h
      split at h
      · cases h; exact (Frame.next s).exec.comp ((Frame.step _).exec.comp (Exec.clamp _))
      · split at h
        · obtain ⟨e, he, h⟩ := Option.bind_eq_some.mp h
          have hf := (Frame.next s).trans (get_expression_frame fuel _ _ he)
          split at h
          · cases h; exact hf.exec
          · cases h; exact hf.exec.comp (Exec.clamp _)
        · cases h; exact (Frame.next s).exec.comp (Exec.clamp _)
    · cases h
      have := @Exec.clamp s s.HeadPosition
      exact this
theorem skip_movement_frame (fuel : Nat) (s t : Turing) (h : skip_movement fuel s = some t) :
    Frame s t := by
  unfold skip_movement at h
  split at h
  · simp only at h
    split at h
    · cases h; exact (Frame.next s).trans (Frame.step _)
    · split at h
      · obtain ⟨e, he, h⟩ := Option.bind_eq_some.mp h
        cases h; exact (Frame.next s).trans (get_expression_frame fuel _ _ he)
      · cases h; exact Frame.next s
  · split at h
    · simp only at h
      split at h
      · cases h; exact (Frame.next s).trans (Frame.step _)
      · split at h
        · obtain ⟨e, he, h⟩ := Option.bind_eq_some.mp h
          cases h; exact (Frame.next s).trans (get_expression_frame fuel _ _ he)
        · cases h; exact Frame.next s
    · cases h; exact Frame.refl s

theorem skip_assignment_frame (fuel : Nat) (s t : Turing) (h : skip_assignment fuel s = some t) :
    Frame s t := by
  unfold skip_assignment at h
  obtain ⟨r, hr, h⟩ := Option.bind_eq_some.mp h
  obtain ⟨s1, h1, h⟩ := Option.bind_eq_some.mp h
  refine (Frame.step s).trans ((get_name_frame fuel _ _ hr).trans
    ((skip_space_frame fuel _ _ h1).trans ?_))
  split at h
  · simp only at h
    split at h
    · cases h; exact (Frame.next s1).trans (Frame.step _)
    · cases h; exact Frame.next s1
  · split at h
    · simp only at h
      split at h
      · cases h; exact (Frame.next s1).trans (Frame.step _)
      · cases h; exact Frame.next s1
    · split at h
      · obtain ⟨e, he, h⟩ := Option.bind_eq_some.mp h
        cases h; exact (Frame.step s1).trans (get_expression_frame fuel _ _ he)
      · cases h; exact Frame.refl _

theorem skip_branch_frame (fuel : Nat) (s t : Turing) (h : skip_branch fuel s = some t) :
    Frame s t := by
  unfold skip_branch at h
  obtain ⟨r, hr, h⟩ := Option.bind_eq_some.mp h
  cases h; exact (Frame.step s).trans (get_name_frame fuel _ _ hr)

theorem skip_wait_frame (fuel : Nat) (s t : Turing) (h : skip_wait fuel s = some t) :
    Frame s t := by
  unfold skip_wait at h
  simp only at h
  split at h
  · obtain ⟨e, he, h⟩ := Option.bind_eq_some.mp h
    cases h; exact (Frame.next s).trans (get_expression_frame fuel _ _ he)
  · cases h; exact Frame.next s

theorem skip_conditional_test_frame (fuel : Nat) (s t : Turing)
    (h : skip_conditional_test fuel s = some t) : Frame s t := by
  unfold skip_conditional_test at h
  simp only at h
  obtain ⟨e, he, h⟩ := Option.bind_eq_some.mp h
  refine Frame.trans ?_ ((get_expression_frame fuel _ _ he).trans (skip_space_frame fuel _ _ h))
  refine (Frame.next s).trans ?_
  split
  · exact Frame.step _
  · split
    · refine (Frame.next _).trans ?_
      split
      · exact Frame.step _
      · exact Frame.refl _
    · split
      · refine (Frame.next _).trans ?_
        split
        · exact Frame.step _
        · exact Frame.refl _
      · exact Frame.refl _

theorem skip_instruction_frame : ∀ (fuel : Nat) (s t : Turing),
    skip_instruction fuel s = some t → Frame s t
  | 0, s, t, h => by simp [skip_instruction] at h
  | fuel + 1, s, t, h => by
    rw [skip_instruction] at h
    split at h
    · exact skip_movement_frame fuel _ _ h
    · split at h
      · exact skip_assignment_frame fuel _ _ h
      · split at h
        · obtain ⟨u, hu, h⟩ := Option.bind_eq_some.mp h
          exact (skip_conditional_test_frame fuel _ _ hu).trans (skip_instruction_frame fuel _ _ h)
        · split at h
          · exact skip_branch_frame fuel _ _ h
          · split at h
            · exact skip_wait_frame fuel _ _ h
            · split at h
              · cases h; exact Frame.step s
              · cases h; exact Frame.refl s

theorem do_conditional_tail_frame (fuel : Nat) (x : Int) (test : Bool) (s t : Turing)
    (h : do_conditional_tail fuel x test s = some t) : Frame s t := by
  unfold do_conditional_tail at h
  split at h
  · cases h; exact Frame.refl s
  · split at h
    · obtain ⟨u, hu, h⟩ := Option.bind_eq_some.mp h
      exact (skip_space_frame fuel _ _ hu).trans (skip_instruction_frame fuel _ _ h)
    · cases h; exact Frame.refl s

theorem do_conditional_frame (fuel : Nat) (s t : Turing) (h : do_conditional fuel s = some t) :
    Frame s t := by
  unfold do_conditional at h
  simp only at h
  refine (Frame.next s).trans ?_
  split at h
  · obtain ⟨e, he, h⟩ := Option.bind_eq_some.mp h
    exact (Frame.step _).trans ((get_expression_frame fuel _ _ he).trans
      (do_conditional_tail_frame fuel _ _ _ _ h))
  · split at h
    · refine (Frame.next _).trans ?_
      split at h
      · obtain ⟨e, he, h⟩ := Option.bind_eq_some.mp h
        exact (Frame.step _).trans ((get_expression_frame fuel _ _ he).trans
          (do_conditional_tail_frame fuel _ _ _ _ h))
      · obtain ⟨e, he, h⟩ := Option.bind_eq_some.mp h
        exact (get_expression_frame fuel _ _ he).trans (do_conditional_tail_frame fuel _ _ _ _ h)
    · split at h
      · refine (Frame.next _).trans ?_
        split at h
        · obtain ⟨e, he, h⟩ := Option.bind_eq_some.mp h
          exact (Frame.step _).trans ((get_expression_frame fuel _ _ he).trans
            (do_conditional_tail_frame fuel _ _ _ _ h))
        · obtain ⟨e, he, h⟩ := Option.bind_eq_some.mp h
          exact (get_expression_frame fuel _ _ he).trans (do_conditional_tail_frame fuel _ _ _ _ h)
      · obtain ⟨e, he, h⟩ := Option.bind_eq_some.mp h
        exact (get_expression_frame fuel _ _ he).trans (do_conditional_tail_frame fuel _ _ _ _ h)

theorem do_branch_loop_frame : ∀ (fuel : Nat) (label : List Char) (s t : Turing),
    do_branch_loop fuel label s = some t → Frame s t
  | 0, label, s, t, h => by simp [do_branch_loop] at h
  | fuel + 1, label, s, t, h => by
    rw [do_branch_loop] at h
    split at h
    · cases h; exact Frame.error _ _
    · obtain ⟨s1, h1, h⟩ := Option.bind_eq_some.mp h
      refine (skip_space_frame fuel _ _ h1).trans ?_
      split at h
      · exact (Frame.step _).trans (do_branch_loop_frame fuel _ _ _ h)
      · obtain ⟨r, hr, h⟩ := Option.bind_eq_some.mp h
        refine (Frame.step _).trans ((get_name_frame fuel _ _ hr).trans ?_)
        split at h
        · cases h; exact Frame.refl _
        · exact do_branch_loop_frame fuel _ _ _ h

theorem do_branch_frame (fuel : Nat) (s t : Turing) (h : do_branch fuel s = some t) :
    Frame s t := by
  unfold do_branch at h
  obtain ⟨r, hr, h⟩ := Option.bind_eq_some.mp h
  exact (Frame.step s).trans ((get_name_frame fuel _ _ hr).trans
    ((Frame.cursor _ 0).trans (do_branch_loop_frame fuel _ _ _ h)))

theorem do_assignment_tail_exec (fuel : Nat) (ndx : Int) (s t : Turing)
    (h : do_assignment_tail fuel ndx s = some t) : Exec s t := by
  unfold do_assignment_tail at h
  obtain ⟨s1, h1, h⟩ := Option.bind_eq_some.mp h
  refine (skip_space_frame fuel _ _ h1).exec.comp ?_
  split at h
  · simp only at h
    refine (Frame.next s1).exec.comp ?_
    split at h
    · refine (Frame.step _).exec.comp ?_
      split at h
      · cases h; exact Exec.values _
      · cases h; exact Exec.self _
    · cases h; exact (Frame.error _ _).exec
  · split at h
    · simp only at h
      refine (Frame.next s1).exec.comp ?_
      split at h
      · refine (Frame.step _).exec.comp ?_
        split at h
        · cases h; exact Exec.values _
        · cases h; exact Exec.self _
      · cases h; exact (Frame.error _ _).exec
    · split at h
      · obtain ⟨e, he, h⟩ := Option.bind_eq_some.mp h
        refine (Frame.step _).exec.comp ((get_expression_frame fuel _ _ he).exec.comp ?_)
        simp only at h
        split at h
        · cases h; exact Exec.self _
        · cases h; exact Exec.values _
      · cases h; exact (Frame.error _ _).exec

theorem add_variable_exec (s : Turing) (name : List Char) (v : Int) :
    Exec s (add_variable s name v).2 := by
  unfold add_variable
  simp only
  split
  · exact Exec.self s
  · exact Exec.table _ _

theorem do_assignment_exec (fuel : Nat) (s t : Turing) (h : do_assignment fuel s = some t) :
    Exec s t := by
  unfold do_assignment at h
  obtain ⟨r, hr, h⟩ := Option.bind_eq_some.mp h
  refine (Frame.step s).exec.comp ((get_name_frame fuel _ _ hr).exec.comp ?_)
  simp only at h
  split at h
  · refine (add_variable_exec r.2 r.1 0).comp ?_
    split at h
    · cases h; exact (Frame.error _ _).exec
    · exact do_assignment_tail_exec fuel _ _ _ h
  · exact do_assignment_tail_exec fuel _ _ _ h

theorem do_wait_exec (fuel : Nat) (s t : Turing) (h : do_wait fuel s = some t) : Exec s t := by
  unfold do_wait at h
  simp only at h
  refine (@Exec.wait s 1).comp ((Frame.next _).exec.comp ?_)
  split at h
  · obtain ⟨e, he, h⟩ := Option.bind_eq_some.mp h
    refine (get_expression_frame fuel _ _ he).exec.comp ?_
    split at h
    · cases h; exact Exec.self _
    · split at h
      · cases h; exact Exec.wait _
      · cases h; exact Exec.wait _
  · cases h; exact Exec.self _

theorem do_set_exec (s : Turing) : Exec s (do_set s) := by
  unfold do_set
  simp only
  refine (Frame.step s).exec.comp ?_
  split
  · exact Exec.self _
  · exact Exec.symbols _

theorem do_instruction_exec (fuel : Nat) (s t : Turing) (h : do_instruction fuel s = some t) :
    Exec s t := by
  unfold do_instruction at h
  split at h
  · exact do_movement_exec fuel _ _ h
  · split at h
    · exact do_assignment_exec fuel _ _ h
    · split at h
      · exact (do_conditional_frame fuel _ _ h).exec
      · split at h
        · exact (do_branch_frame fuel _ _ h).exec
        · split at h
          · exact do_wait_exec fuel _ _ h
          · split at h
            · cases h; exact do_set_exec s
            · cases h; exact (Frame.error _ _).exec

theorem skip_label_name_frame : ∀ (fuel : Nat) (s t : Turing),
    skip_label_name fuel s = some t → Frame s t
  | 0, s, t, h => by simp [skip_label_name] at h
  | fuel + 1, s, t, h => by
    rw [skip_label_name] at h
    split at h
    · exact (Frame.step s).trans (skip_label_name_frame fuel _ _ h)
    · cases h; exact Frame.refl s

theorem skip_labels_frame : ∀ (fuel : Nat) (s t : Turing),
    skip_labels fuel s = some t → Frame s t
  | 0, s, t, h => by simp [skip_labels] at h
  | fuel + 1, s, t, h => by
    rw [skip_labels] at h
    obtain ⟨s1, h1, h⟩ := Option.bind_eq_some.mp h
    refine (skip_space_frame fuel _ _ h1).trans ?_
    split at h
    · cases h; exact Frame.refl _
    · obtain ⟨u, hu, h⟩ := Option.bind_eq_some.mp h
      exact (Frame.step _).trans ((skip_label_name_frame fuel _ _ hu).trans
        (skip_labels_frame fuel _ _ h))

theorem StepTuring_exec (fuel : Nat) (s : Turing) (r : Bool × Turing)
    (h : StepTuring fuel s = some r) : Exec s r.2 := by
  unfold StepTuring at h
  split at h
  · cases h; exact Exec.self s
  · split at h
    · cases h; exact Exec.wait _
    · split at h
      · cases h; exact (Frame.stop s).exec
      · split at h
        · cases h; exact (Frame.stop s).exec
        · obtain ⟨s1, h1, h⟩ := Option.bind_eq_some.mp h
          refine (skip_labels_frame fuel _ _ h1).exec.comp ?_
          split at h
          · cases h; exact (Frame.stop _).exec
          · obtain ⟨s2, h2, h⟩ := Option.bind_eq_some.mp h
            refine (do_instruction_exec fuel _ _ h2).comp ?_
            split at h
            · cases h; exact Exec.wait _
            · cases h; exact Exec.self _
theorem StepTuring_dispatch (fuel : Nat) (s s1 : Turing) (hw : s.WaitPeriods = 0)
    (hp : s.Program 0 ≠ NUL) (hlt : s.ProgramPosition < s.ProgramLength)
    (hl : skip_labels fuel s = some s1) (hn : current s1 ≠ NUL) :
    StepTuring fuel s = (do_instruction fuel s1).bind fun s2 =>
      if s2.WaitPeriods > 0 then
        some (false, { s2 with WaitPeriods := toInt8 (s2.WaitPeriods - 1) })
      else some (true, s2) := by
  have hlt2 : ¬ s.ProgramPosition ≥ s.ProgramLength := by omega
  simp only [StepTuring, hw, lt_self_iff_false, if_false, hp, hlt2, hl, Option.some_bind, hn,
    gt_iff_lt]

theorem skip_labels_self (fuel : Nat) (s : Turing) (hb : is_blank (current s) = false)
    (hl : current s ≠ '#') : skip_labels (fuel + 2) s = some s := by
  have hsk : skip_space (fuel + 1) s = some s := skip_space_of_not_blank fuel s hb
  simp [skip_labels, hsk, hl]

theorem do_instruction_wait (fuel : Nat) (s : Turing) (h : current s = '%') :
    do_instruction fuel s = do_wait fuel s := by
  have h2 : ¬ (('%' : Char) = '<' ∨ ('%' : Char) = '>') := by decide
  have h3 : ¬ (('%' : Char) = '$') := by decide
  have h4 : ¬ (('%' : Char) = '?') := by decide
  have h5 : ¬ (('%' : Char) = '^') := by decide
  simp only [do_instruction, h, h2, h3, h4, h5, if_false, if_true]

theorem StepTuring_wait (fuel : Nat) (s s1 : Turing) (hw : s.WaitPeriods = 0)
    (hp : s.Program 0 ≠ NUL) (hlt : s.ProgramPosition < s.ProgramLength)
    (hl : skip_labels fuel s = some s1) (h : current s1 = '%') :
    StepTuring fuel s = (do_wait fuel s1).bind fun s2 =>
      if s2.WaitPeriods > 0 then
        some (false, { s2 with WaitPeriods := toInt8 (s2.WaitPeriods - 1) })
      else some (true, s2) := by
  rw [StepTuring_dispatch fuel s s1 hw hp hlt hl (by rw [h]; decide), do_instruction_wait _ _ h]

theorem StepTuring_halted (fuel : Nat) (s : Turing) (h : s.WaitPeriods < 0) :
    StepTuring fuel s = some (false, s) := by
  simp [StepTuring, h]

theorem StepTuring_waiting (fuel : Nat) (s : Turing) (h : 0 < s.WaitPeriods)
    (h2 : s.WaitPeriods ≤ 127) :
    StepTuring fuel s = some (false, { s with WaitPeriods := s.WaitPeriods - 1 }) := by
  have h1 : ¬ s.WaitPeriods < 0 := by omega
  have h3 : toInt8 (s.WaitPeriods - 1) = s.WaitPeriods - 1 :=
    toInt8_of_range (by omega) (by omega)
  simp [StepTuring, h, h1, h3]

theorem attempts_halted (fuel : Nat) (s : Turing) (h : s.WaitPeriods < 0) :
    ∀ k, attempts fuel k s = some (List.replicate k false, s)
  | 0 => rfl
  | k + 1 => by
    rw [attempts, StepTuring_halted fuel s h]
    simp only [Option.some_bind]
    rw [attempts_halted fuel s h k]
    rfl

theorem attempts_waiting (fuel : Nat) :
    ∀ (k : Nat) (s : Turing), (k : Int) ≤ s.WaitPeriods → s.WaitPeriods ≤ 127 →
      attempts fuel k s = some (List.replicate k false, { s with WaitPeriods := s.WaitPeriods - k })
  | 0, s, _, _ => by simp [attempts]
  | k + 1, s, h1, h2 => by
    rw [attempts, StepTuring_waiting fuel s (by omega) h2]
    simp only [Option.some_bind]
    rw [attempts_waiting fuel k _ (by simp only; omega) (by simp only; omega)]
    simp only [Option.some_bind, List.replicate_succ]
    congr 3
    push_cast
    ring
theorem set_wait_self (x : Turing) (w : Int) (h : x.WaitPeriods = w) :
    { x with WaitPeriods := w } = x := by
  subst h; rfl

theorem wait_value_wait (fuel : Nat) (s s2 : Turing) (n : Int)
    (h : wait_value fuel s = some (n, s2)) : s2.WaitPeriods = 1 := by
  unfold wait_value at h
  simp only at h
  have hf : Frame { s with WaitPeriods := 1 } (next { s with WaitPeriods := 1 }).2 := Frame.next _
  split at h
  · obtain ⟨p, e, f, hq, _, _⟩ := hf.trans (get_expression_frame fuel _ _ h)
    have hq' : s2 = _ := hq
    rw [hq']
  · cases h
    obtain ⟨p, e, f, hq, _, _⟩ := hf
    rw [hq]

theorem do_wait_eq (fuel : Nat) (s s2 : Turing) (n : Int)
    (h : wait_value fuel s = some (n, s2)) (h1 : 1 ≤ n) (h2 : n ≤ 127) :
    do_wait fuel s = some { s2 with WaitPeriods := n } := by
  have hw := wait_value_wait fuel s s2 n h
  unfold wait_value at h
  unfold do_wait
  simp only at h ⊢
  split at h
  · rename_i he
    have hne : n ≠ ERROR := by unfold ERROR; omega
    have h8 : toInt8 n = n := toInt8_of_range (by omega) (by omega)
    have h0 : n ≠ 0 := by omega
    simp [he, h, hne, h8, h0]
  · rename_i he
    cases h
    simp only [he, Bool.false_eq_true, if_false]
    exact congrArg some (set_wait_self _ _ hw).symm

theorem do_wait_zero (fuel : Nat) (s s2 : Turing)
    (h : wait_value fuel s = some (0, s2)) :
    do_wait fuel s = some { s2 with WaitPeriods := -1 } := by
  unfold wait_value at h
  unfold do_wait
  simp only at h ⊢
  split at h
  · rename_i he
    have hne : (0 : Int) ≠ ERROR := by unfold ERROR; omega
    have h8 : toInt8 0 = 0 := by decide
    simp [he, h, hne, h8]
  · simp at h

theorem StepTuring_dispatches (fuel : Nat) (s : Turing) (hw : s.WaitPeriods = 0) :
    StepTuring fuel s = dispatch fuel s := by
  simp only [StepTuring, dispatch, hw, lt_self_iff_false, if_false, gt_iff_lt]

theorem wait_attempts (fuel : Nat) (s s1 s2 : Turing) (n : Nat)
    (hw : s.WaitPeriods = 0) (hp : s.Program 0 ≠ NUL)
    (hlt : s.ProgramPosition < s.ProgramLength) (hl : skip_labels fuel s = some s1)
    (hc : current s1 = '%')
    (hv : wait_value fuel s1 = some ((n : Int), s2)) (h1 : 1 ≤ n) (h2 : n ≤ 127)
    (k : Nat) (hk : k < n) :
    attempts fuel (k + 1) s
      = some (List.replicate (k + 1) false, { s2 with WaitPeriods := (n : Int) - (k + 1) }) := by
  have hd := do_wait_eq fuel s1 s2 n hv (by omega) (by omega)
  have h8 : toInt8 ((n : Int) - 1) = (n : Int) - 1 := toInt8_of_range (by omega) (by omega)
  have hpos : (0 : Int) < n := by omega
  rw [attempts, StepTuring_wait fuel s s1 hw hp hlt hl hc, hd]
  simp only [Option.some_bind, gt_iff_lt, hpos, if_true, h8]
  rw [attempts_waiting fuel k _ (by simp only; omega) (by simp only; omega)]
  simp only [Option.some_bind, List.replicate_succ]
  congr 3
  ring

theorem TuringExec_due_state (t : Nat) (s : Turing) :
    ∃ p c, (TuringExec_due t s).2 = { s with PrevTicks := p, TimerCnt := c } := by
  unfold TuringExec_due
  split
  · exact ⟨s.PrevTicks, s.TimerCnt, rfl⟩
  · simp only
    split
    · exact ⟨t, s.TimerCnt, rfl⟩
    · split
      · exact ⟨t, _, rfl⟩
      · exact ⟨t, _, rfl⟩

theorem TuringExec_same_tick (fuel : Nat) (s : Turing) :
    TuringExec fuel s.PrevTicks s = some s := by
  simp [TuringExec, TuringExec_due]

theorem TuringExec_stopped (fuel t : Nat) (s : Turing) (h : s.TimerEnabled = false) :
    TuringExec fuel t s = some { s with PrevTicks := t } ∧ (TuringExec_due t s).1 = false := by
  by_cases ht : s.PrevTicks = t
  · subst ht
    simp [TuringExec, TuringExec_due]
  · simp [TuringExec, TuringExec_due, ht, h]

theorem TuringExec_halted (fuel t : Nat) (s : Turing) (h : s.WaitPeriods < 0) :
    TuringExec fuel t s = some (TuringExec_due t s).2 := by
  obtain ⟨p, c, hpc⟩ := TuringExec_due_state t s
  unfold TuringExec
  simp only
  split
  · rw [StepTuring_halted fuel _ (by rw [hpc]; exact h)]
    rfl
  · rfl

theorem polls_halted (fuel : Nat) : ∀ (ticks : List Nat) (s : Turing), s.WaitPeriods < 0 →
    ∃ n p c, polls fuel ticks s = some (n, { s with PrevTicks := p, TimerCnt := c })
  | [], s, _ => ⟨0, s.PrevTicks, s.TimerCnt, rfl⟩
  | t :: ts, s, h => by
    obtain ⟨p, c, hpc⟩ := TuringExec_due_state t s
    obtain ⟨n, p2, c2, h2⟩ := polls_halted fuel ts { s with PrevTicks := p, TimerCnt := c } h
    rw [polls, TuringExec_halted fuel t s h, hpc]
    simp only [Option.some_bind, h2]
    exact ⟨_, p2, c2, rfl⟩

theorem ProcessCommand_step_halted (fuel : Nat) (buffer : Int → Char) (cnt : Nat) (s : Turing)
    (hb : (buffer 0).toNat = 4) (h : s.WaitPeriods < 0) :
    ProcessCommand fuel buffer cnt s = some (StopTuring s) := by
  unfold ProcessCommand
  rw [StepTuring_halted fuel (StopTuring s) h]
  simp [hb]

theorem StepTuring_wait_zero (fuel : Nat) (s s1 s2 : Turing)
    (hw : s.WaitPeriods = 0) (hp : s.Program 0 ≠ NUL)
    (hlt : s.ProgramPosition < s.ProgramLength) (hl : skip_labels fuel s = some s1)
    (hc : current s1 = '%') (hv : wait_value fuel s1 = some (0, s2)) :
    StepTuring fuel s = some (true, { s2 with WaitPeriods := -1 }) := by
  rw [StepTuring_wait fuel s s1 hw hp hlt hl hc, do_wait_zero _ _ _ hv]
  simp

theorem ProcessCommand_run (fuel : Nat) (buffer : Int → Char) (cnt : Nat) (s : Turing)
    (hb : (buffer 0).toNat = 3) :
    ProcessCommand fuel buffer cnt s = some { ResetTuring s with TimerEnabled := true } := by
  unfold ProcessCommand
  simp only [hb]
  rfl

theorem ProcessCommand_reset (fuel : Nat) (buffer : Int → Char) (cnt : Nat) (s : Turing)
    (hb : (buffer 0).toNat = 1) :
    ProcessCommand fuel buffer cnt s = some (ResetTuring s) := by
  unfold ProcessCommand
  simp only [hb, if_true]

theorem timer_interval_eq (s : Turing) (h : s.ClockSpeed ≠ 0) :
    timer_interval s = 1000 / s.ClockSpeed := by
  simp [timer_interval, h]
theorem TuringExec_timer (fuel t : Nat) (s s1 : Turing) (h : TuringExec fuel t s = some s1) :
    s1.ClockSpeed = s.ClockSpeed ∧ (s1.TimerEnabled = true → s.TimerEnabled = true) ∧
      s1.PrevTicks = (TuringExec_due t s).2.PrevTicks ∧
      s1.TimerCnt = (TuringExec_due t s).2.TimerCnt := by
  obtain ⟨p, c, hpc⟩ := TuringExec_due_state t s
  unfold TuringExec at h
  simp only at h
  split at h
  · obtain ⟨x, hx, h⟩ := Option.bind_eq_some.mp h
    cases h
    obtain ⟨h1, h2, h3, h4⟩ := (StepTuring_exec fuel _ _ hx).timer
    rw [hpc] at h1 h2 h3 h4
    rw [hpc]
    exact ⟨h3, h4, h2, h1⟩
  · cases h
    rw [hpc]
    exact ⟨rfl, id, rfl, rfl⟩

theorem TuringExec_due_prev (t : Nat) (s : Turing) : (TuringExec_due t s).2.PrevTicks = t := by
  unfold TuringExec_due
  split
  · assumption
  · simp only
    split
    · rfl
    · split <;> rfl

theorem polls_enabled (fuel : Nat) : ∀ (ticks : List Nat) (s : Turing) (q : Nat × Turing),
    polls fuel ticks s = some q → q.2.TimerEnabled = true → s.TimerEnabled = true
  | [], s, q, h, he => by cases h; exact he
  | t :: ts, s, q, h, he => by
    rw [polls] at h
    obtain ⟨s1, h1, h⟩ := Option.bind_eq_some.mp h
    obtain ⟨q1, hq1, h⟩ := Option.bind_eq_some.mp h
    cases h
    exact (TuringExec_timer fuel t s s1 h1).2.1 (polls_enabled fuel ts s1 q1 hq1 he)

theorem polls_prev (fuel : Nat) : ∀ (ticks : List Nat) (s : Turing) (q : Nat × Turing),
    polls fuel ticks s = some q → q.2.PrevTicks = (s.PrevTicks :: ticks).getLast (by simp)
  | [], s, q, h => by cases h; rfl
  | t :: ts, s, q, h => by
    rw [polls] at h
    obtain ⟨s1, h1, h⟩ := Option.bind_eq_some.mp h
    obtain ⟨q1, hq1, h⟩ := Option.bind_eq_some.mp h
    cases h
    have := polls_prev fuel ts s1 q1 hq1
    rw [(TuringExec_timer fuel t s s1 h1).2.2.1, TuringExec_due_prev] at this
    rw [this, List.getLast_cons_cons]

theorem observed_append : ∀ (ticks : List Nat) (p t : Nat),
    observed p (ticks ++ [t])
      = observed p ticks + (if t = (p :: ticks).getLast (by simp) then 0 else 1)
  | [], p, t => by simp [observed]
  | a :: ts, p, t => by
    show (if a = p then 0 else 1) + observed a (ts ++ [t]) = _
    rw [observed_append ts a t, List.getLast_cons_cons]
    simp only [observed]
    omega

theorem TuringExec_due_count (t : Nat) (s : Turing) (N : Nat) (he : s.TimerEnabled = true)
    (hN : timer_interval s = N) (h1 : 1 ≤ s.TimerCnt) (h2 : s.TimerCnt ≤ N) (h3 : N < 65536) :
    TuringExec_due t s =
      if s.PrevTicks = t then (false, s)
      else if s.TimerCnt = 1 then (true, { s with PrevTicks := t, TimerCnt := N })
      else (false, { s with PrevTicks := t, TimerCnt := s.TimerCnt - 1 }) := by
  have hu : toUInt16 ((s.TimerCnt : Int) - 1) = s.TimerCnt - 1 := by
    unfold toUInt16
    omega
  unfold TuringExec_due
  by_cases ht : s.PrevTicks = t
  · simp [ht]
  · by_cases hc : s.TimerCnt = 1
    · have h0 : toUInt16 0 = 0 := by decide
      simp [ht, he, hc, h0, ← hN]
      rfl
    · have : s.TimerCnt - 1 ≠ 0 := by omega
      simp [ht, he, hu, hc, this]

theorem polls_count (fuel N cs : Nat) (hN : N = 1000 / cs) (hcs : 1 ≤ cs ∧ cs ≤ 1000) :
    ∀ (ticks : List Nat) (s : Turing) (q : Nat × Turing),
      polls fuel ticks s = some q → q.2.TimerEnabled = true → s.ClockSpeed = cs →
      1 ≤ s.TimerCnt → s.TimerCnt ≤ N →
      q.1 = (observed s.PrevTicks ticks + (N - s.TimerCnt)) / N ∧
      q.2.TimerCnt = N - (observed s.PrevTicks ticks + (N - s.TimerCnt)) % N ∧
      q.2.ClockSpeed = cs
  | [], s, q, h, he, hc, h1, h2 => by
    cases h
    have hpos : 0 < N := by omega
    simp only [observed, zero_add]
    rw [Nat.div_eq_of_lt (by omega), Nat.mod_eq_of_lt (by omega)]
    exact ⟨rfl, by omega, hc⟩
  | t :: ts, s, q, h, he, hc, h1, h2 => by
    have hen := polls_enabled fuel _ s q h he
    rw [polls] at h
    obtain ⟨s1, hs1, h⟩ := Option.bind_eq_some.mp h
    obtain ⟨q1, hq1, h⟩ := Option.bind_eq_some.mp h
    cases h
    have hNle : N ≤ 1000 := by rw [hN]; exact Nat.div_le_self _ _
    have hNpos : 0 < N := by
      rw [hN]; exact Nat.div_pos hcs.2 (by omega)
    have hti : timer_interval s = N := by
      rw [timer_interval_eq s (by omega), hc, hN]
    have hdue := TuringExec_due_count t s N hen hti h1 h2 (by omega)
    obtain ⟨hcs1, _, hp1, hc1⟩ := TuringExec_timer fuel t s s1 hs1
    rw [TuringExec_due_prev] at hp1
    have ih := polls_count fuel N cs hN hcs ts s1 q1 hq1 he (hcs1.trans hc)
    simp only [observed]
    by_cases ht : s.PrevTicks = t
    · rw [hdue, if_pos ht] at hc1 ⊢
      simp only at hc1
      have ih' := ih (by omega) (by omega)
      rw [hp1, hc1] at ih'
      simp only [Bool.false_eq_true, if_false, zero_add, if_pos ht.symm]
      exact ih'
    · have ht' : ¬ t = s.PrevTicks := fun h => ht h.symm
      by_cases hone : s.TimerCnt = 1
      · rw [hdue, if_neg ht, if_pos hone] at hc1 ⊢
        simp only at hc1
        have ih' := ih (by omega) (by omega)
        rw [hp1, hc1] at ih'
        simp only [if_true, if_neg ht']
        rw [Nat.sub_self, Nat.add_zero] at ih'
        have e : 1 + observed t ts + (N - s.TimerCnt) = observed t ts + N := by omega
        rw [e, Nat.add_div_right _ hNpos, Nat.add_mod_right]
        exact ⟨by omega, ih'.2.1, ih'.2.2⟩
      · rw [hdue, if_neg ht, if_neg hone] at hc1 ⊢
        simp only at hc1
        have ih' := ih (by omega) (by omega)
        rw [hp1, hc1] at ih'
        simp only [Bool.false_eq_true, if_false, zero_add, if_neg ht']
        have e : 1 + observed t ts + (N - s.TimerCnt) = observed t ts + (N - (s.TimerCnt - 1)) := by
          omega
        rw [e]
        exact ih'
theorem succ_div_cases (k N : Nat) (hN : 0 < N) :
    (k + 1) / N = k / N + (if k % N = N - 1 then 1 else 0) := by
  have hk := Nat.div_add_mod k N
  have hr := Nat.mod_lt k hN
  by_cases h : k % N = N - 1
  · rw [if_pos h]
    have e : k + 1 = (k / N + 1) * N := by
      rw [Nat.add_mul, Nat.one_mul, Nat.mul_comm]
      omega
    rw [e, Nat.mul_div_cancel _ hN]
  · rw [if_neg h]
    have e : k + 1 = (k % N + 1) + N * (k / N) := by omega
    rw [e, Nat.add_mul_div_left _ _ hN, Nat.div_eq_of_lt (by omega), Nat.zero_add, Nat.add_zero]

theorem polls_rate (fuel : Nat) (s : Turing) (hcs : 1 ≤ s.ClockSpeed ∧ s.ClockSpeed ≤ 255)
    (hc : s.TimerCnt = 1000 / s.ClockSpeed)
    (ticks : List Nat) (q : Nat × Turing) (hq : polls fuel ticks s = some q)
    (hen : q.2.TimerEnabled = true) :
    q.1 = observed s.PrevTicks ticks / (1000 / s.ClockSpeed) ∧
    ∀ t, q.1 + (if (TuringExec_due t q.2).1 then 1 else 0)
      = observed s.PrevTicks (ticks ++ [t]) / (1000 / s.ClockSpeed) := by
  have hNpos : 0 < 1000 / s.ClockSpeed := Nat.div_pos (by omega) (by omega)
  have hNle : 1000 / s.ClockSpeed ≤ 1000 := Nat.div_le_self _ _
  obtain ⟨h1, h2, h3⟩ := polls_count fuel (1000 / s.ClockSpeed) s.ClockSpeed rfl
    ⟨hcs.1, by omega⟩ ticks s q hq hen rfl (by omega) (by omega)
  rw [hc, Nat.sub_self, Nat.add_zero] at h1 h2
  refine ⟨h1, fun t => ?_⟩
  have hr := Nat.mod_lt (observed s.PrevTicks ticks) hNpos
  have hti : timer_interval q.2 = 1000 / s.ClockSpeed := by
    rw [timer_interval_eq q.2 (by omega), h3]
  rw [TuringExec_due_count t q.2 _ hen hti (by omega) (by omega) (by omega),
    observed_append, ← polls_prev fuel ticks s q hq, h1]
  by_cases ht : q.2.PrevTicks = t
  · simp [ht]
  · have ht' : ¬ t = q.2.PrevTicks := fun h => ht h.symm
    rw [if_neg ht, if_neg ht', succ_div_cases _ _ hNpos]
    have hiff : q.2.TimerCnt = 1 ↔
        observed s.PrevTicks ticks % (1000 / s.ClockSpeed) = 1000 / s.ClockSpeed - 1 := by
      rw [h2]
      generalize observed s.PrevTicks ticks % (1000 / s.ClockSpeed) = r at hr
      generalize 1000 / s.ClockSpeed = N at hr hNpos
      omega
    by_cases hone : q.2.TimerCnt = 1
    · rw [if_pos hone, if_pos (hiff.1 hone)]
      simp
    · rw [if_neg hone, if_neg (fun h => hone (hiff.2 h))]
      simp
theorem get_of_map_eq {α β : Type} (o : Option α) (f : α → β) (b : β) (hs : o.isSome = true)
    (hm : o.map f = some b) : f (o.get hs) = b := by
  cases o with
  | none => simp at hs
  | some a => simpa using hm
theorem map_eq_of_get {α β : Type} (o : Option α) (f : α → β) (hs : o.isSome = true) :
    o.map f = some (f (o.get hs)) := by
  cases o with
  | none => simp at hs
  | some a => rfl
theorem Program_set_head (s : Turing) (p : Int) (c : Char) (hp : 0 ≤ p) :
    (Program_set s p c).HeadPosition = s.HeadPosition := by
  unfold Program_set
  rw [if_neg (by omega)]

theorem load_loop_head (buffer : Int → Char) (cnt : Nat) :
    ∀ (fuel : Nat) (i : Int) (s t : Turing), load_loop buffer cnt fuel i s = some t →
      0 ≤ s.ProgramPosition → t.HeadPosition = s.HeadPosition ∧ 0 ≤ t.ProgramPosition
  | 0, i, s, t, h, _ => by simp [load_loop] at h
  | fuel + 1, i, s, t, h, hp => by
    rw [load_loop] at h
    split at h
    · split at h
      · obtain ⟨h1, h2⟩ := load_loop_head buffer cnt fuel _ _ _ h
          (by show 0 ≤ s.ProgramPosition + 1; omega)
        exact ⟨h1.trans (Program_set_head _ _ _ hp), h2⟩
      · exact load_loop_head buffer cnt fuel _ _ _ h hp
    · cases h; exact ⟨rfl, hp⟩

theorem ProcessCommand_head (fuel : Nat) (buffer : Int → Char) (cnt : Nat) (s t : Turing)
    (h : ProcessCommand fuel buffer cnt s = some t)
    (hs : -1 ≤ s.HeadPosition ∧ s.HeadPosition ≤ NUM_SQUARES)
    (hp : (buffer 0).toNat = 2 → 0 ≤ s.ProgramPosition) :
    -1 ≤ t.HeadPosition ∧ t.HeadPosition ≤ NUM_SQUARES := by
  have h0 : (-1 : Int) ≤ 0 ∧ (0 : Int) ≤ NUM_SQUARES := by decide
  unfold ProcessCommand at h
  split at h
  · cases h; exact h0
  · split at h
    · obtain ⟨s1, h1, h⟩ := Option.bind_eq_some.mp h
      obtain ⟨len, _, h⟩ := Option.bind_eq_some.mp h
      cases h
      show -1 ≤ (Program_set s1 s1.ProgramPosition NUL).HeadPosition ∧
        (Program_set s1 s1.ProgramPosition NUL).HeadPosition ≤ NUM_SQUARES
      obtain ⟨e1, e2⟩ := load_loop_head buffer cnt fuel _ _ _ h1 (hp (by assumption))
      rw [Program_set_head _ _ _ e2, e1]
      exact hs
    · split at h
      · cases h; exact h0
      · split at h
        · obtain ⟨r, hr, h⟩ := Option.bind_eq_some.mp h
          cases h
          exact (StepTuring_exec fuel _ _ hr).head hs
        · split at h
          · split at h <;> (cases h; exact hs)
          · split at h
            · split at h <;> (cases h; exact hs)
            · split at h
              · obtain ⟨f1, _, h⟩ := Option.bind_eq_some.mp h
                obtain ⟨f2, _, h⟩ := Option.bind_eq_some.mp h
                cases h; exact hs
              · cases h; exact hs
theorem load_loop_spec (buffer : Int → Char) (cnt : Nat) (hcnt : cnt ≤ 127) :
    ∀ (n fuel : Nat) (i : Int) (s : Turing), 1 ≤ i → i + n = cnt → n < fuel →
      0 ≤ s.ProgramPosition → s.ProgramPosition ≤ 256 →
      ∃ t, load_loop buffer cnt fuel i s = some t ∧
        t.ProgramPosition = min (s.ProgramPosition + n) 256 ∧
        t.ProgramLength = s.ProgramLength ∧
        ∀ x : Nat, t.Program x =
          if s.ProgramPosition ≤ x ∧ (x : Int) < min (s.ProgramPosition + n) 256 then
            buffer (i + (x - s.ProgramPosition))
          else s.Program x
  | 0, fuel, i, s, hi, hin, hf, hp0, hp1 => by
    obtain ⟨f, rfl⟩ : ∃ f, fuel = f + 1 := ⟨fuel - 1, by omega⟩
    have hlt : ¬ i < (cnt : Int) := by omega
    refine ⟨s, by rw [load_loop, if_neg hlt], by omega, rfl, fun x => ?_⟩
    rw [if_neg (by omega)]
  | n + 1, fuel, i, s, hi, hin, hf, hp0, hp1 => by
    obtain ⟨f, rfl⟩ : ∃ f, fuel = f + 1 := ⟨fuel - 1, by omega⟩
    have hlt : i < (cnt : Int) := by omega
    have h8 : toInt8 (i + 1) = i + 1 := toInt8_of_range (by omega) (by omega)
    rw [load_loop, if_pos hlt, h8]
    have hM : (MAX_PROGRAM : Int) = 256 := rfl
    by_cases hfull : s.ProgramPosition < (MAX_PROGRAM : Int)
    · rw [if_pos hfull]
      rw [hM] at hfull
      have hset : Program_set s s.ProgramPosition (buffer i)
          = { s with Program := Function.update s.Program s.ProgramPosition.toNat (buffer i) } := by
        unfold Program_set
        rw [if_neg (by omega)]
      rw [hset]
      obtain ⟨t, ht, htp, htl, htx⟩ := load_loop_spec buffer cnt hcnt n f (i + 1)
        { s with
          Program := Function.update s.Program s.ProgramPosition.toNat (buffer i)
          ProgramPosition := s.ProgramPosition + 1 } (by omega) (by omega) (by omega)
        (by show 0 ≤ s.ProgramPosition + 1; omega) (by show s.ProgramPosition + 1 ≤ 256; omega)
      refine ⟨t, ht, ?_, htl, fun x => ?_⟩
      · rw [htp]
        show min (s.ProgramPosition + 1 + (n : Int)) 256 = min (s.ProgramPosition + ((n + 1 : Nat) : Int)) 256
        push_cast
        congr 1
        ring
      · rw [htx x]
        simp only
        have e1 : s.ProgramPosition + 1 + (n : Int) = s.ProgramPosition + ((n + 1 : Nat) : Int) := by
          push_cast; ring
        rw [e1]
        by_cases hx : (x : Int) = s.ProgramPosition
        · have hxn : x = s.ProgramPosition.toNat := by omega
          rw [if_neg (by omega), if_pos (by omega), hxn, Function.update_same]
          congr 1
          omega
        · have hxn : x ≠ s.ProgramPosition.toNat := by omega
          rw [Function.update_noteq hxn]
          by_cases hr : s.ProgramPosition ≤ x ∧ (x : Int) < min (s.ProgramPosition + ((n + 1 : Nat) : Int)) 256
          · rw [if_pos hr, if_pos (by omega)]
            congr 1
            ring
          · rw [if_neg hr, if_neg (by omega)]
    · rw [if_neg hfull]
      rw [hM] at hfull
      obtain ⟨t, ht, htp, htl, htx⟩ := load_loop_spec buffer cnt hcnt n f (i + 1) s
        (by omega) (by omega) (by omega) hp0 hp1
      refine ⟨t, ht, ?_, htl, fun x => ?_⟩
      · rw [htp]; omega
      · rw [htx x, if_neg (by omega), if_neg (by omega)]

theorem str_len_loop_spec (mem : Nat → Char) (n : Nat) (hn : mem n = NUL) :
    ∀ (d fuel i len : Nat), i + d = n → d < fuel → (∀ x, i ≤ x → x < n → mem x ≠ NUL) →
      len < 256 → str_len_loop mem fuel i len = some ((len + d) % 256)
  | 0, fuel, i, len, hid, hf, _, hl => by
    obtain ⟨f, rfl⟩ : ∃ f, fuel = f + 1 := ⟨fuel - 1, by omega⟩
    have : i = n := by omega
    subst this
    rw [str_len_loop, if_neg (by simp [hn]), Nat.add_zero, Nat.mod_eq_of_lt hl]
  | d + 1, fuel, i, len, hid, hf, hne, hl => by
    obtain ⟨f, rfl⟩ : ∃ f, fuel = f + 1 := ⟨fuel - 1, by omega⟩
    have hu : toUInt8 ((len : Int) + 1) = (len + 1) % 256 := by
      unfold toUInt8
      omega
    rw [str_len_loop, if_pos (hne i (le_refl _) (by omega)), hu,
      str_len_loop_spec mem n hn d f (i + 1) _ (by omega) (by omega)
        (fun x hx hx2 => hne x (by omega) hx2) (Nat.mod_lt _ (by omega))]
    congr 1
    omega

theorem str_len_spec (mem : Nat → Char) (n fuel : Nat) (hn : mem n = NUL)
    (hne : ∀ x, x < n → mem x ≠ NUL) (hf : n < fuel) : str_len fuel mem = some (n % 256) := by
  unfold str_len
  rw [str_len_loop_spec mem n hn n fuel 0 0 (by omega) hf (fun x _ hx => hne x hx) (by omega),
    Nat.zero_add]
theorem ProcessCommand_load (fuel : Nat) (buffer : Int → Char) (cnt k c : Nat) (s : Turing)
    (hb : (buffer 0).toNat = 2) (hcnt : cnt = k + 1) (hk : k ≤ 126)
    (hc : s.ProgramPosition = c) (hc2 : c ≤ 256)
    (hP : ∀ x, x < c → s.Program x ≠ NUL)
    (hpay : ∀ j : Nat, j < k → buffer ((j : Int) + 1) ≠ NUL)
    (hf : 256 < fuel) :
    ∃ t, ProcessCommand fuel buffer cnt s = some t ∧
      t.ProgramPosition = min (c + k) 256 ∧
      t.ProgramLength = min (c + k) 256 % 256 ∧
      ∀ x : Nat, t.Program x =
        if x = min (c + k) 256 then NUL
        else if c ≤ x ∧ x < min (c + k) 256 then buffer (((x - c : Nat) : Int) + 1)
        else s.Program x := by
  obtain ⟨t1, ht1, hp1, hl1, hx1⟩ := load_loop_spec buffer cnt (by omega) k fuel 1 s
    (le_refl _) (by omega) (by omega) (by omega) (by omega)
  have hpos : t1.ProgramPosition = ((min (c + k) 256 : Nat) : Int) := by
    rw [hp1, hc]; omega
  have hset : Program_set t1 t1.ProgramPosition NUL
      = { t1 with Program := Function.update t1.Program (min (c + k) 256) NUL } := by
    unfold Program_set
    rw [if_neg (by omega), hpos]
    rfl
  have hx2 : ∀ x : Nat, Function.update t1.Program (min (c + k) 256) NUL x =
      if x = min (c + k) 256 then NUL
      else if c ≤ x ∧ x < min (c + k) 256 then buffer (((x - c : Nat) : Int) + 1)
      else s.Program x := by
    intro x
    by_cases hx : x = min (c + k) 256
    · rw [hx, Function.update_same, if_pos rfl]
    · rw [Function.update_noteq hx, if_neg hx, hx1 x, hc]
      by_cases hr : c ≤ x ∧ x < min (c + k) 256
      · rw [if_pos hr, if_pos (by omega)]
        congr 1
        omega
      · rw [if_neg hr, if_neg (by omega)]
  have hlen : str_len fuel (Function.update t1.Program (min (c + k) 256) NUL)
      = some (min (c + k) 256 % 256) := by
    refine str_len_spec _ _ fuel (Function.update_same _ _ _) (fun x hx => ?_) (by omega)
    rw [hx2 x, if_neg (by omega)]
    by_cases hxc : x < c
    · rw [if_neg (by omega)]
      exact hP x hxc
    · rw [if_pos (by omega)]
      have := hpay (x - c) (by omega)
      exact this
  refine ⟨{ t1 with Program := Function.update t1.Program (min (c + k) 256) NUL,
                    ProgramLength := min (c + k) 256 % 256 }, ?_, hpos, rfl, hx2⟩
  unfold ProcessCommand
  have h1 : ¬ (buffer 0).toNat = 1 := by omega
  rw [if_neg h1, if_pos hb, ht1]
  simp only [Option.some_bind]
  rw [hset]
  simp only [hlen, Option.some_bind]
theorem payload_length (buffer : Int → Char) (k : Nat) : (payload buffer k).length = k := by
  simp [payload]

theorem payload_get (buffer : Int → Char) (k j : Nat) (h : j < (payload buffer k).length) :
    (payload buffer k)[j] = buffer ((j : Int) + 1) := by
  simp [payload]

theorem loaded_length (P : List Char) (c : Nat) (pl : List Char) (hc : c ≤ P.length) :
    (loaded P c pl).length = min (c + pl.length) 256 := by
  simp only [loaded, List.length_take, List.length_append, MAX_PROGRAM]
  omega

theorem loaded_get (P : List Char) (c : Nat) (pl : List Char) (hc : c ≤ P.length) (i : Nat)
    (h : i < (loaded P c pl).length) :
    (loaded P c pl)[i] = if h2 : i < c then P.get ⟨i, by omega⟩
      else pl.get ⟨i - c, by rw [loaded_length P c pl hc] at h; omega⟩ := by
  have hl : (P.take c).length = c := by simp [List.length_take]; omega
  simp only [loaded, List.getElem_take]
  by_cases h2 : i < c
  · rw [dif_pos h2, List.getElem_append_left (by omega)]
    simp
  · rw [dif_neg h2, List.getElem_append_right (by omega)]
    simp [hl]
theorem load_loop_wraps (buffer : Int → Char) (cnt : Nat) (hcnt : 128 ≤ cnt) :
    ∀ (fuel : Nat) (i : Int) (s : Turing), i ≤ 127 → load_loop buffer cnt fuel i s = none
  | 0, _, _, _ => rfl
  | fuel + 1, i, s, hi => by
    rw [load_loop, if_pos (by omega)]
    exact load_loop_wraps buffer cnt hcnt fuel _ _ (toInt8_range _).2

theorem ProcessCommand_load_wraps (fuel : Nat) (buffer : Int → Char) (cnt : Nat) (s : Turing)
    (hb : (buffer 0).toNat = 2) (hcnt : 128 ≤ cnt) :
    ProcessCommand fuel buffer cnt s = none := by
  unfold ProcessCommand
  have h1 : ¬ (buffer 0).toNat = 1 := by omega
  rw [if_neg h1, if_pos hb, load_loop_wraps buffer cnt hcnt fuel 1 s (by omega)]
  rfl

theorem ProcessCommand_load_text (fuel : Nat) (buffer : Int → Char) (k c : Nat) (P : List Char)
    (s : Turing) (hb : (buffer 0).toNat = 2) (hk : k ≤ 126)
    (hP : ∀ i (h : i < P.length), s.Program i = P[i]) (hnul : ∀ ch ∈ P, ch ≠ NUL)
    (hlen : P.length ≤ 256) (hc : s.ProgramPosition = c) (hcL : c ≤ P.length)
    (hpay : ∀ ch ∈ payload buffer k, ch ≠ NUL) (hf : 256 < fuel) :
    ∃ t, ProcessCommand fuel buffer (k + 1) s = some t ∧
      (List.range (loaded P c (payload buffer k)).length).map t.Program
        = loaded P c (payload buffer k) ∧
      t.Program (loaded P c (payload buffer k)).length = NUL ∧
      (loaded P c (payload buffer k)).length = min (c + k) 256 ∧
      (min (c + k) 256 < 256 → t.ProgramLength = min (c + k) 256) ∧
      t.ProgramPosition = min (c + k) 256 := by
  have hpl := payload_length buffer k
  have hll := loaded_length P c (payload buffer k) hcL
  rw [hpl] at hll
  obtain ⟨t, ht, htp, htl, htx⟩ := ProcessCommand_load fuel buffer (k + 1) k c s hb rfl hk hc
    (by omega) (fun x hx => by rw [hP x (by omega)]; exact hnul _ (List.getElem_mem _))
    (fun j hj => by
      have hj2 : j < (payload buffer k).length := by omega
      have hm : (payload buffer k)[j] ∈ payload buffer k := List.getElem_mem _
      have := hpay _ hm
      rwa [payload_get] at this) hf
  refine ⟨t, ht, ?_, ?_, hll, fun h => ?_, by rw [htp]⟩
  · apply List.ext_getElem
    · simp
    · intro i h1 h2
      have hi : i < min (c + k) 256 := by rw [← hll]; exact h2
      rw [List.getElem_map, List.getElem_range, htx i, if_neg (by omega), loaded_get P c _ hcL i h2]
      by_cases hic : i < c
      · rw [if_neg (by omega), dif_pos hic]
        exact hP i (by omega)
      · rw [if_pos (by omega), dif_neg hic]
        exact (payload_get buffer k (i - c) (by omega)).symm
  · rw [hll, htx, if_pos rfl]
  · rw [htl, Nat.mod_eq_of_lt h]
theorem erase_rows_spec (addr len : Nat) (haddr : addr % 32 = 0) (hR : len / 32 < 255) :
    ∀ (n fuel i : Nat) (flash : Nat → Nat), i + n = len / 32 + 1 → n < fuel →
      ∃ f, erase_rows addr len fuel i flash = some f ∧
        ∀ a, f a = if addr + i * 32 ≤ a ∧ a < addr + (len / 32 + 1) * 32 then 0x3fff
          else flash a
  | 0, fuel, i, flash, hin, hf => by
    obtain ⟨g, rfl⟩ : ∃ g, fuel = g + 1 := ⟨fuel - 1, by omega⟩
    have hR2 : ROW_ERASE = 32 := rfl
    refine ⟨flash, by rw [erase_rows, hR2, if_neg (by omega)], fun a => ?_⟩
    rw [if_neg (by omega)]
  | n + 1, fuel, i, flash, hin, hf => by
    obtain ⟨g, rfl⟩ : ∃ g, fuel = g + 1 := ⟨fuel - 1, by omega⟩
    have hR2 : ROW_ERASE = 32 := rfl
    have hu : toUInt8 ((i : Int) + 1) = i + 1 := by
      unfold toUInt8
      omega
    rw [erase_rows, hR2, if_pos (by omega), hu]
    obtain ⟨f, hf1, hf2⟩ := erase_rows_spec addr len haddr hR n g (i + 1)
      (erase_row flash (addr + i * 32)) (by omega) (by omega)
    refine ⟨f, hf1, fun a => ?_⟩
    rw [hf2 a]
    unfold erase_row
    rw [hR2]
    by_cases h1 : addr + (i + 1) * 32 ≤ a ∧ a < addr + (len / 32 + 1) * 32
    · rw [if_pos h1, if_pos (by omega)]
    · rw [if_neg h1]
      by_cases h2 : a / 32 = (addr + i * 32) / 32
      · rw [if_pos h2, if_pos (by omega)]
      · rw [if_neg h2, if_neg (by omega)]

theorem write_row_spec (src : Nat → Nat) :
    ∀ (n PMADR k : Nat) (flash : Nat → Nat), 32 - PMADR % 32 ≤ n →
      (write_row src n PMADR k flash).1 = k + (32 - PMADR % 32) ∧
      ∀ a, (write_row src n PMADR k flash).2 a =
        if PMADR ≤ a ∧ a < PMADR + (32 - PMADR % 32) then
          Nat.land (flash a) (src (k + (a - PMADR)))
        else flash a
  | 0, PMADR, k, flash, hn => by omega
  | n + 1, PMADR, k, flash, hn => by
    have hR2 : ROW_ERASE = 32 := rfl
    rw [write_row, hR2]
    by_cases hlast : PMADR % 32 = 32 - 1
    · rw [if_pos hlast]
      refine ⟨by simp only; omega, fun a => ?_⟩
      simp only [program_word]
      by_cases ha : a = PMADR
      · subst ha
        rw [Function.update_same, if_pos (by omega), Nat.sub_self, Nat.add_zero]
      · rw [Function.update_noteq ha, if_neg (by omega)]
    · rw [if_neg hlast]
      obtain ⟨h1, h2⟩ := write_row_spec src n (PMADR + 1) (k + 1)
        (program_word flash PMADR (src k)) (by omega)
      refine ⟨by rw [h1]; omega, fun a => ?_⟩
      rw [h2 a]
      simp only [program_word]
      by_cases ha : a = PMADR
      · subst ha
        rw [if_neg (by omega), Function.update_same, if_pos (by omega), Nat.sub_self,
          Nat.add_zero]
      · rw [Function.update_noteq ha]
        by_cases hr : PMADR + 1 ≤ a ∧ a < PMADR + 1 + (32 - (PMADR + 1) % 32)
        · rw [if_pos hr, if_pos (by omega)]
          congr 2
          omega
        · rw [if_neg hr, if_neg (by omega)]

theorem write_rows_spec (addr len : Nat) (src : Nat → Nat) (haddr : addr % 32 = 0)
    (hR : len / 32 < 255) :
    ∀ (n fuel i k : Nat) (flash : Nat → Nat), i + n = len / 32 + 1 → n < fuel → k = i * 32 →
      ∃ f, write_rows addr len src fuel i k flash = some f ∧
        ∀ a, f a = if addr + i * 32 ≤ a ∧ a < addr + (len / 32 + 1) * 32 then
            Nat.land (flash a) (src (a - addr))
          else flash a
  | 0, fuel, i, k, flash, hin, hf, hk => by
    obtain ⟨g, rfl⟩ : ∃ g, fuel = g + 1 := ⟨fuel - 1, by omega⟩
    have hR2 : ROW_ERASE = 32 := rfl
    refine ⟨flash, by rw [write_rows, hR2, if_neg (by omega)], fun a => ?_⟩
    rw [if_neg (by omega)]
  | n + 1, fuel, i, k, flash, hin, hf, hk => by
    obtain ⟨g, rfl⟩ : ∃ g, fuel = g + 1 := ⟨fuel - 1, by omega⟩
    have hR2 : ROW_ERASE = 32 := rfl
    have hu : toUInt8 ((i : Int) + 1) = i + 1 := by
      unfold toUInt8
      omega
    rw [write_rows, hR2, if_pos (by omega), hu]
    simp only
    obtain ⟨h1, h2⟩ := write_row_spec src 32 (addr + i * 32) k flash (by omega)
    obtain ⟨f, hf1, hf2⟩ := write_rows_spec addr len src haddr hR n g (i + 1)
      (write_row src 32 (addr + i * 32) k flash).1
      (write_row src 32 (addr + i * 32) k flash).2 (by omega) (by omega) (by rw [h1]; omega)
    refine ⟨f, hf1, fun a => ?_⟩
    rw [hf2 a, h2 a]
    by_cases hr : addr + (i + 1) * 32 ≤ a ∧ a < addr + (len / 32 + 1) * 32
    · rw [if_pos hr, if_neg (by omega), if_pos (by omega)]
    · rw [if_neg hr]
      by_cases hq : addr + i * 32 ≤ a ∧ a < addr + i * 32 + (32 - (addr + i * 32) % 32)
      · rw [if_pos hq, if_pos (by omega)]
        congr 2
        omega
      · rw [if_neg hq, if_neg (by omega)]

theorem land_erased (v : Nat) (h : v < 16384) : Nat.land 0x3fff v = v := by
  have h1 := Nat.and_pow_two_sub_one_eq_mod v 14
  have h2 : Nat.land 0x3fff v = v &&& (2 ^ 14 - 1) := Nat.land_comm _ _
  rw [h2, h1]
  exact Nat.mod_eq_of_lt h

theorem write_mem_spec (fuel addr len : Nat) (src flash : Nat → Nat) (haddr : addr % 32 = 0)
    (hR : len / 32 < 255) (hf : len / 32 + 1 < fuel) :
    ∃ f, write_mem fuel addr len src flash = some f ∧
      ∀ a, f a = if addr ≤ a ∧ a < addr + (len / 32 + 1) * 32 then
          Nat.land 0x3fff (src (a - addr))
        else flash a := by
  obtain ⟨f1, h1, h1a⟩ := erase_rows_spec addr len haddr hR (len / 32 + 1) fuel 0 flash
    (by omega) hf
  obtain ⟨f2, h2, h2a⟩ := write_rows_spec addr len src haddr hR (len / 32 + 1) fuel 0 0 f1
    (by omega) hf rfl
  refine ⟨f2, by rw [write_mem, h1]; exact h2, fun a => ?_⟩
  rw [h2a a, h1a a]
  by_cases hr : addr ≤ a ∧ a < addr + (len / 32 + 1) * 32
  · rw [if_pos (by omega), if_pos (by omega), if_pos hr]
  · rw [if_neg (by omega), if_neg (by omega), if_neg hr]

theorem read_mem_getD (flash : Nat → Nat) : ∀ (len addr i : Nat), i < len →
    (read_mem flash addr len).getD i 0 = read_byte flash (addr + i)
  | 0, _, _, h => by omega
  | len + 1, addr, 0, _ => by simp [read_mem]
  | len + 1, addr, i + 1, h => by
    rw [read_mem, List.getD_cons_succ, read_mem_getD flash len (addr + 1) i (by omega)]
    congr 1
    omega
theorem ProcessCommand_store (fuel : Nat) (buffer : Int → Char) (cnt : Nat) (s : Turing)
    (hb : (buffer 0).toNat = 7) (hf : 9 < fuel) :
    ∃ f, ProcessCommand fuel buffer cnt s
        = some { s with Flash := f, Flashes := s.Flashes + 1 } ∧
      ∀ a, f a =
        if PROGRAM_BASE ≤ a ∧ a < PROGRAM_BASE + PROGRAM_SIZE then
          Nat.land 0x3fff (Program_bytes s (a - PROGRAM_BASE))
        else if SETTINGS_BASE ≤ a ∧ a < SETTINGS_BASE + 32 then
          Nat.land 0x3fff (Settings_bytes s (a - SETTINGS_BASE))
        else s.Flash a := by
  obtain ⟨f1, h1, h1a⟩ := write_mem_spec fuel SETTINGS_BASE SETTINGS_LEN (Settings_bytes s)
    s.Flash (by decide) (by decide) (by
      have : SETTINGS_LEN / 32 = 0 := by decide
      omega)
  obtain ⟨f2, h2, h2a⟩ := write_mem_spec fuel PROGRAM_BASE PROGRAM_LEN (Program_bytes s)
    f1 (by decide) (by decide) (by
      have : PROGRAM_LEN / 32 = 8 := by decide
      omega)
  refine ⟨f2, ?_, fun a => ?_⟩
  · unfold ProcessCommand
    rw [if_neg (by omega), if_neg (by omega), if_neg (by omega), if_neg (by omega),
      if_neg (by omega), if_neg (by omega), if_pos hb, h1]
    simp only [Option.some_bind, h2]
  · have e1 : PROGRAM_BASE = 7680 := by decide
    have e2 : PROGRAM_SIZE = 288 := by decide
    have e3 : SETTINGS_BASE = 7968 := by decide
    have e4 : (PROGRAM_LEN / 32 + 1) * 32 = 288 := by decide
    have e5 : (SETTINGS_LEN / 32 + 1) * 32 = 32 := by decide
    rw [h2a a, h1a a, e4, e5, e1, e2, e3]

theorem InitTuring_restores (fuel : Nat) (r : Turing) (p : Nat → Char) (n cs hl : Nat)
    (hp : ∀ i, i ≤ 256 → read_byte r.Flash (PROGRAM_BASE + i) = (p i).toNat)
    (hn : n ≤ 256) (hnul : p n = NUL) (htext : ∀ x, x < n → p x ≠ NUL)
    (h0 : (p 0).toNat ≠ 0 ∧ (p 0).toNat ≠ 255)
    (hcs : read_byte r.Flash SETTINGS_BASE = cs) (hcs2 : cs ≠ 0 ∧ cs ≠ 255)
    (hhl : read_byte r.Flash (SETTINGS_BASE + 1) = hl) (hf : 256 < fuel) :
    ∃ t, InitTuring fuel r = some t ∧ (∀ i, i ≤ 256 → t.Program i = p i) ∧
      t.ProgramLength = n % 256 ∧ t.ClockSpeed = cs ∧
      t.TapeheadHighlighting = decide (hl ≠ 0) ∧ t.TimerEnabled = true := by
  have hg0 : (read_mem r.Flash SETTINGS_BASE SETTINGS_LEN).getD 0 0 = cs := by
    rw [read_mem_getD _ _ _ _ (by decide), Nat.add_zero, hcs]
  have hg1 : (read_mem r.Flash SETTINGS_BASE SETTINGS_LEN).getD 1 0 = hl := by
    rw [read_mem_getD _ _ _ _ (by decide), hhl]
  have hprog : ∀ i, i ≤ 256 →
      (if i < PROGRAM_LEN then
          Char.ofNat ((read_mem r.Flash PROGRAM_BASE PROGRAM_LEN).getD i 0)
        else r.Program i) = p i := by
    intro i hi
    have hlt : i < PROGRAM_LEN := by
      show i < 256 + 1
      omega
    rw [if_pos hlt, read_mem_getD _ _ _ _ hlt, hp i hi, Char.ofNat_toNat]
  have hlen : str_len fuel (fun i =>
      if i < PROGRAM_LEN then
        Char.ofNat ((read_mem r.Flash PROGRAM_BASE PROGRAM_LEN).getD i 0)
      else r.Program i) = some (n % 256) := by
    refine str_len_spec _ n fuel ?_ (fun x hx => ?_) (by omega)
    · show (if n < PROGRAM_LEN then _ else _) = NUL
      rw [hprog n hn, hnul]
    · show (if x < PROGRAM_LEN then _ else _) ≠ NUL
      rw [hprog x (by omega)]
      exact htext x hx
  have hpb : read_byte r.Flash PROGRAM_BASE = (p 0).toNat := hp 0 (by omega)
  have hnot : ¬ (cs = 255 ∨ cs = 0) := by omega
  have hyes : (p 0).toNat ≠ 255 ∧ (p 0).toNat ≠ 0 := ⟨h0.2, h0.1⟩
  unfold InitTuring
  simp only [hg0, hg1, hlen, Option.some_bind, hcs, hnot, if_false, hpb, hyes, ne_eq,
    not_false_eq_true, and_self, if_true]
  exact ⟨_, rfl, fun i hi => hprog i hi, rfl, rfl, rfl, rfl⟩
theorem store_then_init (fuel : Nat) (buffer : Int → Char) (cnt : Nat) (s : Turing) (n : Nat)
    (hb : (buffer 0).toNat = 7)
    (hbytes : ∀ i, i < 257 → (s.Program i).toNat < 256) (hcs : s.ClockSpeed < 256)
    (hn : n ≤ 256) (hnul : s.Program n = NUL) (htext : ∀ x, x < n → s.Program x ≠ NUL)
    (hlen : s.ProgramLength = n % 256)
    (h0 : (s.Program 0).toNat ≠ 0 ∧ (s.Program 0).toNat ≠ 255)
    (hcs2 : s.ClockSpeed ≠ 0 ∧ s.ClockSpeed ≠ 255) (hf : 256 < fuel) :
    ∃ s1, ProcessCommand fuel buffer cnt s = some s1 ∧
      read_mem s1.Flash SETTINGS_BASE SETTINGS_LEN
        = [s.ClockSpeed, if s.TapeheadHighlighting then 1 else 0] ∧
      ∀ r : Turing, r.Flash = s1.Flash →
        ∃ t, InitTuring fuel r = some t ∧ (∀ i, i ≤ 256 → t.Program i = s.Program i) ∧
          t.ProgramLength = s.ProgramLength ∧ t.ClockSpeed = s.ClockSpeed ∧
          t.TapeheadHighlighting = s.TapeheadHighlighting := by
  obtain ⟨f, hst, hfa⟩ := ProcessCommand_store fuel buffer cnt s hb (by omega)
  have e1 : PROGRAM_BASE = 7680 := by decide
  have e2 : PROGRAM_SIZE = 288 := by decide
  have e3 : SETTINGS_BASE = 7968 := by decide
  have hprog : ∀ i, i ≤ 256 → read_byte f (PROGRAM_BASE + i) = (s.Program i).toNat := by
    intro i hi
    have hb2 := hbytes i (by omega)
    unfold read_byte
    rw [hfa, e1, e2, if_pos (by omega), Nat.add_sub_cancel_left]
    show Nat.land 0x3fff (s.Program i).toNat % 256 = _
    rw [land_erased _ (by omega), Nat.mod_eq_of_lt hb2]
  have hset0 : read_byte f SETTINGS_BASE = s.ClockSpeed := by
    unfold read_byte
    rw [hfa, e1, e2, e3, if_neg (by omega), if_pos (by omega), Nat.sub_self]
    show Nat.land 0x3fff s.ClockSpeed % 256 = _
    rw [land_erased _ (by omega), Nat.mod_eq_of_lt hcs]
  have hset1 : read_byte f (SETTINGS_BASE + 1)
      = if s.TapeheadHighlighting then 1 else 0 := by
    unfold read_byte
    rw [hfa, e1, e2, e3, if_neg (by omega), if_pos (by omega), Nat.add_sub_cancel_left]
    show Nat.land 0x3fff (if s.TapeheadHighlighting then 1 else 0) % 256 = _
    cases s.TapeheadHighlighting <;> decide
  refine ⟨_, hst, ?_, fun r hr => ?_⟩
  · show [read_byte f SETTINGS_BASE, read_byte f (SETTINGS_BASE + 1)] = _
    rw [hset0, hset1]
  · have hrf : r.Flash = f := hr
    obtain ⟨t, ht, h1, h2, h3, h4, _⟩ := InitTuring_restores fuel r s.Program n s.ClockSpeed
      (if s.TapeheadHighlighting then 1 else 0) (by rw [hrf]; exact hprog) hn hnul htext h0
      (by rw [hrf]; exact hset0) hcs2 (by rw [hrf]; exact hset1) hf
    refine ⟨t, ht, h1, by rw [h2, hlen], h3, ?_⟩
    rw [h4]
    cases s.TapeheadHighlighting <;> rfl
theorem StepTuring_wait_value (fuel : Nat) (s s1 s2 : Turing) (n : Nat)
    (hw : s.WaitPeriods = 0) (hp : s.Program 0 ≠ NUL)
    (hlt : s.ProgramPosition < s.ProgramLength) (hl : skip_labels fuel s = some s1)
    (hc : current s1 = '%')
    (hv : wait_value fuel s1 = some ((n : Int), s2)) (h1 : 1 ≤ n) (h2 : n ≤ 127) :
    StepTuring fuel s = some (false, { s2 with WaitPeriods := (n : Int) - 1 }) := by
  have hd := do_wait_eq fuel s1 s2 n hv (by omega) (by omega)
  have h8 : toInt8 ((n : Int) - 1) = (n : Int) - 1 := toInt8_of_range (by omega) (by omega)
  have hpos : (0 : Int) < n := by omega
  rw [StepTuring_wait fuel s s1 hw hp hlt hl hc, hd]
  simp only [Option.some_bind, gt_iff_lt, hpos, if_true, h8]
theorem find_variable_found (s : Turing) (name : List Char) (h : find_variable s name ≠ -1) :
    ∃ j, j < MAX_VARIABLES ∧ find_variable s name = (j : Int) := by
  rw [find_variable_eq] at h ⊢
  cases hb : bound_slot s name with
  | none => rw [hb] at h; exact absurd rfl h
  | some j => exact ⟨j, (bound_slot_lt hb).1, rfl⟩

theorem Frame.int8 {s t : Turing} (h : Frame s t) (hv : values_int8 s) : values_int8 t := by
  obtain ⟨p, e, f, rfl, _, _⟩ := h
  exact hv

theorem ERROR_out_of_range {v : Int} (h : -128 ≤ v ∧ v ≤ 127) : v ≠ ERROR := by
  unfold ERROR; omega

theorem get_number_range (fuel : Nat) (s : Turing) (r : Int × Turing)
    (h : get_number fuel s = some r) : -128 ≤ r.1 ∧ r.1 ≤ 127 := by
  unfold get_number at h
  simp only at h
  obtain ⟨u, _, h⟩ := Option.bind_eq_some.mp h
  cases h
  exact toInt8_range _

theorem get_operand_flagged_eq (fuel : Nat) (s : Turing) (hv : values_int8 s) :
    get_operand_flagged fuel s
      = (get_operand fuel s).bind fun r => some (r.1, decide (r.1 = ERROR), r.2) := by
  unfold get_operand_flagged get_operand
  cases hsk : skip_space fuel s with
  | none => rfl
  | some s1 =>
    simp only [Option.some_bind]
    by_cases h1 : is_symbol (current s1) = true
    · simp only [h1, if_true]
      split <;> split <;> simp [ERROR]
    · simp only [h1, Bool.false_eq_true, if_false]
      by_cases h2 : current s1 = '$'
      · simp only [h2, if_true]
        cases hn : get_name fuel (step s1) with
        | none => rfl
        | some r =>
          simp only [Option.some_bind]
          by_cases h3 : find_variable r.2 r.1 = -1
          · simp [h3]
          · obtain ⟨j, hj, hjf⟩ := find_variable_found _ _ h3
            have hfr := ((skip_space_frame fuel _ _ hsk).trans
              ((Frame.step s1).trans (get_name_frame fuel _ _ hn))).int8 hv
            have hr := hfr j hj
            have hne : r.2.VariableValues j ≠ ERROR := ERROR_out_of_range hr
            simp [h3, hjf, hne]
      · simp only [h2, if_false]
        by_cases h3 : current s1 = '-' ∨ (current s1 ≥ '0' ∧ current s1 ≤ '9')
        · simp only [h3, if_true]
          cases hn : get_number fuel s1 with
          | none => rfl
          | some r =>
            have hne : r.1 ≠ ERROR := ERROR_out_of_range (get_number_range fuel s1 r hn)
            simp [hne]
        · simp [h3]
theorem get_expression_loop_flagged_eq : ∀ (fuel : Nat) (x : Int) (s : Turing), values_int8 s →
    get_expression_loop_flagged fuel x s
      = (get_expression_loop fuel x s).bind fun r => some (r.1, decide (r.1 = ERROR), r.2)
  | 0, _, _, _ => rfl
  | fuel + 1, x, s, hv => by
    rw [get_expression_loop_flagged, get_expression_loop]
    cases hsk : skip_space fuel s with
    | none => rfl
    | some s1 =>
      have hv1 := (skip_space_frame fuel _ _ hsk).int8 hv
      have hne : toInt8 x ≠ ERROR := toInt8_ne_ERROR x
      simp only [Option.some_bind]
      by_cases h1 : current s1 = ')'
      · simp [h1, hne]
      · simp only [h1, if_false]
        by_cases h2 : (!is_operator (current s1)) = true
        · simp [h2, hne]
        · simp only [h2, Bool.false_eq_true, if_false]
          rw [get_operand_flagged_eq fuel (step s1) ((Frame.step s1).int8 hv1)]
          cases hop : get_operand fuel (step s1) with
          | none => rfl
          | some r =>
            have hv2 := ((Frame.step s1).trans (get_operand_frame fuel _ _ hop)).int8 hv1
            simp only [Option.some_bind]
            by_cases h3 : r.1 = ERROR
            · simp [h3]
            · simp only [h3, decide_False, Bool.false_eq_true, if_false]
              exact get_expression_loop_flagged_eq fuel _ r.2 hv2

theorem get_expression_flagged_eq : ∀ (fuel : Nat) (s : Turing), values_int8 s →
    get_expression_flagged fuel s
      = (get_expression fuel s).bind fun r => some (r.1, decide (r.1 = ERROR), r.2)
  | 0, _, _ => rfl
  | fuel + 1, s, hv => by
    rw [get_expression_flagged, get_expression]
    cases hsk : skip_space fuel s with
    | none => rfl
    | some s1 =>
      have hv1 := (skip_space_frame fuel _ _ hsk).int8 hv
      simp only [Option.some_bind]
      by_cases h1 : current s1 = '('
      · simp only [h1, if_true]
        rw [get_expression_flagged_eq fuel (step s1) ((Frame.step s1).int8 hv1)]
        cases hin : get_expression fuel (step s1) with
        | none => rfl
        | some r =>
          have hv2 := ((Frame.step s1).trans (get_expression_frame fuel _ _ hin)).int8 hv1
          simp only [Option.some_bind]
          by_cases h2 : current r.2 = ')'
          · by_cases h3 : r.1 = ERROR
            · simp [h2, h3]
            · simp only [h2, ne_eq, not_true_eq_false, if_false, h3, decide_False,
                Bool.false_eq_true]
              exact get_expression_loop_flagged_eq fuel _ _ ((Frame.step r.2).int8 hv2)
          · simp [h2]
      · simp only [h1, if_false]
        rw [get_operand_flagged_eq fuel s1 hv1]
        cases hop : get_operand fuel s1 with
        | none => rfl
        | some r =>
          have hv2 := (get_operand_frame fuel _ _ hop).int8 hv1
          simp only [Option.some_bind]
          by_cases h3 : r.1 = ERROR
          · simp [h3]
          · simp only [h3, decide_False, Bool.false_eq_true, if_false]
            exact get_expression_loop_flagged_eq fuel _ r.2 hv2

theorem get_operand_range (fuel : Nat) (s : Turing) (hv : values_int8 s) (r : Int × Turing)
    (h : get_operand fuel s = some r) : r.1 = ERROR ∨ (-128 ≤ r.1 ∧ r.1 ≤ 127) := by
  unfold get_operand at h
  obtain ⟨s1, hsk, h⟩ := Option.bind_eq_some.mp h
  split at h
  · simp only at h
    split at h <;> (cases h; simp only; split <;> omega)
  · split at h
    · obtain ⟨u, hu, h⟩ := Option.bind_eq_some.mp h
      simp only at h
      split at h
      · rename_i hnd
        cases h
        obtain ⟨j, hj, hjf⟩ := find_variable_found _ _ hnd
        have hfr := ((skip_space_frame fuel _ _ hsk).trans
          ((Frame.step s1).trans (get_name_frame fuel _ _ hu))).int8 hv
        simp only [hjf, Int.toNat_ofNat]
        exact Or.inr (hfr j hj)
      · cases h; exact Or.inl rfl
    · split at h
      · exact Or.inr (get_number_range fuel s1 r h)
      · cases h; exact Or.inl rfl
theorem Keeps.same (s : Turing) : Keeps s s := ⟨rfl, id⟩

theorem Keeps.seq {s t u : Turing} (h1 : Keeps s t) (h2 : Keeps t u) : Keeps s u :=
  ⟨h2.1.trans h1.1, fun h => h2.2 (h1.2 h)⟩

theorem Frame.keeps {s t : Turing} (h : Frame s t) : Keeps s t :=
  ⟨by obtain ⟨p, e, f, rfl, _, _⟩ := h; rfl, h.int8⟩

theorem Keeps.moved (s : Turing) (h : Int) : Keeps s { s with HeadPosition := h } := ⟨rfl, id⟩

theorem Keeps.waits (s : Turing) (w : Int) : Keeps s { s with WaitPeriods := w } := ⟨rfl, id⟩

theorem Keeps.tape (s : Turing) (y : Nat → Char) : Keeps s { s with Symbols := y } := ⟨rfl, id⟩

theorem Keeps.value (s : Turing) (i : Nat) (v : Int) (hv : -128 ≤ v ∧ v ≤ 127) :
    Keeps s { s with VariableValues := Function.update s.VariableValues i v } := by
  refine ⟨rfl, fun h j hj => ?_⟩
  show -128 ≤ Function.update s.VariableValues i v j ∧ Function.update s.VariableValues i v j ≤ 127
  by_cases hji : j = i
  · subst hji
    rw [Function.update_same]
    exact hv
  · rw [Function.update_noteq hji]
    exact h j hj

theorem Keeps.clamped (s : Turing) : Keeps s (clamp_head s) := by
  unfold clamp_head
  split
  · exact Keeps.moved s _
  · split
    · exact Keeps.moved s _
    · exact Keeps.same s

theorem do_movement_keeps (fuel : Nat) (s t : Turing) (h : do_movement fuel s = some t) :
    Keeps s t := by
  unfold do_movement at h
  split at h
  · simp only at h
    split at h
    · cases h
      exact (Frame.next s).keeps.seq ((Frame.step _).keeps.seq
        ((Keeps.moved _ _).seq (Keeps.clamped _)))
    · split at h
      · obtain ⟨e, he, h⟩ := Option.bind_eq_some.mp h
        have hf := ((Frame.next s).trans (get_expression_frame fuel _ _ he)).keeps
        split at h
        · cases h; exact hf
        · cases h; exact hf.seq ((Keeps.moved _ _).seq (Keeps.clamped _))
      · cases h; exact (Frame.next s).keeps.seq ((Keeps.moved _ _).seq (Keeps.clamped _))
  · split at h
    · simp only at h
      split at h
      · cases h
        exact (Frame.next s).keeps.seq ((Frame.step _).keeps.seq
          ((Keeps.moved _ _).seq (Keeps.clamped _)))
      · split at h
        · obtain ⟨e, he, h⟩ := Option.bind_eq_some.mp h
          have hf := ((Frame.next s).trans (get_expression_frame fuel _ _ he)).keeps
          split at h
          · cases h; exact hf
          · cases h; exact hf.seq ((Keeps.moved _ _).seq (Keeps.clamped _))
        · cases h; exact (Frame.next s).keeps.seq ((Keeps.moved _ _).seq (Keeps.clamped _))
    · cases h; exact Keeps.clamped s

theorem do_wait_keeps (fuel : Nat) (s t : Turing) (h : do_wait fuel s = some t) :
    Keeps s t := by
  unfold do_wait at h
  simp only at h
  refine (Keeps.waits s 1).seq ((Frame.next _).keeps.seq ?_)
  split at h
  · obtain ⟨e, he, h⟩ := Option.bind_eq_some.mp h
    refine (get_expression_frame fuel _ _ he).keeps.seq ?_
    split at h
    · cases h; exact Keeps.same _
    · split at h
      · cases h; exact Keeps.waits _ _
      · cases h; exact Keeps.waits _ _
  · cases h; exact Keeps.same _

theorem do_set_keeps (s : Turing) : Keeps s (do_set s) := by
  unfold do_set
  simp only
  refine (Frame.step s).keeps.seq ?_
  split
  · exact Keeps.same _
  · exact Keeps.tape _ _

theorem do_assignment_tail_keeps (fuel : Nat) (ndx : Int) (s t : Turing)
    (h : do_assignment_tail fuel ndx s = some t) :
    Keeps s t ∧ ∀ i, i ≠ ndx.toNat → t.VariableValues i = s.VariableValues i := by
  unfold do_assignment_tail at h
  obtain ⟨s1, h1, h⟩ := Option.bind_eq_some.mp h
  have hf1 := skip_space_frame fuel _ _ h1
  have hvals : ∀ {a b : Turing}, Frame a b → b.VariableValues = a.VariableValues := by
    intro a b hab
    obtain ⟨p, e, f, rfl, _, _⟩ := hab
    rfl
  split at h
  · simp only at h
    have hf2 := hf1.trans (Frame.next s1)
    split at h
    · have hf3 := hf2.trans (Frame.step _)
      split at h
      · cases h
        exact ⟨hf3.keeps.seq (Keeps.value _ _ _ (toInt8_range _)), fun i hi => by
          show Function.update _ _ _ i = _
          rw [Function.update_noteq hi, hvals hf3]⟩
      · cases h; exact ⟨hf3.keeps, fun i _ => by rw [hvals hf3]⟩
    · cases h
      have hf3 := hf2.trans (Frame.error _ ERR_SYNTAX_ERROR)
      exact ⟨hf3.keeps, fun i _ => by rw [hvals hf3]⟩
  · split at h
    · simp only at h
      have hf2 := hf1.trans (Frame.next s1)
      split at h
      · have hf3 := hf2.trans (Frame.step _)
        split at h
        · cases h
          exact ⟨hf3.keeps.seq (Keeps.value _ _ _ (toInt8_range _)), fun i hi => by
            show Function.update _ _ _ i = _
            rw [Function.update_noteq hi, hvals hf3]⟩
        · cases h; exact ⟨hf3.keeps, fun i _ => by rw [hvals hf3]⟩
      · cases h
        have hf3 := hf2.trans (Frame.error _ ERR_SYNTAX_ERROR)
        exact ⟨hf3.keeps, fun i _ => by rw [hvals hf3]⟩
    · split at h
      · obtain ⟨e, he, h⟩ := Option.bind_eq_some.mp h
        have hf3 := hf1.trans ((Frame.step _).trans (get_expression_frame fuel _ _ he))
        simp only at h
        split at h
        · cases h; exact ⟨hf3.keeps, fun i _ => by rw [hvals hf3]⟩
        · cases h
          exact ⟨hf3.keeps.seq (Keeps.value _ _ _ (toInt8_range _)), fun i hi => by
            show Function.update _ _ _ i = _
            rw [Function.update_noteq hi, hvals hf3]⟩
      · cases h
        have hf3 := hf1.trans (Frame.error _ ERR_SYNTAX_ERROR)
        exact ⟨hf3.keeps, fun i _ => by rw [hvals hf3]⟩
theorem Keeps.binds {s t : Turing} (h : Keeps s t) : Binds s t := ⟨Or.inl h.1, h.2⟩

theorem Binds.after {s t u : Turing} (h1 : Keeps s t) (h2 : Binds t u) : Binds s u := by
  refine ⟨?_, fun h => h2.2 (h1.2 h)⟩
  rcases h2.1 with h | ⟨j, name, hj, hfree, hnew, hu⟩
  · exact Or.inl (h.trans h1.1)
  · rw [h1.1] at hfree hnew hu
    exact Or.inr ⟨j, name, hj, hfree, hnew, hu⟩

theorem Binds.before {s t u : Turing} (h1 : Binds s t) (h2 : Keeps t u) : Binds s u := by
  refine ⟨?_, fun h => h2.2 (h1.2 h)⟩
  rcases h1.1 with h | ⟨j, name, hj, hfree, hnew, hu⟩
  · exact Or.inl (h2.1.trans h)
  · exact Or.inr ⟨j, name, hj, hfree, hnew, h2.1.trans hu⟩

theorem find_variable_none (s : Turing) (name : List Char) (h : find_variable s name = -1) :
    ∀ i, i < MAX_VARIABLES → s.VariableNames i ≠ [] → s.VariableNames i ≠ name := by
  rw [find_variable_eq] at h
  cases hb : bound_slot s name with
  | some j =>
    rw [hb] at h
    have h2 : (j : Int) = -1 := h
    omega
  | none =>
    intro i hi hne heq
    unfold bound_slot at hb
    have := List.find?_eq_none.mp hb i (List.mem_range.mpr hi)
    exact this (decide_eq_true ⟨hne, heq⟩)

theorem add_variable_binds (s : Turing) (name : List Char)
    (h : find_variable s name = -1) : Binds s (add_variable s name 0).2 := by
  rw [add_variable_eq]
  cases hf : free_slot s with
  | none => exact (Keeps.same s).binds
  | some j =>
    obtain ⟨hj, hfree⟩ := free_slot_lt hf
    refine ⟨Or.inr ⟨j, name, hj, hfree, find_variable_none s name h, rfl⟩, fun hv i hi => ?_⟩
    show -128 ≤ Function.update s.VariableValues j 0 i ∧ Function.update s.VariableValues j 0 i ≤ 127
    by_cases hij : i = j
    · subst hij
      rw [Function.update_same]
      omega
    · rw [Function.update_noteq hij]
      exact hv i hi

theorem do_assignment_binds (fuel : Nat) (s t : Turing) (h : do_assignment fuel s = some t) :
    Binds s t := by
  unfold do_assignment at h
  obtain ⟨r, hr, h⟩ := Option.bind_eq_some.mp h
  have hf := ((Frame.step s).trans (get_name_frame fuel _ _ hr)).keeps
  simp only at h
  split at h
  · rename_i hnone
    refine Binds.after hf ?_
    have hb := add_variable_binds r.2 r.1 hnone
    split at h
    · cases h; exact hb.before (Frame.error _ _).keeps
    · exact hb.before (do_assignment_tail_keeps fuel _ _ _ h).1
  · exact (hf.seq (do_assignment_tail_keeps fuel _ _ _ h).1).binds

theorem do_instruction_binds (fuel : Nat) (s t : Turing) (h : do_instruction fuel s = some t) :
    Binds s t := by
  unfold do_instruction at h
  split at h
  · exact (do_movement_keeps fuel _ _ h).binds
  · split at h
    · exact do_assignment_binds fuel _ _ h
    · split at h
      · exact (do_conditional_frame fuel _ _ h).keeps.binds
      · split at h
        · exact (do_branch_frame fuel _ _ h).keeps.binds
        · split at h
          · exact (do_wait_keeps fuel _ _ h).binds
          · split at h
            · cases h; exact (do_set_keeps s).binds
            · cases h; exact (Frame.error _ _).keeps.binds

theorem StepTuring_binds (fuel : Nat) (s : Turing) (r : Bool × Turing)
    (h : StepTuring fuel s = some r) : Binds s r.2 := by
  unfold StepTuring at h
  split at h
  · cases h; exact (Keeps.same s).binds
  · split at h
    · cases h; exact (Keeps.waits _ _).binds
    · split at h
      · cases h; exact (Frame.stop s).keeps.binds
      · split at h
        · cases h; exact (Frame.stop s).keeps.binds
        · obtain ⟨s1, h1, h⟩ := Option.bind_eq_some.mp h
          refine Binds.after (skip_labels_frame fuel _ _ h1).keeps ?_
          split at h
          · cases h; exact (Frame.stop _).keeps.binds
          · obtain ⟨s2, h2, h⟩ := Option.bind_eq_some.mp h
            have hb := do_instruction_binds fuel _ _ h2
            split at h
            · cases h; exact hb.before (Keeps.waits _ _)
            · cases h; exact hb

theorem Binds.distinct {s t : Turing} (h : Binds s t) (hd : names_distinct s) :
    names_distinct t := by
  rcases h.1 with hn | ⟨j, name, hj, hfree, hnew, hu⟩
  · intro a ha b hb hne heq
    rw [hn] at hne heq
    exact hd a ha b hb hne heq
  · intro a ha b hb hne heq
    rw [hu] at hne heq
    by_cases haj : a = j
    · by_cases hbj : b = j
      · rw [haj, hbj]
      · exfalso
        subst haj
        rw [Function.update_same] at hne heq
        rw [Function.update_noteq hbj] at heq
        exact hnew b hb (by rw [← heq]; exact hne) heq.symm
    · rw [Function.update_noteq haj] at hne heq
      by_cases hbj : b = j
      · exfalso
        subst hbj
        rw [Function.update_same] at heq
        exact hnew a ha hne heq
      · rw [Function.update_noteq hbj] at heq
        exact hd a ha b hb hne heq

theorem Binds.outside {s t : Turing} (h : Binds s t) (i : Nat) (hi : MAX_VARIABLES ≤ i) :
    t.VariableNames i = s.VariableNames i := by
  rcases h.1 with hn | ⟨j, name, hj, _, _, hu⟩
  · rw [hn]
  · rw [hu, Function.update_noteq (by omega)]

theorem attempts_table (fuel : Nat) : ∀ (k : Nat) (s : Turing) (q : List Bool × Turing),
    attempts fuel k s = some q →
      (names_distinct s → names_distinct q.2) ∧ (values_int8 s → values_int8 q.2) ∧
      ∀ i, MAX_VARIABLES ≤ i → q.2.VariableNames i = s.VariableNames i
  | 0, s, q, h => by cases h; exact ⟨id, id, fun _ _ => rfl⟩
  | k + 1, s, q, h => by
    rw [attempts] at h
    obtain ⟨r, hr, h⟩ := Option.bind_eq_some.mp h
    obtain ⟨q1, hq1, h⟩ := Option.bind_eq_some.mp h
    cases h
    have hb := StepTuring_binds fuel s r hr
    obtain ⟨i1, i2, i3⟩ := attempts_table fuel k r.2 q1 hq1
    exact ⟨fun hd => i1 (hb.distinct hd), fun hv => i2 (hb.2 hv),
      fun i hi => (i3 i hi).trans (hb.outside i hi)⟩

theorem ResetTuring_distinct (s : Turing) : names_distinct (ResetTuring s) := by
  intro i hi j _ hne _
  exact absurd (by show (if i < MAX_VARIABLES then [] else _) = []; rw [if_pos hi]) hne

theorem occupied_le (s : Turing) : occupied s ≤ MAX_VARIABLES := by
  unfold occupied
  exact (List.length_filter_le _ _).trans (by simp)

theorem do_assignment_of_bound (fuel : Nat) (s t : Turing) (r : List Char × Turing)
    (hr : get_name fuel (step s) = some r) (hb : find_variable r.2 r.1 ≠ -1)
    (h : do_assignment fuel s = some t) :
    t.VariableNames = s.VariableNames ∧
      ∀ i : Nat, (i : Int) ≠ find_variable r.2 r.1 → t.VariableValues i = s.VariableValues i := by
  unfold do_assignment at h
  rw [hr] at h
  simp only [Option.some_bind, hb, if_false] at h
  obtain ⟨hk, hvals⟩ := do_assignment_tail_keeps fuel _ _ _ h
  have hf := (Frame.step s).trans (get_name_frame fuel _ _ hr)
  obtain ⟨j, hj, hjf⟩ := find_variable_found _ _ hb
  refine ⟨hk.1.trans hf.keeps.1, fun i hi => ?_⟩
  rw [hvals i (by rw [hjf] at hi ⊢; simp only [Int.toNat_ofNat]; omega)]
  obtain ⟨p, e, f, hq, _, _⟩ := hf
  rw [hq]
theorem get_expression_bad_operand (fuel : Nat) (s : Turing)
    (hb : is_blank (current s) = false) (h1 : current s ≠ '(')
    (h2 : is_symbol (current s) = false) (h3 : current s ≠ '$')
    (h4 : ¬ (current s = '-' ∨ (current s ≥ '0' ∧ current s ≤ '9'))) :
    get_expression (fuel + 2) s = some (ERROR, error s ERR_OPERAND_ERROR) := by
  have hsk : skip_space (fuel + 1) s = some s := skip_space_of_not_blank fuel s hb
  have hop : get_operand (fuel + 1) s = some (ERROR, error s ERR_OPERAND_ERROR) := by
    simp [get_operand, hsk, h2, h3, h4]
  simp [get_expression, hsk, h1, hop]

theorem get_expression_short (s : Turing) : get_expression 1 s = none := by
  simp [get_expression, skip_space]

theorem do_instruction_conditional (fuel : Nat) (s : Turing) (h : current s = '?') :
    do_instruction fuel s = do_conditional fuel s := by
  have h2 : ¬ (('?' : Char) = '<' ∨ ('?' : Char) = '>') := by decide
  have h3 : ¬ (('?' : Char) = '$') := by decide
  simp only [do_instruction, h, h2, h3, if_false, if_true]

theorem rest_step (s : Turing) : rest (step s) = rest s - 1 := by
  unfold rest step
  split
  · simp only
    omega
  · omega

theorem rest_pos {s : Turing} (h : current s ≠ NUL) : 0 < rest s := by
  have := current_lt_of_ne h
  unfold rest
  omega

theorem Frame.length {s t : Turing} (h : Frame s t) : t.ProgramLength = s.ProgramLength := by
  obtain ⟨p, e, f, rfl, _, _⟩ := h
  rfl

theorem rest_error (s : Turing) (e : Nat) (h : s.ProgramLength < 128) :
    rest (error s e) = 0 := by
  unfold rest error StopTuring
  simp only
  unfold toInt8
  omega

theorem skip_comment_total : ∀ (fuel : Nat) (s : Turing), rest s + 1 ≤ fuel →
    ∃ t, skip_comment fuel s = some t ∧ rest t ≤ rest s - 1
  | 0, s, h => by omega
  | fuel + 1, s, h => by
    rw [skip_comment, next_eq]
    simp only
    split
    · rename_i hc
      have hp := rest_pos hc.1
      have hs := rest_step s
      obtain ⟨t, ht, hr⟩ := skip_comment_total fuel (step s) (by omega)
      exact ⟨t, ht, by omega⟩
    · exact ⟨_, rfl, by rw [rest_step]⟩

theorem skip_space_total : ∀ (fuel : Nat) (s : Turing), rest s + 2 ≤ fuel →
    ∃ t, skip_space fuel s = some t ∧ rest t ≤ rest s
  | 0, s, h => by omega
  | fuel + 1, s, h => by
    rw [skip_space]
    split
    · rename_i hc
      have hp : 0 < rest s := rest_pos (by rw [hc]; decide)
      obtain ⟨u, hu, hur⟩ := skip_comment_total fuel s (by omega)
      obtain ⟨t, ht, htr⟩ := skip_space_total fuel u (by omega)
      exact ⟨t, by rw [hu]; exact ht, by omega⟩
    · split
      · rename_i hc
        have hp : 0 < rest s := by
          refine rest_pos ?_
          rcases hc with h | h | h | h <;> (rw [h]; decide)
        have hs := rest_step s
        obtain ⟨t, ht, htr⟩ := skip_space_total fuel (step s) (by omega)
        exact ⟨t, ht, by omega⟩
      · exact ⟨s, rfl, le_refl _⟩

theorem is_name_ne_NUL {c : Char} (h : is_name c = true) : c ≠ NUL := by
  intro hc; subst hc; exact absurd h (by decide)

theorem get_name_loop_total : ∀ (fuel : Nat) (name : List Char) (s : Turing), rest s + 1 ≤ fuel →
    ∃ r, get_name_loop fuel name s = some r ∧ rest r.2 ≤ rest s
  | 0, _, s, h => by omega
  | fuel + 1, name, s, h => by
    rw [get_name_loop]
    split
    · rename_i hc
      have hp := rest_pos (is_name_ne_NUL hc)
      have hs := rest_step s
      obtain ⟨r, hr, hrr⟩ := get_name_loop_total fuel _ (step s) (by omega)
      exact ⟨r, hr, by omega⟩
    · exact ⟨_, rfl, le_refl _⟩

theorem get_name_total (fuel : Nat) (s : Turing) (h : rest s + 2 ≤ fuel) :
    ∃ r, get_name fuel s = some r ∧ rest r.2 ≤ rest s := by
  obtain ⟨u, hu, hur⟩ := skip_space_total fuel s h
  obtain ⟨r, hr, hrr⟩ := get_name_loop_total fuel [] u (by omega)
  exact ⟨r, by unfold get_name; rw [hu]; exact hr, by omega⟩

theorem get_number_loop_total : ∀ (fuel : Nat) (n : Int) (s : Turing), rest s + 1 ≤ fuel →
    ∃ r, get_number_loop fuel n s = some r ∧ rest r.2 ≤ rest s
  | 0, _, s, h => by omega
  | fuel + 1, n, s, h => by
    rw [get_number_loop]
    split
    · rename_i hc
      have hp := rest_pos hc.1
      have hs := rest_step s
      obtain ⟨r, hr, hrr⟩ := get_number_loop_total fuel _ (step s) (by omega)
      exact ⟨r, hr, by omega⟩
    · exact ⟨_, rfl, le_refl _⟩

theorem get_number_total (fuel : Nat) (s : Turing) (h : rest s + 1 ≤ fuel) :
    ∃ r, get_number fuel s = some r ∧ rest r.2 ≤ rest s := by
  unfold get_number
  simp only
  have hs := rest_step s
  split
  · obtain ⟨r, hr, hrr⟩ := get_number_loop_total fuel 0 (step s) (by omega)
    exact ⟨_, by rw [hr]; rfl, by simp only; omega⟩
  · obtain ⟨r, hr, hrr⟩ := get_number_loop_total fuel 0 s (by omega)
    exact ⟨_, by rw [hr]; rfl, by simp only; omega⟩

theorem get_operand_total (fuel : Nat) (s : Turing) (hL : s.ProgramLength < 128)
    (h : rest s + 2 ≤ fuel) :
    ∃ r, get_operand fuel s = some r ∧ rest r.2 ≤ rest s := by
  obtain ⟨s1, h1, h1r⟩ := skip_space_total fuel s h
  have hL1 : s1.ProgramLength < 128 := by rw [(skip_space_frame fuel _ _ h1).length]; exact hL
  have hs := rest_step s1
  unfold get_operand
  rw [h1]
  simp only [Option.some_bind]
  split
  · split
    · exact ⟨_, rfl, by simp only; omega⟩
    · exact ⟨_, rfl, by simp only; omega⟩
  · split
    · obtain ⟨r, hr, hrr⟩ := get_name_total fuel (step s1) (by omega)
      have hLr : r.2.ProgramLength < 128 := by
        rw [((Frame.step s1).trans (get_name_frame fuel _ _ hr)).length]; exact hL1
      rw [hr]
      simp only [Option.some_bind]
      split
      · exact ⟨_, rfl, by simp only; omega⟩
      · exact ⟨_, rfl, by simp only; rw [rest_error _ _ hLr]; omega⟩
    · split
      · obtain ⟨r, hr, hrr⟩ := get_number_total fuel s1 (by omega)
        exact ⟨r, hr, by omega⟩
      · exact ⟨_, rfl, by simp only; rw [rest_error _ _ hL1]; omega⟩
theorem is_operator_ne_NUL {c : Char} (h : is_operator c = true) : c ≠ NUL := by
  intro hc; subst hc; exact absurd h (by decide)

theorem get_expression_loop_total : ∀ (fuel : Nat) (x : Int) (s : Turing),
    s.ProgramLength < 128 → rest s + 3 ≤ fuel →
    ∃ r, get_expression_loop fuel x s = some r ∧ rest r.2 ≤ rest s
  | 0, _, s, _, h => by omega
  | fuel + 1, x, s, hL, h => by
    obtain ⟨s1, h1, h1r⟩ := skip_space_total fuel s (by omega)
    have hL1 : s1.ProgramLength < 128 := by rw [(skip_space_frame fuel _ _ h1).length]; exact hL
    rw [get_expression_loop, h1]
    simp only [Option.some_bind]
    split
    · exact ⟨_, rfl, h1r⟩
    · split
      · exact ⟨_, rfl, h1r⟩
      · rename_i hop
        have hp : 0 < rest s1 := by
          refine rest_pos (is_operator_ne_NUL ?_)
          simpa using hop
        have hs := rest_step s1
        obtain ⟨r, hr, hrr⟩ := get_operand_total fuel (step s1)
          (by rw [(Frame.step s1).length]; exact hL1) (by omega)
        have hLr : r.2.ProgramLength < 128 := by
          rw [((Frame.step s1).trans (get_operand_frame fuel _ _ hr)).length]; exact hL1
        rw [hr]
        simp only [Option.some_bind]
        split
        · exact ⟨_, rfl, by simp only; omega⟩
        · obtain ⟨q, hq, hqr⟩ := get_expression_loop_total fuel
            (apply_op s.Target (current s1) x r.1) r.2 hLr (by omega)
          exact ⟨q, hq, by omega⟩

theorem get_expression_total : ∀ (fuel : Nat) (s : Turing),
    s.ProgramLength < 128 → rest s + 4 ≤ fuel →
    ∃ r, get_expression fuel s = some r ∧ rest r.2 ≤ rest s
  | 0, s, _, h => by omega
  | fuel + 1, s, hL, h => by
    obtain ⟨s1, h1, h1r⟩ := skip_space_total fuel s (by omega)
    have hL1 : s1.ProgramLength < 128 := by rw [(skip_space_frame fuel _ _ h1).length]; exact hL
    rw [get_expression, h1]
    simp only [Option.some_bind]
    split
    · rename_i hc
      have hp : 0 < rest s1 := rest_pos (by rw [hc]; decide)
      have hs := rest_step s1
      obtain ⟨r, hr, hrr⟩ := get_expression_total fuel (step s1)
        (by rw [(Frame.step s1).length]; exact hL1) (by omega)
      have hLr : r.2.ProgramLength < 128 := by
        rw [((Frame.step s1).trans (get_expression_frame fuel _ _ hr)).length]; exact hL1
      have hs2 := rest_step r.2
      rw [hr]
      simp only [Option.some_bind]
      split
      · exact ⟨_, rfl, by simp only; omega⟩
      · split
        · exact ⟨_, rfl, by simp only; omega⟩
        · obtain ⟨q, hq, hqr⟩ := get_expression_loop_total fuel r.1 (step r.2)
            (by rw [(Frame.step r.2).length]; exact hLr) (by omega)
          exact ⟨q, hq, by omega⟩
    · obtain ⟨r, hr, hrr⟩ := get_operand_total fuel s1 hL1 (by omega)
      have hLr : r.2.ProgramLength < 128 := by
        rw [(get_operand_frame fuel _ _ hr).length]; exact hL1
      rw [hr]
      simp only [Option.some_bind]
      split
      · exact ⟨_, rfl, by simp only; omega⟩
      · obtain ⟨q, hq, hqr⟩ := get_expression_loop_total fuel r.1 r.2 hLr (by omega)
        exact ⟨q, hq, by omega⟩

theorem rest_next (s : Turing) : rest (next s).2 = rest s - 1 := by
  rw [next_eq]; exact rest_step s

theorem skip_movement_total (fuel : Nat) (s : Turing) (hL : s.ProgramLength < 128)
    (h : rest s + 4 ≤ fuel) : ∃ t, skip_movement fuel s = some t := by
  have hn := rest_next s
  have hLn : (next s).2.ProgramLength < 128 := by rw [(Frame.next s).length]; exact hL
  unfold skip_movement
  split
  · simp only
    split
    · exact ⟨_, rfl⟩
    · split
      · obtain ⟨e, he, _⟩ := get_expression_total fuel (next s).2 hLn (by omega)
        exact ⟨_, by rw [he]; rfl⟩
      · exact ⟨_, rfl⟩
  · split
    · simp only
      split
      · exact ⟨_, rfl⟩
      · split
        · obtain ⟨e, he, _⟩ := get_expression_total fuel (next s).2 hLn (by omega)
          exact ⟨_, by rw [he]; rfl⟩
        · exact ⟨_, rfl⟩
    · exact ⟨_, rfl⟩

theorem do_movement_total (fuel : Nat) (s : Turing) (hL : s.ProgramLength < 128)
    (h : rest s + 4 ≤ fuel) : ∃ t, do_movement fuel s = some t := by
  have hn := rest_next s
  have hLn : (next s).2.ProgramLength < 128 := by rw [(Frame.next s).length]; exact hL
  unfold do_movement
  split
  · simp only
    split
    · exact ⟨_, rfl⟩
    · split
      · obtain ⟨e, he, _⟩ := get_expression_total fuel (next s).2 hLn (by omega)
        rw [he]
        simp only [Option.some_bind]
        split <;> exact ⟨_, rfl⟩
      · exact ⟨_, rfl⟩
  · split
    · simp only
      split
      · exact ⟨_, rfl⟩
      · split
        · obtain ⟨e, he, _⟩ := get_expression_total fuel (next s).2 hLn (by omega)
          rw [he]
          simp only [Option.some_bind]
          split <;> exact ⟨_, rfl⟩
        · exact ⟨_, rfl⟩
    · exact ⟨_, rfl⟩

theorem skip_wait_total (fuel : Nat) (s : Turing) (hL : s.ProgramLength < 128)
    (h : rest s + 4 ≤ fuel) : ∃ t, skip_wait fuel s = some t := by
  have hn := rest_next s
  have hLn : (next s).2.ProgramLength < 128 := by rw [(Frame.next s).length]; exact hL
  unfold skip_wait
  simp only
  split
  · obtain ⟨e, he, _⟩ := get_expression_total fuel (next s).2 hLn (by omega)
    exact ⟨_, by rw [he]; rfl⟩
  · exact ⟨_, rfl⟩

theorem do_wait_total (fuel : Nat) (s : Turing) (hL : s.ProgramLength < 128)
    (h : rest s + 4 ≤ fuel) : ∃ t, do_wait fuel s = some t := by
  have hn := rest_next { s with WaitPeriods := 1 }
  have hr : rest { s with WaitPeriods := 1 } = rest s := rfl
  have hLn : (next { s with WaitPeriods := 1 }).2.ProgramLength < 128 := by
    rw [(Frame.next _).length]; exact hL
  unfold do_wait
  simp only
  split
  · obtain ⟨e, he, _⟩ := get_expression_total fuel _ hLn (by omega)
    rw [he]
    simp only [Option.some_bind]
    split
    · exact ⟨_, rfl⟩
    · split <;> exact ⟨_, rfl⟩
  · exact ⟨_, rfl⟩

theorem skip_branch_total (fuel : Nat) (s : Turing) (h : rest s + 2 ≤ fuel) :
    ∃ t, skip_branch fuel s = some t := by
  have hs := rest_step s
  obtain ⟨r, hr, _⟩ := get_name_total fuel (step s) (by omega)
  exact ⟨_, by unfold skip_branch; rw [hr]; rfl⟩

theorem skip_assignment_total (fuel : Nat) (s : Turing) (hL : s.ProgramLength < 128)
    (h : rest s + 4 ≤ fuel) : ∃ t, skip_assignment fuel s = some t := by
  have hs := rest_step s
  obtain ⟨r, hr, hrr⟩ := get_name_total fuel (step s) (by omega)
  obtain ⟨s1, h1, h1r⟩ := skip_space_total fuel r.2 (by omega)
  have hL1 : s1.ProgramLength < 128 := by
    rw [((Frame.step s).trans ((get_name_frame fuel _ _ hr).trans
      (skip_space_frame fuel _ _ h1))).length]
    exact hL
  have hs1 := rest_step s1
  unfold skip_assignment
  rw [hr]
  simp only [Option.some_bind, h1]
  split
  · split <;> exact ⟨_, rfl⟩
  · split
    · split <;> exact ⟨_, rfl⟩
    · split
      · obtain ⟨e, he, _⟩ := get_expression_total fuel (step s1)
          (by rw [(Frame.step s1).length]; exact hL1) (by omega)
        exact ⟨_, by rw [he]; rfl⟩
      · exact ⟨_, rfl⟩

theorem do_assignment_tail_total (fuel : Nat) (ndx : Int) (s : Turing)
    (hL : s.ProgramLength < 128) (h : rest s + 4 ≤ fuel) :
    ∃ t, do_assignment_tail fuel ndx s = some t := by
  obtain ⟨s1, h1, h1r⟩ := skip_space_total fuel s (by omega)
  have hL1 : s1.ProgramLength < 128 := by rw [(skip_space_frame fuel _ _ h1).length]; exact hL
  have hs1 := rest_step s1
  unfold do_assignment_tail
  rw [h1]
  simp only [Option.some_bind]
  split
  · split
    · split <;> exact ⟨_, rfl⟩
    · exact ⟨_, rfl⟩
  · split
    · split
      · split <;> exact ⟨_, rfl⟩
      · exact ⟨_, rfl⟩
    · split
      · obtain ⟨e, he, _⟩ := get_expression_total fuel (step s1)
          (by rw [(Frame.step s1).length]; exact hL1) (by omega)
        rw [he]
        simp only [Option.some_bind]
        split <;> exact ⟨_, rfl⟩
      · exact ⟨_, rfl⟩

theorem do_assignment_total (fuel : Nat) (s : Turing) (hL : s.ProgramLength < 128)
    (h : rest s + 4 ≤ fuel) : ∃ t, do_assignment fuel s = some t := by
  have hs := rest_step s
  obtain ⟨r, hr, hrr⟩ := get_name_total fuel (step s) (by omega)
  have hLr : r.2.ProgramLength < 128 := by
    rw [((Frame.step s).trans (get_name_frame fuel _ _ hr)).length]; exact hL
  unfold do_assignment
  rw [hr]
  simp only [Option.some_bind]
  split
  · split
    · exact ⟨_, rfl⟩
    · have ha := add_variable_exec r.2 r.1 0
      have hpa : (add_variable r.2 r.1 0).2.ProgramLength = r.2.ProgramLength := ha.program.2.1
      have hra : rest (add_variable r.2 r.1 0).2 = rest r.2 := by
        unfold add_variable
        simp only
        split <;> rfl
      exact do_assignment_tail_total fuel _ _ (by rw [hpa]; exact hLr) (by omega)
  · exact do_assignment_tail_total fuel _ _ hLr (by omega)
theorem skip_conditional_test_total (fuel : Nat) (s : Turing) (hL : s.ProgramLength < 128)
    (h : rest s + 4 ≤ fuel) :
    ∃ t, skip_conditional_test fuel s = some t ∧ rest t ≤ rest s - 1 := by
  have hn := rest_next s
  have hLn : (next s).2.ProgramLength < 128 := by rw [(Frame.next s).length]; exact hL
  have hs1 := rest_step (next s).2
  have hn2 := rest_next (next s).2
  have hLn2 : (next (next s).2).2.ProgramLength < 128 := by
    rw [(Frame.next _).length]; exact hLn
  have hs2 := rest_step (next (next s).2).2
  have key : ∀ s1 : Turing, s1.ProgramLength < 128 → rest s1 ≤ rest s - 1 →
      ∃ t, ((get_expression fuel s1).bind fun e => skip_space fuel e.2) = some t ∧
        rest t ≤ rest s - 1 := by
    intro s1 hL1 hr1
    obtain ⟨e, he, her⟩ := get_expression_total fuel s1 hL1 (by omega)
    obtain ⟨t, ht, htr⟩ := skip_space_total fuel e.2 (by omega)
    exact ⟨t, by rw [he]; exact ht, by omega⟩
  unfold skip_conditional_test
  simp only
  split
  · exact key _ (by rw [(Frame.step _).length]; exact hLn) (by omega)
  · split
    · split
      · exact key _ (by rw [(Frame.step _).length]; exact hLn2) (by omega)
      · exact key _ hLn2 (by omega)
    · split
      · split
        · exact key _ (by rw [(Frame.step _).length]; exact hLn2) (by omega)
        · exact key _ hLn2 (by omega)
      · exact key _ hLn (by omega)

theorem skip_instruction_total : ∀ (fuel : Nat) (s : Turing),
    s.ProgramLength < 128 → rest s + 5 ≤ fuel → ∃ t, skip_instruction fuel s = some t
  | 0, s, _, h => by omega
  | fuel + 1, s, hL, h => by
    rw [skip_instruction]
    split
    · exact skip_movement_total fuel s hL (by omega)
    · split
      · exact skip_assignment_total fuel s hL (by omega)
      · split
        · rename_i hc
          have hp : 0 < rest s := rest_pos (by rw [hc]; decide)
          obtain ⟨t, ht, htr⟩ := skip_conditional_test_total fuel s hL (by omega)
          have hLt : t.ProgramLength < 128 := by
            rw [(skip_conditional_test_frame fuel _ _ ht).length]; exact hL
          obtain ⟨u, hu⟩ := skip_instruction_total fuel t hLt (by omega)
          exact ⟨u, by rw [ht]; exact hu⟩
        · split
          · exact skip_branch_total fuel s (by omega)
          · split
            · exact skip_wait_total fuel s hL (by omega)
            · split <;> exact ⟨_, rfl⟩

theorem do_conditional_tail_total (fuel : Nat) (x : Int) (test : Bool) (s : Turing)
    (hL : s.ProgramLength < 128) (h : rest s + 5 ≤ fuel) :
    ∃ t, do_conditional_tail fuel x test s = some t := by
  unfold do_conditional_tail
  split
  · exact ⟨_, rfl⟩
  · split
    · obtain ⟨u, hu, hur⟩ := skip_space_total fuel s (by omega)
      have hLu : u.ProgramLength < 128 := by
        rw [(skip_space_frame fuel _ _ hu).length]; exact hL
      obtain ⟨t, ht⟩ := skip_instruction_total fuel u hLu (by omega)
      exact ⟨t, by rw [hu]; exact ht⟩
    · exact ⟨_, rfl⟩

theorem do_conditional_total (fuel : Nat) (s : Turing) (hL : s.ProgramLength < 128)
    (h : rest s + 5 ≤ fuel) : ∃ t, do_conditional fuel s = some t := by
  have hn := rest_next s
  have hLn : (next s).2.ProgramLength < 128 := by rw [(Frame.next s).length]; exact hL
  have hs1 := rest_step (next s).2
  have hn2 := rest_next (next s).2
  have hLn2 : (next (next s).2).2.ProgramLength < 128 := by
    rw [(Frame.next _).length]; exact hLn
  have hs2 := rest_step (next (next s).2).2
  have key : ∀ (s1 : Turing) (test : Int → Bool), s1.ProgramLength < 128 → rest s1 ≤ rest s →
      ∃ t, ((get_expression fuel s1).bind fun e =>
        do_conditional_tail fuel e.1 (test e.1) e.2) = some t := by
    intro s1 test hL1 hr1
    obtain ⟨e, he, her⟩ := get_expression_total fuel s1 hL1 (by omega)
    have hLe : e.2.ProgramLength < 128 := by
      rw [(get_expression_frame fuel _ _ he).length]; exact hL1
    obtain ⟨t, ht⟩ := do_conditional_tail_total fuel e.1 (test e.1) e.2 hLe (by omega)
    exact ⟨t, by rw [he]; exact ht⟩
  unfold do_conditional
  simp only
  split
  · exact key _ (fun v => decide (v = 0)) (by rw [(Frame.step _).length]; exact hLn) (by omega)
  · split
    · split
      · exact key _ (fun v => decide (v ≥ 0)) (by rw [(Frame.step _).length]; exact hLn2)
          (by omega)
      · exact key _ (fun v => decide (v > 0)) hLn2 (by omega)
    · split
      · split
        · exact key _ (fun v => decide (v ≤ 0)) (by rw [(Frame.step _).length]; exact hLn2)
            (by omega)
        · exact key _ (fun v => decide (v < 0)) hLn2 (by omega)
      · exact key _ (fun v => decide (v ≠ 0)) hLn (by omega)

theorem do_branch_loop_total : ∀ (fuel : Nat) (label : List Char) (s : Turing),
    s.ProgramLength < 128 → rest s + 3 ≤ fuel → ∃ t, do_branch_loop fuel label s = some t
  | 0, _, s, _, h => by omega
  | fuel + 1, label, s, hL, h => by
    rw [do_branch_loop]
    split
    · exact ⟨_, rfl⟩
    · rename_i hc
      have hp := rest_pos hc
      obtain ⟨s1, h1, h1r⟩ := skip_space_total fuel s (by omega)
      have hL1 : s1.ProgramLength < 128 := by
        rw [(skip_space_frame fuel _ _ h1).length]; exact hL
      have hs1 := rest_step s1
      rw [h1]
      simp only [Option.some_bind]
      split
      · exact do_branch_loop_total fuel label (step s1)
          (by rw [(Frame.step s1).length]; exact hL1) (by omega)
      · rename_i hh
        have hp1 : 0 < rest s1 := by
          refine rest_pos ?_
          have : current s1 = '#' := by simpa using hh
          rw [this]; decide
        obtain ⟨r, hr, hrr⟩ := get_name_total fuel (step s1) (by omega)
        have hLr : r.2.ProgramLength < 128 := by
          rw [((Frame.step s1).trans (get_name_frame fuel _ _ hr)).length]; exact hL1
        rw [hr]
        simp only [Option.some_bind]
        split
        · exact ⟨_, rfl⟩
        · exact do_branch_loop_total fuel label r.2 hLr (by omega)

theorem rest_at_zero (x : Turing) (p : Int) (hp : p = 0) :
    rest { x with ProgramPosition := p } = x.ProgramLength := by
  subst hp
  unfold rest
  simp only
  omega

theorem do_branch_total (fuel : Nat) (s : Turing) (hL : s.ProgramLength < 128)
    (h : rest s + 2 ≤ fuel) (h2 : s.ProgramLength + 3 ≤ fuel) :
    ∃ t, do_branch fuel s = some t := by
  have hs := rest_step s
  obtain ⟨r, hr, hrr⟩ := get_name_total fuel (step s) (by omega)
  have hLr : r.2.ProgramLength = s.ProgramLength :=
    ((Frame.step s).trans (get_name_frame fuel _ _ hr)).length
  have hb : rest { r.2 with ProgramPosition := 0 } + 3 ≤ fuel := by
    rw [rest_at_zero r.2 0 rfl, hLr]
    exact h2
  have hLz : ({ r.2 with ProgramPosition := 0 } : Turing).ProgramLength < 128 := by
    show r.2.ProgramLength < 128
    omega
  unfold do_branch
  rw [hr]
  simp only [Option.some_bind]
  exact do_branch_loop_total fuel r.1 _ hLz hb

theorem do_instruction_total (fuel : Nat) (s : Turing) (hL : s.ProgramLength < 128)
    (h : rest s + 5 ≤ fuel) (h2 : s.ProgramLength + 3 ≤ fuel) :
    ∃ t, do_instruction fuel s = some t := by
  unfold do_instruction
  split
  · exact do_movement_total fuel s hL (by omega)
  · split
    · exact do_assignment_total fuel s hL (by omega)
    · split
      · exact do_conditional_total fuel s hL h
      · split
        · exact do_branch_total fuel s hL (by omega) h2
        · split
          · exact do_wait_total fuel s hL (by omega)
          · split <;> exact ⟨_, rfl⟩

theorem skip_label_name_total : ∀ (fuel : Nat) (s : Turing), rest s + 1 ≤ fuel →
    ∃ t, skip_label_name fuel s = some t ∧ rest t ≤ rest s
  | 0, s, h => by omega
  | fuel + 1, s, h => by
    rw [skip_label_name]
    split
    · rename_i hc
      have hp := rest_pos (is_name_ne_NUL hc)
      have hs := rest_step s
      obtain ⟨t, ht, htr⟩ := skip_label_name_total fuel (step s) (by omega)
      exact ⟨t, ht, by omega⟩
    · exact ⟨_, rfl, le_refl _⟩

theorem skip_labels_total : ∀ (fuel : Nat) (s : Turing), rest s + 3 ≤ fuel →
    ∃ t, skip_labels fuel s = some t ∧ rest t ≤ rest s
  | 0, s, h => by omega
  | fuel + 1, s, h => by
    obtain ⟨s1, h1, h1r⟩ := skip_space_total fuel s (by omega)
    have hs1 := rest_step s1
    rw [skip_labels, h1]
    simp only [Option.some_bind]
    split
    · exact ⟨_, rfl, h1r⟩
    · rename_i hh
      have hp1 : 0 < rest s1 := by
        refine rest_pos ?_
        have : current s1 = '#' := by simpa using hh
        rw [this]; decide
      obtain ⟨u, hu, hur⟩ := skip_label_name_total fuel (step s1) (by omega)
      obtain ⟨t, ht, htr⟩ := skip_labels_total fuel u (by omega)
      exact ⟨t, by rw [hu]; exact ht, by omega⟩

theorem StepTuring_total (fuel : Nat) (s : Turing) (hL : s.ProgramLength < 128)
    (hp : 0 ≤ s.ProgramPosition) (h : s.ProgramLength + 5 ≤ fuel) :
    ∃ r, StepTuring fuel s = some r := by
  have hrest : rest s ≤ s.ProgramLength := by
    unfold rest
    omega
  unfold StepTuring
  split
  · exact ⟨_, rfl⟩
  · split
    · exact ⟨_, rfl⟩
    · split
      · exact ⟨_, rfl⟩
      · split
        · exact ⟨_, rfl⟩
        · obtain ⟨s1, h1, h1r⟩ := skip_labels_total fuel s (by omega)
          have hL1 : s1.ProgramLength = s.ProgramLength := (skip_labels_frame fuel _ _ h1).length
          rw [h1]
          simp only [Option.some_bind]
          split
          · exact ⟨_, rfl⟩
          · obtain ⟨s2, h2⟩ := do_instruction_total fuel s1 (by omega) (by omega) (by omega)
            rw [h2]
            simp only [Option.some_bind]
            split <;> exact ⟨_, rfl⟩
theorem current_inside (s : Turing) (p : Nat) (hp : s.ProgramPosition = p)
    (hl : p < s.ProgramLength) : current s = s.Program p := by
  unfold current Program_at
  rw [hp, if_neg (by omega), if_neg (by omega)]
  rfl

theorem current_front (s : Turing) (k : Nat) (hk : 0 < k) (hp : s.ProgramPosition = -(k : Int)) :
    current s = front_at s k := by
  unfold current Program_at
  rw [hp, if_neg (by omega), if_pos (by omega)]
  congr 1
  omega

theorem step_inside (s : Turing) (h : s.ProgramPosition < s.ProgramLength) :
    step s = { s with ProgramPosition := s.ProgramPosition + 1 } := by
  unfold step
  rw [if_pos h]

theorem skip_space_stay (fuel : Nat) (s : Turing) (h : is_blank (current s) = false) :
    skip_space fuel s = none ∨ skip_space fuel s = some s := by
  rcases fuel with _ | f
  · exact Or.inl rfl
  · exact Or.inr (skip_space_of_not_blank f s h)

theorem skip_labels_stay (fuel : Nat) (s : Turing) (hb : is_blank (current s) = false)
    (hl : current s ≠ '#') : skip_labels fuel s = none ∨ skip_labels fuel s = some s := by
  rcases fuel with _ | f
  · exact Or.inl rfl
  · rw [skip_labels]
    rcases skip_space_stay f s hb with h | h
    · rw [h]; exact Or.inl rfl
    · rw [h]
      simp only [Option.some_bind]
      rw [if_pos hl]
      exact Or.inr rfl

theorem get_number_loop_stop (fuel : Nat) (n : Int) (s : Turing)
    (h : ¬ (current s ≥ '0' ∧ current s ≤ '9')) :
    get_number_loop fuel n s = none ∨ get_number_loop fuel n s = some (n, s) := by
  rcases fuel with _ | f
  · exact Or.inl rfl
  · rw [get_number_loop, if_neg (fun hh => h hh.2)]
    exact Or.inr rfl

theorem get_number_zero (fuel : Nat) (s : Turing) (h1 : current s = '0')
    (h2 : current (step s) = '?') :
    get_number fuel s = none ∨ get_number fuel s = some (0, step s) := by
  have hneg : (('0' : Char) == '-') = false := by decide
  unfold get_number
  simp only [h1, hneg, Bool.false_eq_true, if_false]
  rcases fuel with _ | f
  · exact Or.inl rfl
  · rw [get_number_loop, h1, if_pos (by decide)]
    rcases get_number_loop_stop f (toInt8 (0 * 10 + toInt8 ((('0' : Char).toNat : Int) - ('0' : Char).toNat)))
      (step s) (by rw [h2]; decide) with h | h
    · rw [h]; exact Or.inl rfl
    · rw [h]; exact Or.inr rfl

theorem get_operand_zero (fuel : Nat) (s : Turing) (h1 : current s = '0')
    (h2 : current (step s) = '?') :
    get_operand fuel s = none ∨ get_operand fuel s = some (0, step s) := by
  unfold get_operand
  rcases skip_space_stay fuel s (by rw [h1]; decide) with h | h
  · rw [h]; exact Or.inl rfl
  · rw [h]
    simp only [Option.some_bind, h1]
    rw [if_neg (by decide), if_neg (by decide), if_pos (by decide)]
    exact get_number_zero fuel s h1 h2

theorem get_expression_loop_stop (fuel : Nat) (n : Int) (s : Turing) (h : current s = '?') :
    get_expression_loop fuel n s = none ∨ get_expression_loop fuel n s = some (toInt8 n, s) := by
  rcases fuel with _ | f
  · exact Or.inl rfl
  · rw [get_expression_loop]
    rcases skip_space_stay f s (by rw [h]; decide) with h1 | h1
    · rw [h1]; exact Or.inl rfl
    · rw [h1]
      simp only [Option.some_bind, h]
      rw [if_neg (by decide), if_pos (by decide)]
      exact Or.inr rfl

theorem get_expression_zero (fuel : Nat) (s : Turing) (h1 : current s = '0')
    (h2 : current (step s) = '?') :
    get_expression fuel s = none ∨ get_expression fuel s = some (0, step s) := by
  rcases fuel with _ | f
  · exact Or.inl rfl
  · rw [get_expression]
    rcases skip_space_stay f s (by rw [h1]; decide) with h | h
    · rw [h]; exact Or.inl rfl
    · rw [h]
      simp only [Option.some_bind, h1]
      rw [if_neg (by decide)]
      rcases get_operand_zero f s h1 h2 with h | h
      · rw [h]; exact Or.inl rfl
      · rw [h]
        simp only [Option.some_bind]
        rw [if_neg (by decide)]
        rcases get_expression_loop_stop f 0 (step s) h2 with h | h
        · rw [h]; exact Or.inl rfl
        · rw [h]; exact Or.inr rfl

theorem get_expression_bad (fuel : Nat) (s : Turing)
    (hb : is_blank (current s) = false) (h1 : current s ≠ '(')
    (h2 : is_symbol (current s) = false) (h3 : current s ≠ '$')
    (h4 : ¬ (current s = '-' ∨ (current s ≥ '0' ∧ current s ≤ '9'))) :
    get_expression fuel s = none ∨
      get_expression fuel s = some (ERROR, error s ERR_OPERAND_ERROR) := by
  match fuel with
  | 0 => exact Or.inl rfl
  | 1 => exact Or.inl (get_expression_short s)
  | f + 2 => exact Or.inr (get_expression_bad_operand f s hb h1 h2 h3 h4)

theorem skip_conditional_test_plain (fuel : Nat) (s : Turing) (h : current (step s) = 'x' ∨
    current (step s) = '?' ∨ current (step s) = '0') :
    skip_conditional_test fuel s
      = (get_expression fuel (step s)).bind fun e => skip_space fuel e.2 := by
  unfold skip_conditional_test
  rw [next_eq]
  rcases h with h | h | h <;>
  · simp only [h]
    rw [if_neg (by decide), if_neg (by decide), if_neg (by decide)]
theorem front_at_scan (s : Turing) (p : Int) (e : Bool) (f : Nat) (k : Nat) :
    front_at { s with ProgramPosition := p, TimerEnabled := e, Flashes := f } k = front_at s k :=
  rfl

theorem skip_test_loops (fuel k : Nat) (u : Turing) (hk : 2 ≤ k) (hk2 : k ≤ 128)
    (hp : u.ProgramPosition = -(k : Int)) (hl : u.ProgramLength = 256 - k)
    (hq : front_at u k = '?') (hx : front_at u (k - 1) = '?') :
    skip_conditional_test fuel u = none ∨
      ∃ t, skip_conditional_test fuel u = some t ∧ t.ProgramPosition = -(k : Int) ∧
        t.ProgramLength = 256 - k ∧ front_at t k = '?' ∧ front_at t (k - 1) = '?' := by
  have hst : step u = { u with ProgramPosition := -((k - 1 : Nat) : Int) } := by
    rw [step_inside u (by rw [hp, hl]; omega), hp]
    congr 1
    omega
  have hcur : current (step u) = '?' := by
    rw [current_front (step u) (k - 1) (by omega) (by rw [hst])]
    rw [hst]
    exact hx
  rw [skip_conditional_test_plain fuel u (Or.inr (Or.inl hcur))]
  rcases get_expression_bad fuel (step u) (by rw [hcur]; decide) (by rw [hcur]; decide)
    (by rw [hcur]; decide) (by rw [hcur]; decide) (by rw [hcur]; decide) with h | h
  · rw [h]; exact Or.inl rfl
  · rw [h]
    simp only [Option.some_bind]
    have hep : (error (step u) ERR_OPERAND_ERROR).ProgramPosition = -(k : Int) := by
      show toInt8 ((step u).ProgramLength : Int) = -(k : Int)
      rw [hst]
      show toInt8 (u.ProgramLength : Int) = -(k : Int)
      rw [hl]
      unfold toInt8
      omega
    have hel : (error (step u) ERR_OPERAND_ERROR).ProgramLength = 256 - k := by
      rw [hst]; exact hl
    have hf : ∀ j, front_at (error (step u) ERR_OPERAND_ERROR) j = front_at u j := by
      intro j
      rw [hst]
      rfl
    have hec : current (error (step u) ERR_OPERAND_ERROR) = '?' := by
      rw [current_front _ k (by omega) hep, hf, hq]
    rcases skip_space_stay fuel _ (by rw [hec]; decide) with h2 | h2
    · rw [h2]; exact Or.inl rfl
    · rw [h2]
      exact Or.inr ⟨_, rfl, hep, hel, by rw [hf]; exact hq, by rw [hf]; exact hx⟩

theorem skip_instruction_never (k : Nat) (hk : 2 ≤ k) (hk2 : k ≤ 128) :
    ∀ (fuel : Nat) (u : Turing),
    u.ProgramPosition = -(k : Int) → u.ProgramLength = 256 - k →
    front_at u k = '?' → front_at u (k - 1) = '?' → skip_instruction fuel u = none
  | 0, _, _, _, _, _ => rfl
  | fuel + 1, u, hp, hl, hq, hx => by
    have hcur : current u = '?' := by
      rw [current_front u k (by omega) hp, hq]
    rw [skip_instruction, hcur, if_neg (by decide), if_neg (by decide), if_pos rfl]
    rcases skip_test_loops fuel k u hk hk2 hp hl hq hx with h | ⟨t, h, tp, tl, tq, tx⟩
    · rw [h]; rfl
    · rw [h]
      exact skip_instruction_never k hk hk2 fuel t tp tl tq tx

/-- The skip of a conditional `?x` inside a program of 256 - k bytes runs into the loop. -/
theorem skip_instruction_bad_test (fuel k : Nat) (v : Turing) (hk : 2 ≤ k) (hk2 : k ≤ 128)
    (hl : v.ProgramLength = 256 - k) (hc : current v = '?') (hc2 : current (step v) = 'x')
    (hq : front_at v k = '?') (hx : front_at v (k - 1) = '?') :
    skip_instruction fuel v = none := by
  rcases fuel with _ | f
  · rfl
  · rw [skip_instruction, hc, if_neg (by decide), if_neg (by decide), if_pos rfl,
      skip_conditional_test_plain f v (Or.inl hc2)]
    rcases get_expression_bad f (step v) (by rw [hc2]; decide) (by rw [hc2]; decide)
      (by rw [hc2]; decide) (by rw [hc2]; decide) (by rw [hc2]; decide) with h | h
    · rw [h]; rfl
    · rw [h]
      simp only [Option.some_bind]
      have hsl : (step v).ProgramLength = v.ProgramLength := by
        unfold step; split <;> rfl
      have hep : (error (step v) ERR_OPERAND_ERROR).ProgramPosition = -(k : Int) := by
        show toInt8 ((step v).ProgramLength : Int) = -(k : Int)
        rw [hsl, hl]
        unfold toInt8
        omega
      have hel : (error (step v) ERR_OPERAND_ERROR).ProgramLength = 256 - k := by
        show (step v).ProgramLength = 256 - k
        rw [hsl, hl]
      have hf : ∀ j, front_at (error (step v) ERR_OPERAND_ERROR) j = front_at v j := by
        intro j
        unfold step; split <;> rfl
      have hec : current (error (step v) ERR_OPERAND_ERROR) = '?' := by
        rw [current_front _ k (by omega) hep, hf, hq]
      rcases skip_space_stay f _ (by rw [hec]; decide) with h2 | h2
      · rw [h2]; rfl
      · rw [h2]
        exact skip_instruction_never k hk hk2 f _ hep hel (by rw [hf]; exact hq)
          (by rw [hf]; exact hx)

theorem do_conditional_never (fuel k : Nat) (u : Turing) (hk : 2 ≤ k) (hk2 : k ≤ 128)
    (hl : u.ProgramLength = 256 - k) (h1 : current (step u) = '0')
    (h2 : current (step (step u)) = '?') (h3 : current (step (step (step u))) = 'x')
    (hq : front_at u k = '?') (hx : front_at u (k - 1) = '?') :
    do_conditional fuel u = none := by
  have hf : ∀ (w : Turing) j, front_at (step w) j = front_at w j := by
    intro w j
    unfold step; split <;> rfl
  have hsl : ∀ w : Turing, (step w).ProgramLength = w.ProgramLength := by
    intro w
    unfold step; split <;> rfl
  unfold do_conditional
  rw [next_eq]
  simp only [h1]
  rw [if_neg (by decide), if_neg (by decide), if_neg (by decide)]
  rcases get_expression_zero fuel (step u) h1 h2 with h | h
  · rw [h]; rfl
  · rw [h]
    simp only [Option.some_bind]
    unfold do_conditional_tail
    rw [if_neg (by decide), if_pos (show (!decide ((0 : Int) ≠ 0)) = true by decide)]
    rcases skip_space_stay fuel (step (step u)) (by rw [h2]; decide) with h4 | h4
    · rw [h4]; rfl
    · rw [h4, Option.some_bind]
      exact skip_instruction_bad_test fuel k _ hk hk2 (by rw [hsl, hsl, hl]) h2 h3
        (by rw [hf, hf]; exact hq) (by rw [hf, hf]; exact hx)

/-- On a program of 256 - k bytes, k from 2 to 128, `StepTuring` at a false conditional
followed by the conditional `?x` returns for no fuel when the bytes at `Program[-k]` and
`Program[-k+1]` are both `?`. -/
theorem StepTuring_never (fuel k : Nat) (u : Turing) (hk : 2 ≤ k) (hk2 : k ≤ 128)
    (hw : u.WaitPeriods = 0) (h0 : u.Program 0 ≠ NUL)
    (hl : u.ProgramLength = 256 - k) (hc : current u = '?') (h1 : current (step u) = '0')
    (h2 : current (step (step u)) = '?') (h3 : current (step (step (step u))) = 'x')
    (hq : front_at u k = '?') (hx : front_at u (k - 1) = '?') :
    StepTuring fuel u = none := by
  have hlt : u.ProgramPosition < u.ProgramLength := by
    by_contra hge
    have : current u = NUL := by
      unfold current
      rw [if_pos (by omega)]
    rw [this] at hc
    exact absurd hc (by decide)
  have hge : ¬ u.ProgramPosition ≥ u.ProgramLength := by omega
  rcases skip_labels_stay fuel u (by rw [hc]; decide) (by rw [hc]; decide) with h | h
  · simp only [StepTuring, hw, lt_self_iff_false, if_false, h0, hge, h, Option.none_bind]
  · rw [StepTuring_dispatch fuel u u hw h0 hlt h (by rw [hc]; decide),
      do_instruction_conditional fuel u hc,
      do_conditional_never fuel k u hk hk2 hl h1 h2 h3 hq hx]
    rfl
theorem stepped_retime (fuel : Nat) (n : Nat) (s t : Turing) (p c : Nat)
    (h : stepped fuel n { s with PrevTicks := p, TimerCnt := c } t) : stepped fuel n s t := by
  cases n with
  | zero =>
    obtain ⟨p2, c2, h⟩ := h
    exact ⟨p2, c2, h⟩
  | succ n =>
    obtain ⟨p2, c2, r, h1, h2⟩ := h
    exact ⟨p2, c2, r, h1, h2⟩

theorem polls_stepped (fuel : Nat) : ∀ (ticks : List Nat) (s : Turing) (q : Nat × Turing),
    polls fuel ticks s = some q → stepped fuel q.1 s q.2
  | [], s, q, h => by
    cases h
    exact ⟨s.PrevTicks, s.TimerCnt, rfl⟩
  | t :: ts, s, q, h => by
    rw [polls] at h
    obtain ⟨s1, h1, h⟩ := Option.bind_eq_some.mp h
    obtain ⟨q1, hq1, h⟩ := Option.bind_eq_some.mp h
    cases h
    have ih := polls_stepped fuel ts s1 q1 hq1
    obtain ⟨p, c, hpc⟩ := TuringExec_due_state t s
    unfold TuringExec at h1
    simp only at h1
    by_cases hd : (TuringExec_due t s).1 = true
    · rw [if_pos hd, hpc] at h1
      obtain ⟨r, hr, h1⟩ := Option.bind_eq_some.mp h1
      cases h1
      simp only [hd, if_true]
      rw [Nat.add_comm]
      exact ⟨p, c, r, hr, ih⟩
    · rw [if_neg hd, hpc] at h1
      cases h1
      have e : (if (TuringExec_due t s).1 = true then 1 else 0) + q1.1 = q1.1 := by
        rw [if_neg hd, Nat.zero_add]
      rw [e]
      exact stepped_retime fuel _ s _ p c ih

theorem polls_stopped (fuel : Nat) : ∀ (ticks : List Nat) (s : Turing) (q : Nat × Turing),
    s.TimerEnabled = false → polls fuel ticks s = some q → q.1 = 0
  | [], s, q, _, h => by cases h; rfl
  | t :: ts, s, q, he, h => by
    obtain ⟨e1, e2⟩ := TuringExec_stopped fuel t s he
    rw [polls, e1] at h
    simp only [Option.some_bind] at h
    obtain ⟨q1, hq1, h⟩ := Option.bind_eq_some.mp h
    cases h
    rw [e2, polls_stopped fuel ts _ q1 (by exact he) hq1]
    rfl

theorem polls_le (fuel N cs : Nat) (hN : N = 1000 / cs) (hcs : 1 ≤ cs ∧ cs ≤ 1000) :
    ∀ (ticks : List Nat) (s : Turing) (q : Nat × Turing),
      polls fuel ticks s = some q → s.ClockSpeed = cs →
      1 ≤ s.TimerCnt → s.TimerCnt ≤ N →
      q.1 ≤ (observed s.PrevTicks ticks + (N - s.TimerCnt)) / N
  | [], s, q, h, hc, h1, h2 => by
    cases h
    exact Nat.zero_le _
  | t :: ts, s, q, h, hc, h1, h2 => by
    by_cases hen : s.TimerEnabled = true
    · rw [polls] at h
      obtain ⟨s1, hs1, h⟩ := Option.bind_eq_some.mp h
      obtain ⟨q1, hq1, h⟩ := Option.bind_eq_some.mp h
      cases h
      have hNle : N ≤ 1000 := by rw [hN]; exact Nat.div_le_self _ _
      have hNpos : 0 < N := by
        rw [hN]; exact Nat.div_pos hcs.2 (by omega)
      have hti : timer_interval s = N := by
        rw [timer_interval_eq s (by omega), hc, hN]
      have hdue := TuringExec_due_count t s N hen hti h1 h2 (by omega)
      obtain ⟨hcs1, _, hp1, hc1⟩ := TuringExec_timer fuel t s s1 hs1
      rw [TuringExec_due_prev] at hp1
      have ih := polls_le fuel N cs hN hcs ts s1 q1 hq1 (hcs1.trans hc)
      simp only [observed]
      by_cases ht : s.PrevTicks = t
      · rw [hdue, if_pos ht] at hc1 ⊢
        simp only at hc1
        have ih' := ih (by omega) (by omega)
        rw [hp1, hc1] at ih'
        simp only [Bool.false_eq_true, if_false, zero_add, if_pos ht.symm]
        exact ih'
      · have ht' : ¬ t = s.PrevTicks := fun h => ht h.symm
        by_cases hone : s.TimerCnt = 1
        · rw [hdue, if_neg ht, if_pos hone] at hc1 ⊢
          simp only at hc1
          have ih' := ih (by omega) (by omega)
          rw [hp1, hc1] at ih'
          simp only [if_true, if_neg ht']
          rw [Nat.sub_self, Nat.add_zero] at ih'
          have e : 1 + observed t ts + (N - s.TimerCnt) = observed t ts + N := by omega
          rw [e, Nat.add_div_right _ hNpos]
          omega
        · rw [hdue, if_neg ht, if_neg hone] at hc1 ⊢
          simp only at hc1
          have ih' := ih (by omega) (by omega)
          rw [hp1, hc1] at ih'
          simp only [Bool.false_eq_true, if_false, zero_add, if_neg ht']
          have e : 1 + observed t ts + (N - s.TimerCnt)
              = observed t ts + (N - (s.TimerCnt - 1)) := by
            omega
          rw [e]
          exact ih'
    · have he : s.TimerEnabled = false := by
        cases hb : s.TimerEnabled
        · rfl
        · exact absurd hb hen
      rw [polls_stopped fuel _ s q he h]
      exact Nat.zero_le _

theorem polls_bound (fuel : Nat) (s : Turing) (hcs : 1 ≤ s.ClockSpeed ∧ s.ClockSpeed ≤ 255)
    (hc : s.TimerCnt = 1000 / s.ClockSpeed)
    (ticks : List Nat) (q : Nat × Turing) (hq : polls fuel ticks s = some q) :
    q.1 ≤ observed s.PrevTicks ticks / (1000 / s.ClockSpeed) := by
  have hNpos : 0 < 1000 / s.ClockSpeed := Nat.div_pos (by omega) (by omega)
  have h := polls_le fuel (1000 / s.ClockSpeed) s.ClockSpeed rfl ⟨hcs.1, by omega⟩ ticks s q hq
    rfl (by omega) (by omega)
  rw [hc, Nat.sub_self, Nat.add_zero] at h
  exact h
theorem Program_set_in_front (s : Turing) (p : Int) (c : Char) (hp : p < 0)
    (hf : s.Target.front (-p).toNat = Cell.head) :
    (Program_set s p c).HeadPosition = toInt8 c.toNat := by
  unfold Program_set front_set
  rw [if_pos hp, hf]

theorem isSome_of_map_eq {α β : Type} (o : Option α) (f : α → β) (b : β)
    (hm : o.map f = some b) : o.isSome = true := by
  cases o with
  | none => cases hm
  | some a => rfl

theorem never_returns_of (o : Option Turing) (k : Nat) (hk : 2 ≤ k) (hk2 : k ≤ 128)
    (hm : o.map (skips_bad_test k) = some true) (fuel : Nat) :
    o.bind (StepTuring fuel) = none := by
  cases o with
  | none => rfl
  | some t =>
    have ht : skips_bad_test k t = true := by
      simpa using hm
    obtain ⟨hw, h0, hl, hc, h1, h2, h3, hq, hx⟩ := of_decide_eq_true ht
    rw [Option.some_bind]
    exact StepTuring_never fuel k t hk hk2 hw h0 hl hc h1 h2 h3 hq hx

theorem values_set_never_host :
    (values_set host_target).isSome = true ∧
    ∀ fuel : Nat, (values_set host_target).bind (StepTuring fuel) = none := by
  have hm : (values_set host_target).map (skips_bad_test 10) = some true := by decide!
  exact ⟨isSome_of_map_eq _ _ _ hm,
    never_returns_of (values_set host_target) 10 (by decide) (by decide) hm⟩

theorem values_set_never_declared :
    (values_set declared_target).isSome = true ∧
    ∀ fuel : Nat, (values_set declared_target).bind (StepTuring fuel) = none := by
  have hm : (values_set declared_target).map (skips_bad_test 10) = some true := by decide!
  exact ⟨isSome_of_map_eq _ _ _ hm,
    never_returns_of (values_set declared_target) 10 (by decide) (by decide) hm⟩

/-- The head position stays in [-1, 27] under `ResetTuring`, `do_movement`, `StepTuring` and
every command of `ProcessCommand` but a LOAD at a negative cursor. -/
theorem head_kept_in_range (s : Turing)
    (hs : -1 ≤ s.HeadPosition ∧ s.HeadPosition ≤ NUM_SQUARES) :
    (-1 ≤ (ResetTuring s).HeadPosition ∧ (ResetTuring s).HeadPosition ≤ NUM_SQUARES) ∧
    (∀ fuel t, do_movement fuel s = some t →
      -1 ≤ t.HeadPosition ∧ t.HeadPosition ≤ NUM_SQUARES) ∧
    (∀ fuel r, StepTuring fuel s = some r →
      -1 ≤ r.2.HeadPosition ∧ r.2.HeadPosition ≤ NUM_SQUARES) ∧
    (∀ fuel buffer cnt t, ProcessCommand fuel buffer cnt s = some t →
      ((buffer 0).toNat = 2 → 0 ≤ s.ProgramPosition) →
      -1 ≤ t.HeadPosition ∧ t.HeadPosition ≤ NUM_SQUARES) :=
  ⟨⟨by show (-1 : Int) ≤ 0; decide, by show (0 : Int) ≤ NUM_SQUARES; decide⟩,
    fun fuel t h => (do_movement_exec fuel s t h).head hs,
    fun fuel r h => (StepTuring_exec fuel s r h).head hs,
    fun fuel buffer cnt t h hp => ProcessCommand_head fuel buffer cnt s t h hs hp⟩

/-! ## the claims -/

/-- C1: on the text of an operand chain `a0 op1 a1 ... opn an` (operands: colour letters,
bound variables, literals in [-128, 127]; any whitespace between the members; every partial
result of the fold in the signed 16-bit range) `get_expression` returns the signed 8-bit
truncation of the strict left fold `(((a0 op1 a1) op2 a2) ... opn an)` and leaves the cursor
behind the chain (and the whitespace and comments after it).  The chain is the whole chain:
its last operand ends where the text `r` starts and no operator follows. -/
theorem get_expression_chain (s : Turing) (g0 : List Char) (a0 : Operand)
    (chain : List Link) (r : List Char) (fuel : Nat)
    (h : AtText s (g0 ++ (a0.text ++ (chain_text chain ++ r))))
    (hg0 : ∀ c ∈ g0, is_space c = true)
    (h0 : (a0.value s).isSome = true)
    (hbef : ∀ l ∈ chain, ∀ c ∈ l.before, is_space c = true)
    (hbet : ∀ l ∈ chain, ∀ c ∈ l.between, is_space c = true)
    (hop : ∀ l ∈ chain, is_operator l.op = true)
    (hval : ∀ l ∈ chain, (l.operand.value s).isSome = true)
    (hrange : ∀ k, 0 < k → k ≤ chain.length →
      -32768 ≤ chain_fold s (a0.eval s) (chain.take k) ∧
        chain_fold s (a0.eval s) (chain.take k) ≤ 32767)
    (hlast : (last_operand a0 chain).ends_before r)
    (hstop : is_operator (first_char (skip_text false r)) = false)
    (hf : (g0 ++ (a0.text ++ (chain_text chain ++ r))).length + 2 < fuel) :
    get_expression fuel s
      = some (toInt8 (chain_fold s (a0.eval s) chain), at_rest s (skip_text false r)) :=
  get_expression_of_chain s g0 a0 chain r fuel h hg0 h0 hbef hbet hop hval hrange hlast hstop hf

theorem get_expression_chain_witness :
    (get_expression 8 (engine_with "2+3*4".toList)).map (fun r => (r.1, r.2.ProgramPosition))
      = some (20, 5) ∧
    (get_expression 16 (engine_with " 2 + 3*4 R".toList)).map
      (fun r => (r.1, r.2.ProgramPosition)) = some (20, 9) := by
  have h := get_expression_chain (engine_with "2+3*4".toList) [] (Operand.num false ['2'])
    [⟨[], '+', [], Operand.num false ['3']⟩, ⟨[], '*', [], Operand.num false ['4']⟩] [] 8
    ⟨by decide, by decide, by decide, by decide⟩ (by decide) (by decide) (by decide)
    (by decide) (by decide) (by decide)
    (by
      intro k hk1 hk2
      have hk3 : k = 1 ∨ k = 2 := by
        simp only [List.length_cons, List.length_nil] at hk2
        omega
      rcases hk3 with rfl | rfl <;> decide)
    (by decide) (by decide) (by decide)
  have h2 := get_expression_chain (engine_with " 2 + 3*4 R".toList) [' ']
    (Operand.num false ['2'])
    [⟨[' '], '+', [' '], Operand.num false ['3']⟩, ⟨[], '*', [], Operand.num false ['4']⟩]
    [' ', 'R'] 16
    ⟨by decide, by decide, by decide, by decide⟩ (by decide) (by decide) (by decide)
    (by decide) (by decide) (by decide)
    (by
      intro k hk1 hk2
      have hk3 : k = 1 ∨ k = 2 := by
        simp only [List.length_cons, List.length_nil] at hk2
        omega
      rcases hk3 with rfl | rfl <;> decide)
    (by decide) (by decide) (by decide)
  rw [h, h2]
  constructor <;> decide

/-- C2: whenever `get_expression` succeeds (returns a value other than `ERROR`) the value
lies in [-128, 127]; when the expression starts with a parenthesis, the value of the
parenthesised sub-expression is itself such a result of `get_expression`, in [-128, 127],
and it is this truncated value that the loop combines with the operands after the closing
parenthesis; `(100+100)` gives -56, `(100+100)/2` gives -28 and `100+100/2` gives 100. -/
theorem get_expression_truncates (fuel : Nat) (s : Turing) (v : Int) (s2 : Turing)
    (h : get_expression (fuel + 1) s = some (v, s2)) (hv : v ≠ ERROR) :
    (-128 ≤ v ∧ v ≤ 127) ∧
    (∀ s1, skip_space fuel s = some s1 → current s1 = '(' →
      ∃ w s3, get_expression fuel (step s1) = some (w, s3) ∧ (-128 ≤ w ∧ w ≤ 127) ∧
        current s3 = ')' ∧ get_expression_loop fuel w (step s3) = some (v, s2)) ∧
    (get_expression 12 (engine_with "(100+100)".toList)).map Prod.fst = some (-56) ∧
    (get_expression 12 (engine_with "(100+100)/2".toList)).map Prod.fst = some (-28) ∧
    (get_expression 12 (engine_with "100+100/2".toList)).map Prod.fst = some 100 := by
  refine ⟨?_, ?_, by decide, by decide, by decide⟩
  · rcases get_expression_range _ _ _ _ h with h1 | h1
    · exact absurd h1 hv
    · exact h1
  · intro s1 hsk hp
    exact get_expression_paren fuel s s1 v s2 h hv hsk hp

theorem get_expression_truncates_witness :
    (-128 ≤ (-28 : Int) ∧ (-28 : Int) ≤ 127) ∧
    ∃ w s3, get_expression 11 (step (engine_with "(100+100)/2".toList)) = some (w, s3) ∧
      (-128 ≤ w ∧ w ≤ 127) ∧ current s3 = ')' ∧
      get_expression_loop 11 w (step s3)
        = some (-28, { engine_with "(100+100)/2".toList with ProgramPosition := 11 }) := by
  have h := get_expression_truncates 11 (engine_with "(100+100)/2".toList) (-28)
    { engine_with "(100+100)/2".toList with ProgramPosition := 11 } (by rfl) (by decide)
  exact ⟨h.1, h.2.1 (engine_with "(100+100)/2".toList) (by rfl) (by rfl)⟩

/-- C3: with one of the eight symbol letters `c` at the cursor and the head in [-1, 27],
`get_operand` returns 1 if the head is on the tape (0..26) and its square holds `c`, or the
head is off the tape (-1 or 27) and `c` is `K`, and 0 otherwise; the state it leaves is the
state it found with the cursor advanced by one, so tape, head and variables are unchanged. -/
theorem get_operand_symbol_test (fuel : Nat) (s : Turing) (c : Char)
    (hc : current s = c) (hs : is_symbol c = true)
    (hh : -1 ≤ s.HeadPosition ∧ s.HeadPosition ≤ 27) :
    get_operand (fuel + 1) s
      = some (if (0 ≤ s.HeadPosition ∧ s.HeadPosition ≤ 26 ∧ s.Symbols s.HeadPosition.toNat = c)
                ∨ ((s.HeadPosition = -1 ∨ s.HeadPosition = 27) ∧ c = 'K') then 1 else 0,
              { s with ProgramPosition := s.ProgramPosition + 1 }) := by
  subst hc
  have hsk := skip_space_of_not_blank fuel s (is_symbol_not_blank hs)
  have hst := step_of_current_ne (is_symbol_ne_NUL hs)
  simp only [get_operand, hsk, Option.some_bind, hs, if_true, hst]
  by_cases hoff : s.HeadPosition < 0 ∨ s.HeadPosition ≥ (NUM_SQUARES : Int)
  · have h1 : s.HeadPosition = -1 ∨ s.HeadPosition = 27 := by
      unfold NUM_SQUARES at hoff; omega
    have h2 : ¬ (0 ≤ s.HeadPosition ∧ s.HeadPosition ≤ 26 ∧
        s.Symbols s.HeadPosition.toNat = current s) := by
      intro h3; omega
    simp only [hoff, if_true, h1, h2, true_and, false_or]
  · have h1 : ¬ (s.HeadPosition = -1 ∨ s.HeadPosition = 27) := by
      unfold NUM_SQUARES at hoff; omega
    have h2 : 0 ≤ s.HeadPosition ∧ s.HeadPosition ≤ 26 := by
      unfold NUM_SQUARES at hoff; omega
    simp only [hoff, if_false, h1, h2, true_and, false_and, or_false]

theorem get_operand_symbol_test_witness :
    get_operand 1 { engine_with "KR".toList with HeadPosition := 27 }
      = some (1, { engine_with "KR".toList with HeadPosition := 27, ProgramPosition := 1 }) := by
  have h := get_operand_symbol_test 0 { engine_with "KR".toList with HeadPosition := 27 } 'K'
    (by rfl) (by decide) (by decide)
  simpa using h

/-- C4: with one of the eight symbol letters `c` at the cursor and the head `p` in
[-1, 27], `do_set` leaves the whole tape unchanged when `p` is -1 or 27; when
0 <= p <= 26 it sets square `p` to `c` and leaves every other square unchanged; in both
cases head, variable names and values and wait counter are unchanged and the cursor has
advanced by exactly one. -/
theorem do_set_frame (s : Turing) (c : Char)
    (hc : current s = c) (hs : is_symbol c = true)
    (hh : -1 ≤ s.HeadPosition ∧ s.HeadPosition ≤ 27) :
    ((s.HeadPosition = -1 ∨ s.HeadPosition = 27) → (do_set s).Symbols = s.Symbols) ∧
    ((0 ≤ s.HeadPosition ∧ s.HeadPosition ≤ 26) →
      (do_set s).Symbols s.HeadPosition.toNat = c ∧
      ∀ i, i ≠ s.HeadPosition.toNat → (do_set s).Symbols i = s.Symbols i) ∧
    (do_set s).HeadPosition = s.HeadPosition ∧
    (do_set s).VariableNames = s.VariableNames ∧
    (do_set s).VariableValues = s.VariableValues ∧
    (do_set s).WaitPeriods = s.WaitPeriods ∧
    (do_set s).ProgramPosition = s.ProgramPosition + 1 := by
  subst hc
  have hst := step_of_current_ne (is_symbol_ne_NUL hs)
  unfold do_set
  simp only [hst]
  by_cases hoff : s.HeadPosition < 0 ∨ s.HeadPosition ≥ (NUM_SQUARES : Int)
  · have h2 : ¬ (0 ≤ s.HeadPosition ∧ s.HeadPosition ≤ 26) := by
      unfold NUM_SQUARES at hoff; omega
    simp [hoff, h2]
  · have h1 : ¬ (s.HeadPosition = -1 ∨ s.HeadPosition = 27) := by
      unfold NUM_SQUARES at hoff; omega
    simp only [hoff, if_false, h1, false_implies, Function.update_same, true_and, and_true]
    intro _ i hi
    exact Function.update_noteq hi _ _

theorem do_set_frame_witness :
    (do_set { engine_with "R".toList with HeadPosition := 3 }).Symbols 3 = 'R' ∧
    (do_set { engine_with "R".toList with HeadPosition := 3 }).Symbols 4 = 'K' ∧
    (do_set { engine_with "R".toList with HeadPosition := 27 }).Symbols
      = (engine_with "R".toList).Symbols := by
  have h := do_set_frame { engine_with "R".toList with HeadPosition := 3 } 'R'
    (by rfl) (by decide) (by decide)
  have h2 := do_set_frame { engine_with "R".toList with HeadPosition := 27 } 'R'
    (by rfl) (by decide) (by decide)
  exact ⟨(h.2.1 (by decide)).1, (h.2.1 (by decide)).2 4 (by decide), h2.1 (by decide)⟩

/-- C5 (evaluation at the failing input): with the head at 1, `>127` leaves the head at
-1, where the clamped sum over the integers is 27: the sum 1 + 127 is stored in the
`int8_t HeadPosition` before it is clamped and wraps to -128.  In the same way `<-128` from
head 27 ends at -1 and `>-128` from head -1 ends at 27. -/
theorem do_movement_wraps :
    (do_movement 8 { engine_with ">127".toList with HeadPosition := 1 }).map
        (fun r => r.HeadPosition) = some (-1) ∧
    max (-1) (min 27 ((1 : Int) + 127)) = 27 ∧
    (do_movement 8 { engine_with "<-128".toList with HeadPosition := 27 }).map
        (fun r => r.HeadPosition) = some (-1) ∧
    max (-1) (min 27 ((27 : Int) - (-128))) = 27 ∧
    (do_movement 8 { engine_with ">-128".toList with HeadPosition := -1 }).map
        (fun r => r.HeadPosition) = some 27 ∧
    max (-1) (min 27 ((-1 : Int) + (-128))) = -1 := by
  refine ⟨by decide, by decide, by decide, by decide, by decide, by decide⟩

/-- C6 (evaluation at the failing input): on a reset engine with the program
`?0 $y=$y+1 R` the test of `?0` is false and `do_conditional` skips `$y=$y+1`; the skip
evaluates `$y`, which is not bound, so five flashes (`ERR_VARIABLE_NOT_FOUND`) are signalled
and the cursor ends at 12, the end of the program, not at 11 in front of `R`.  Executed by
`do_instruction`, the same instruction `$y=$y+1` signals nothing, binds `y` to 1 and leaves
the cursor at 8 in front of `R`. -/
theorem do_conditional_skip_fails :
    (do_conditional 16 (StartTuring (engine_with "?0 $y=$y+1 R".toList))).map
        (fun r => (r.ProgramPosition, r.Flashes, r.TimerEnabled)) = some (12, 5, false) ∧
    (do_instruction 16 (engine_with "$y=$y+1 R".toList)).map
        (fun r => (r.ProgramPosition, r.Flashes, r.VariableNames 0, r.VariableValues 0))
      = some (8, 0, ['y'], 1) := by
  refine ⟨by decide, by decide⟩


/-- C8 (evaluation at the failing input): the program is `^x` followed by 126 spaces, 128
bytes without a label.  `do_branch` signals `ERR_LABEL_NOT_FOUND` (6 flashes) and stops the
timer, but `error` stores `(int8_t) ProgramLength` in the cursor: the cursor is -128, not
the program length 128, and the test `ProgramPosition >= ProgramLength` by which
`StepTuring` recognises the end of the program is false. -/
theorem do_branch_error_cursor :
    (do_branch 200 (StartTuring (engine_with ('^' :: 'x' :: List.replicate 126 ' ')))).map
        (fun r => (r.ProgramPosition, r.ProgramLength, r.Flashes, r.TimerEnabled,
          decide (r.ProgramPosition ≥ r.ProgramLength)))
      = some (-128, 128, 6, false, false) := by
  decide!

/-- C7 (amended): the program text is `P` (so `ProgramLength` is its length) and the cursor
is at `^target`; index `i` of `P` holds a `#` outside comments whose name, the name
characters that follow it after optional whitespace and comments cut to `NAME_LEN`, equals
the target cut to `NAME_LEN`, and no `#` outside comments in front of index `i` has such a
name.  Then `do_branch` returns the state it was given with the cursor just behind the name
of the marker at `i`: no error, and tape, head, variables, wait counter unchanged. -/
theorem do_branch_first_label (s : Turing) (P target tail : List Char) (i fuel : Nat)
    (hP : AtText { s with ProgramPosition := 0 } P)
    (hcur : AtText s ('^' :: (target ++ tail)))
    (hne : target ≠ []) (htarget : ∀ c ∈ target, is_name c = true)
    (htail : is_name (first_char tail) = false)
    (hi : P[i]? = some '#') (hout : comment_state false (P.take i) = false)
    (hname : name_text (P.drop (i + 1)) = target.take NAME_LEN)
    (hfirst : ∀ j, j < i → P[j]? = some '#' → comment_state false (P.take j) = false →
      name_text (P.drop (j + 1)) ≠ target.take NAME_LEN)
    (hf : P.length + 2 < fuel) :
    do_branch fuel s = some (at_rest s (name_rest (P.drop (i + 1)))) := by
  have hlen1 := hP.length_eq
  have hlen2 := hcur.length_eq
  have hpos := hcur.nonneg
  simp only [zero_add] at hlen1
  simp only [List.length_cons, List.length_append, Nat.cast_add, Nat.cast_one] at hlen2
  obtain ⟨c, cs, rfl⟩ := List.exists_cons_of_ne_nil hne
  have hc : is_name c = true := htarget c (by simp)
  have hsk : skip_text false (c :: cs ++ tail) = c :: cs ++ tail :=
    skip_text_of_not_blank (by simpa [first_char] using is_name_not_blank hc)
  obtain ⟨htw, hdw⟩ := takeWhile_append_stop is_name (c :: cs) tail htarget (Or.inr htail)
  have hgn := get_name_eq fuel _ _ hcur.tail (by
    simp only [List.length_append, List.length_cons] at hlen2 ⊢
    omega)
  simp only [name_text, name_rest, hsk, htw, hdw, at_rest_at_rest] at hgn
  have hsplit := split_at_index hi
  generalize hdd : P.take i = d at hsplit hout
  generalize hmm : P.drop (i + 1) = more at hsplit hname ⊢
  have hzero : ({ at_rest s tail with ProgramPosition := 0 } : Turing)
      = at_rest s (d ++ '#' :: more) := by
    rw [← hsplit]
    simp only [at_rest]
    congr
    omega
  have hP2 : AtText (at_rest s (d ++ '#' :: more)) (d ++ '#' :: more) := by
    rw [← hzero, ← hsplit]
    exact hP
  have hloop := do_branch_loop_found s (List.take NAME_LEN (c :: cs)) more hname
    fuel d hout hP2
    (by
      intro d1 d2 hd hcd
      have hP3 : P = d1 ++ '#' :: (d2 ++ '#' :: more) := by
        rw [hsplit, hd]; simp
      obtain ⟨k1, k2, k3⟩ := @index_of_split d1 (d2 ++ '#' :: more) '#'
      have hlt : d1.length < i := by
        have := congrArg List.length hdd
        rw [hd] at this
        simp only [List.length_take, List.length_append, List.length_cons] at this
        omega
      have := hfirst d1.length hlt (by rw [hP3]; exact k1) (by rw [hP3, k2]; exact hcd)
      rw [hP3, k3] at this
      exact this)
    (by rw [← hsplit]; omega)
  simp only [do_branch, hcur.step_cons, hgn, Option.some_bind, hzero, hloop]

/-- C9 (amended): the cursor is at `$x++` or `$x--` with a non-empty name `x`.  If `x` (its
first `NAME_LEN` characters) is bound to slot `i` with value `v` in [-128, 127], then
`do_assignment` leaves `min (v + 1) 127` for `++` and `max (v - 1) (-128)` for `--` in slot
`i`.  If `x` is not bound and `j` is the first free slot, the slot `j` gets the name and the
value 1 for `++` and -1 for `--`.  In both cases the state is otherwise the one before with
the cursor behind the instruction: no other name or value changes.  (With no free slot the
variable is not created.) -/
theorem do_assignment_saturates (fuel : Nat) (s : Turing) (name r : List Char) (op : Char)
    (hop : op = '+' ∨ op = '-')
    (h : AtText s ('$' :: (name ++ op :: op :: r)))
    (hne : name ≠ []) (hall : ∀ c ∈ name, is_name c = true)
    (hf : ('$' :: (name ++ op :: op :: r)).length + 4 < fuel) :
    (∀ i, bound_slot s (name.take NAME_LEN) = some i →
      -128 ≤ s.VariableValues i ∧ s.VariableValues i ≤ 127 →
      do_assignment fuel s
        = some { at_rest s r with
            VariableValues := Function.update s.VariableValues i
              (if op = '+' then min (s.VariableValues i + 1) 127
               else max (s.VariableValues i - 1) (-128)) }) ∧
    (∀ j, bound_slot s (name.take NAME_LEN) = none → free_slot s = some j →
      do_assignment fuel s
        = some { at_rest s r with
            VariableNames := Function.update s.VariableNames j (name.take NAME_LEN)
            VariableValues := Function.update s.VariableValues j (if op = '+' then 1 else -1) }) := by
  rcases hop with rfl | rfl
  · have h2 : AtText s (assign_text name Assign.inc ++ r) := by
      simpa [assign_text, Assign.text] using h
    have hf2 : (assign_text name Assign.inc ++ r).length + 4 < fuel := by
      simpa [assign_text, Assign.text] using hf
    constructor
    · intro i hb hr
      have := do_assignment_bound fuel s name Assign.inc r i h2 hne hall trivial trivial hb hr hf2
      simpa [Assign.rest, Assign.result] using this
    · intro j hb hfree
      have := do_assignment_fresh fuel s name Assign.inc r j h2 hne hall trivial trivial hb hfree hf2
      simpa [Assign.rest, Assign.result] using this
  · have h2 : AtText s (assign_text name Assign.dec ++ r) := by
      simpa [assign_text, Assign.text] using h
    have hf2 : (assign_text name Assign.dec ++ r).length + 4 < fuel := by
      simpa [assign_text, Assign.text] using hf
    have hne2 : ('-' : Char) ≠ '+' := by decide
    constructor
    · intro i hb hr
      have := do_assignment_bound fuel s name Assign.dec r i h2 hne hall trivial trivial hb hr hf2
      simpa [Assign.rest, Assign.result, hne2] using this
    · intro j hb hfree
      have := do_assignment_fresh fuel s name Assign.dec r j h2 hne hall trivial trivial hb hfree hf2
      simpa [Assign.rest, Assign.result, hne2] using this

theorem do_assignment_saturates_witness :
    (do_assignment 10 { engine_with "$x++".toList with
        VariableNames := Function.update (fun _ => []) 3 ['x']
        VariableValues := Function.update (fun _ => 0) 3 127 }).map
      (fun r => (r.VariableValues 3, r.ProgramPosition)) = some (127, 4) ∧
    (do_assignment 10 (engine_with "$x--".toList)).map
      (fun r => (r.VariableNames 0, r.VariableValues 0)) = some (['x'], -1) := by
  have h1 := (do_assignment_saturates 10 { engine_with "$x++".toList with
        VariableNames := Function.update (fun _ => []) 3 ['x']
        VariableValues := Function.update (fun _ => 0) 3 127 } ['x'] [] '+' (Or.inl rfl)
    ⟨by decide, by decide, by decide, by decide⟩ (by decide) (by decide) (by decide)).1 3
    (by decide) (by decide)
  have h2 := (do_assignment_saturates 10 (engine_with "$x--".toList) ['x'] [] '-' (Or.inr rfl)
    ⟨by decide, by decide, by decide, by decide⟩ (by decide) (by decide) (by decide)).2 0
    (by decide) (by decide)
  rw [h1, h2]
  constructor <;> decide

/-- C9 (counterexample): the program makes eleven increments of eleven variables.  After
ten step attempts the ten slots hold `a` to `j` and nothing was signalled; the eleventh,
`$k++` with `k` unbound, signals `ERR_TOO_MANY_VARIABLES` (4 flashes) and leaves `k`
unbound: the unbound variable is not created with value 0 and stepped to 1. -/
theorem do_assignment_full_table :
    (steps 60 10 (engine_with "$a++$b++$c++$d++$e++$f++$g++$h++$i++$j++$k++".toList)).map
        (fun r => (r.Flashes, (List.range 10).map r.VariableNames))
      = some (0, [['a'], ['b'], ['c'], ['d'], ['e'], ['f'], ['g'], ['h'], ['i'], ['j']]) ∧
    (steps 60 11 (engine_with "$a++$b++$c++$d++$e++$f++$g++$h++$i++$j++$k++".toList)).map
        (fun r => (r.Flashes, bound_slot r ['k'], (List.range 10).map r.VariableNames))
      = some (4, none, [['a'], ['b'], ['c'], ['d'], ['e'], ['f'], ['g'], ['h'], ['i'], ['j']]) := by
  constructor <;> decide!
/-- C10 (amended): the program starts with ten assignments (`++`, `--` or `=literal`) to
non-empty names and an eleventh one, the eleven names pairwise different within their
first `NAME_LEN` characters.  From the engine after RUN (reset and started) ten step
attempts signal nothing, leave the timer enabled and bind the ten names to the slots 0 to
9; the eleventh step attempt signals `ERR_TOO_MANY_VARIABLES` (4 flashes), disables the
timer and leaves all names and values as they were; in any state with this full table an
assignment to one of the ten names is executed on its slot, without an error. -/
theorem variable_table_capacity (s0 : Turing) (instrs : List (List Char × Assign))
    (name : List Char) (a : Assign) (r : List Char) (fuel : Nat)
    (hP : AtText { s0 with ProgramPosition := 0 } (program_text instrs ++ (assign_text name a ++ r)))
    (hlen : instrs.length = MAX_VARIABLES)
    (hvalid : ∀ p ∈ instrs, p.1 ≠ [] ∧ (∀ c ∈ p.1, is_name c = true) ∧ p.2.valid)
    (hname : name ≠ [] ∧ ∀ c ∈ name, is_name c = true)
    (hnodup : (instrs.map (fun p => p.1.take NAME_LEN) ++ [name.take NAME_LEN]).Nodup)
    (hf : (program_text instrs ++ (assign_text name a ++ r)).length + 5 < fuel) :
    ∃ s10 s11 b,
      steps fuel MAX_VARIABLES (StartTuring (ResetTuring s0)) = some s10 ∧
      s10.Flashes = s0.Flashes ∧ s10.TimerEnabled = true ∧
      (∀ i (hi : i < instrs.length),
        s10.VariableNames i = (instrs.get ⟨i, hi⟩).1.take NAME_LEN ∧
        s10.VariableValues i = (instrs.get ⟨i, hi⟩).2.result 0) ∧
      StepTuring fuel s10 = some (b, s11) ∧
      s11.Flashes = s0.Flashes + ERR_TOO_MANY_VARIABLES ∧ s11.TimerEnabled = false ∧
      s11.VariableNames = s10.VariableNames ∧ s11.VariableValues = s10.VariableValues ∧
      (∀ (t : Turing) (i : Nat) (hi : i < instrs.length) (a2 : Assign) (r2 : List Char)
        (fuel2 : Nat),
        t.VariableNames = s10.VariableNames →
        (-128 ≤ t.VariableValues i ∧ t.VariableValues i ≤ 127) →
        AtText t (assign_text (instrs.get ⟨i, hi⟩).1 a2 ++ r2) →
        a2.valid → a2.ends_before r2 →
        (assign_text (instrs.get ⟨i, hi⟩).1 a2 ++ r2).length + 4 < fuel2 →
        do_assignment fuel2 t
          = some { at_rest t (a2.rest r2) with
              VariableValues :=
                Function.update t.VariableValues i (a2.result (t.VariableValues i)) }) :=
  variable_table_full s0 instrs name a r fuel hP hlen hvalid hname hnodup hf

theorem variable_table_capacity_witness :
    ∃ s10 s11 b,
      steps 60 10 (StartTuring (ResetTuring
        (engine_with "$a++$b++$c++$d++$e++$f=5$g++$h--$i++$j++$k++".toList))) = some s10 ∧
      s10.Flashes = 0 ∧ s10.TimerEnabled = true ∧
      s10.VariableNames 5 = ['f'] ∧ s10.VariableValues 5 = 5 ∧
      StepTuring 60 s10 = some (b, s11) ∧ s11.Flashes = 4 ∧ s11.TimerEnabled = false ∧
      s11.VariableNames = s10.VariableNames ∧ s11.VariableValues = s10.VariableValues := by
  obtain ⟨s10, s11, b, h1, h2, h3, h4, h5, h6, h7, h8, h9, -⟩ :=
    variable_table_capacity (engine_with "$a++$b++$c++$d++$e++$f=5$g++$h--$i++$j++$k++".toList)
      [(['a'], Assign.inc), (['b'], Assign.inc), (['c'], Assign.inc), (['d'], Assign.inc),
       (['e'], Assign.inc), (['f'], Assign.set false ['5']), (['g'], Assign.inc),
       (['h'], Assign.dec), (['i'], Assign.inc), (['j'], Assign.inc)]
      ['k'] Assign.inc [] 60
      ⟨by decide, by decide, by decide, by decide⟩ (by decide) (by decide) (by decide)
      (by decide) (by decide)
  exact ⟨s10, s11, b, h1, h2, h3, (h4 5 (by decide)).1, (h4 5 (by decide)).2, h5, h6, h7, h8, h9⟩

/-- C10 (counterexample): the eleven names of this program are pairwise distinct, but
`abcdefghijk` and `abcdefghijl` agree in their first ten characters.  The second
assignment creates no binding (it steps the variable of the first), and after eleven step
attempts nothing has been signalled: the assignment to the eleventh distinct name succeeds
and takes slot 9. -/
theorem long_names_share_a_slot :
    ["abcdefghijk".toList, "abcdefghijl".toList, ['c'], ['d'], ['e'], ['f'], ['g'], ['h'], ['i'],
      ['j'], ['k']].Nodup ∧
    (steps 80 2 (StartTuring (engine_with
        "$abcdefghijk++$abcdefghijl++$c++$d++$e++$f++$g++$h++$i++$j++$k++".toList))).map
        (fun r => (r.VariableNames 0, r.VariableValues 0, r.VariableNames 1))
      = some ("abcdefghij".toList, 2, []) ∧
    (steps 80 11 (StartTuring (engine_with
        "$abcdefghijk++$abcdefghijl++$c++$d++$e++$f++$g++$h++$i++$j++$k++".toList))).map
        (fun r => (r.Flashes, r.TimerEnabled, r.VariableNames 9, r.VariableValues 9))
      = some (0, true, ['k'], 1) := by
  refine ⟨by decide, by decide!, by decide!⟩

theorem do_branch_first_label_witness :
    (do_branch 20 { engine_with "#b ;#a\n#a R ^a".toList with ProgramPosition := 12 }).map
      (fun r => (r.ProgramPosition, r.Flashes)) = some (9, 0) := by
  have h := do_branch_first_label
    { engine_with "#b ;#a\n#a R ^a".toList with ProgramPosition := 12 }
    "#b ;#a\n#a R ^a".toList ['a'] [] 7 20
    ⟨by decide, by decide, by decide, by decide⟩ ⟨by decide, by decide, by decide, by decide⟩
    (by decide) (by decide) (by decide) (by decide) (by decide) (by decide) (by decide) (by decide)
  rw [h]
  decide

/-- C7 (counterexample): in the program `^a # a G #a R` the first `#` that is directly
followed by the name `a` is at index 9, so the cursor immediately after that marker's name
is 11.  `do_branch` leaves the cursor at 6: `get_name` skips whitespace in front of a
name, so the `#` at index 3, followed by a space and `a`, is taken for the label.  The next
step attempt then executes `G`, which the marker `#a` does not precede. -/
theorem do_branch_spaced_marker :
    ("^a # a G #a R".toList[9]? = some '#' ∧
      ("^a # a G #a R".toList.drop 10).takeWhile is_name = ['a'] ∧
      ∀ j, j < 9 → "^a # a G #a R".toList[j]? = some '#' →
        ("^a # a G #a R".toList.drop (j + 1)).takeWhile is_name ≠ ['a']) ∧
    (do_branch 20 (engine_with "^a # a G #a R".toList)).map
      (fun r => (r.ProgramPosition, r.Flashes)) = some (6, 0) ∧
    (steps 20 2 (engine_with "^a # a G #a R".toList)).map
      (fun r => (r.ProgramPosition, r.Symbols 0)) = some (8, 'G') := by
  refine ⟨⟨by decide, by decide, by decide⟩, by decide, by decide⟩

/-- C11: when a step attempt, having stepped over whitespace and labels, executes a wait
whose expression has the value 0 (`%0`), it leaves the wait counter at -1; and in every
state `u` with a negative wait counter each call of `StepTuring`, alone, repeated, from the
STEP command or from any sequence of `TuringExec` polls, returns false and leaves cursor,
tape, head, variables and wait counter as they are (STEP changes the timer flag only, the
polls the tick copy and the countdown only), while `ResetTuring`, which RESET and RUN
call, sets the counter back to 0. -/
theorem wait_zero_halts (fuel : Nat) (s s1 s2 : Turing)
    (hw : s.WaitPeriods = 0) (hp : s.Program 0 ≠ NUL)
    (hlt : s.ProgramPosition < s.ProgramLength) (hl : skip_labels fuel s = some s1)
    (hc : current s1 = '%') (hv : wait_value fuel s1 = some (0, s2)) :
    StepTuring fuel s = some (true, { s2 with WaitPeriods := -1 }) ∧
    ∀ u : Turing, u.WaitPeriods < 0 →
      (∀ f, StepTuring f u = some (false, u)) ∧
      (∀ f k, attempts f k u = some (List.replicate k false, u)) ∧
      (∀ f buffer cnt, (buffer 0).toNat = 4 →
        ProcessCommand f buffer cnt u = some (StopTuring u)) ∧
      (∀ f ticks, ∃ n p c, polls f ticks u = some (n, { u with PrevTicks := p, TimerCnt := c })) ∧
      (ResetTuring u).WaitPeriods = 0 ∧
      (∀ f buffer cnt, (buffer 0).toNat = 1 →
        (ProcessCommand f buffer cnt u).map (fun t => t.WaitPeriods) = some 0) ∧
      (∀ f buffer cnt, (buffer 0).toNat = 3 →
        (ProcessCommand f buffer cnt u).map (fun t => t.WaitPeriods) = some 0) :=
  ⟨StepTuring_wait_zero fuel s s1 s2 hw hp hlt hl hc hv, fun u hu =>
    ⟨fun f => StepTuring_halted f u hu, fun f k => attempts_halted f u hu k,
      fun f buffer cnt hb => ProcessCommand_step_halted f buffer cnt u hb hu,
      fun f ticks => polls_halted f ticks u hu, rfl,
      fun f buffer cnt hb => by rw [ProcessCommand_reset f buffer cnt u hb]; rfl,
      fun f buffer cnt hb => by rw [ProcessCommand_run f buffer cnt u hb]; rfl⟩⟩

theorem wait_zero_halts_witness :
    StepTuring 8 (engine_with "#a %0R".toList)
      = some (true, { engine_with "#a %0R".toList with ProgramPosition := 5, WaitPeriods := -1 }) ∧
    attempts 8 5 { engine_with "#a %0R".toList with ProgramPosition := 5, WaitPeriods := -1 }
      = some ([false, false, false, false, false],
          { engine_with "#a %0R".toList with ProgramPosition := 5, WaitPeriods := -1 }) := by
  have h := wait_zero_halts 8 (engine_with "#a %0R".toList)
    { engine_with "#a %0R".toList with ProgramPosition := 3 }
    { engine_with "#a %0R".toList with ProgramPosition := 5, WaitPeriods := 1 }
    (by rfl) (by decide) (by decide) (by rfl) (by decide) (by rfl)
  exact ⟨h.1, (h.2 _ (by decide)).2.1 8 5⟩

/-- C12: let a step attempt from the state `s`, wait counter 0, step over whitespace and
labels to a wait instruction whose value `n` (that of its expression, or 1 for a bare `%`)
lies in 1..127, and let `s2` be the state in which reading the instruction leaves the
engine.  Then for every `k < n` the first `k + 1` step attempts, of which the first
dispatches the wait, all return false and leave the state `s2` with the wait counter
`n - (k + 1)`: each waiting attempt takes one off the counter and changes nothing else.
After the `n` attempts the counter is 0, and the attempt that follows is no waiting
attempt: it dispatches at the cursor that the wait instruction left behind. -/
theorem wait_blocks_attempts (fuel : Nat) (s s1 s2 : Turing) (n : Nat)
    (hw : s.WaitPeriods = 0) (hp : s.Program 0 ≠ NUL)
    (hlt : s.ProgramPosition < s.ProgramLength) (hl : skip_labels fuel s = some s1)
    (hc : current s1 = '%')
    (hv : wait_value fuel s1 = some ((n : Int), s2)) (h1 : 1 ≤ n) (h2 : n ≤ 127) :
    (∀ k, k < n → attempts fuel (k + 1) s
        = some (List.replicate (k + 1) false,
            { s2 with WaitPeriods := (n : Int) - ((k : Int) + 1) })) ∧
    attempts fuel n s = some (List.replicate n false, { s2 with WaitPeriods := 0 }) ∧
    StepTuring fuel { s2 with WaitPeriods := 0 } = dispatch fuel { s2 with WaitPeriods := 0 } ∧
    (is_expression (next { s1 with WaitPeriods := 1 }).1 = false →
      wait_value fuel s1 = some (1, (next { s1 with WaitPeriods := 1 }).2)) := by
  refine ⟨fun k hk => wait_attempts fuel s s1 s2 n hw hp hlt hl hc hv h1 h2 k hk, ?_,
    StepTuring_dispatches _ _ rfl, fun h => by simp [wait_value, h]⟩
  obtain ⟨m, rfl⟩ : ∃ m, n = m + 1 := ⟨n - 1, by omega⟩
  rw [wait_attempts fuel s s1 s2 (m + 1) hw hp hlt hl hc hv h1 h2 m (by omega)]
  congr 3
  push_cast
  ring

theorem wait_blocks_attempts_witness :
    attempts 8 2 (engine_with " %2R".toList)
      = some ([false, false],
          { engine_with " %2R".toList with ProgramPosition := 3, WaitPeriods := 0 }) ∧
    (attempts 8 3 (engine_with " %2R".toList)).map (fun q => (q.1, q.2.Symbols 0))
      = some ([false, false, true], 'R') ∧
    (attempts 8 2 (engine_with "%R".toList)).map (fun q => (q.1, q.2.Symbols 0))
      = some ([false, true], 'R') := by
  have h := wait_blocks_attempts 8 (engine_with " %2R".toList)
    { engine_with " %2R".toList with ProgramPosition := 1 }
    { engine_with " %2R".toList with ProgramPosition := 3, WaitPeriods := 1 } 2
    (by rfl) (by decide) (by decide) (by rfl) (by decide) (by rfl) (by decide) (by decide)
  exact ⟨h.2.1, by decide, by decide⟩

/-- C13 (evaluation at the failing input): on a started engine with the program `>(1 R`
the offset of the movement is a parenthesis that is not closed, and `get_expression`
returns `ERROR` for it.  On return from `do_instruction` the timer is still enabled, no flash
has been signalled and the cursor is 4, in front of `R`, not 5, the end of the program:
`get_expression` returns at its test for `)` without a call of `error`.  The next step
attempt executes `R`. -/
theorem unclosed_parenthesis_runs_on :
    (get_expression 8 (step (StartTuring (engine_with ">(1 R".toList)))).map
      (fun e => e.1) = some ERROR ∧
    (do_instruction 8 (StartTuring (engine_with ">(1 R".toList))).map
      (fun t => (t.TimerEnabled, t.Flashes, t.ProgramPosition, t.ProgramLength, t.HeadPosition))
      = some (true, 0, 4, 5, 0) ∧
    (attempts 8 2 (StartTuring (engine_with ">(1 R".toList))).map
      (fun q => (q.1, q.2.TimerEnabled, q.2.Flashes, q.2.ProgramPosition, q.2.Symbols 0))
      = some ([true, true], true, 0, 5, 'R') := by
  refine ⟨by decide, by decide, by decide⟩

/-- C14 (counterexample): with the program `RG` in the buffer and the cursor at 0, where
RESET leaves it, a LOAD with the payload `B` leaves the text `B` with length 1 and the
terminator at index 1, not `RGB` with length 3: the payload goes to the cursor, not behind
the text.  And a LOAD with a count of 128 never returns, whatever the fuel: the loop index
is an `int8_t` and all its values are below the count. -/
theorem load_overwrites_from_cursor :
    (ProcessCommand 300 (command [2, 66]) 2 (engine_with "RG".toList)).map
      (fun t => (t.Program 0, t.Program 1, t.ProgramLength, t.ProgramPosition))
      = some ('B', NUL, 1, 1) ∧
    (∀ fuel, ProcessCommand fuel (command (2 :: List.replicate 127 66)) 128
      (engine_with "RG".toList) = none) :=
  ⟨by decide!, fun fuel => ProcessCommand_load_wraps fuel _ 128 _ (by decide) (le_refl _)⟩

/-- C14 (amended): let the buffer hold the program `P` (no terminator in it, at most 256
bytes) and let the cursor stand at `c`, at most the length of `P`.  A LOAD with a payload of
`k` bytes, `k` at most 126, none of them the terminator, returns when the fuel is more than
256 and leaves in the buffer the first `c` bytes of `P` followed by the payload, cut off at
256 bytes, with the terminator behind them; the length of that text is min (c + k) 256, the
length field has this value when it is below 256, and the cursor stands at the end of the
text.  With the cursor at the end of `P` the text is `P` followed by the payload. -/
theorem load_writes_at_cursor (fuel : Nat) (buffer : Int → Char) (k c : Nat) (P : List Char)
    (s : Turing) (hb : (buffer 0).toNat = 2) (hk : k ≤ 126)
    (hP : ∀ i (h : i < P.length), s.Program i = P[i]) (hnul : ∀ ch ∈ P, ch ≠ NUL)
    (hlen : P.length ≤ 256) (hc : s.ProgramPosition = c) (hcL : c ≤ P.length)
    (hpay : ∀ ch ∈ payload buffer k, ch ≠ NUL) (hf : 256 < fuel) :
    (∃ t, ProcessCommand fuel buffer (k + 1) s = some t ∧
      (List.range (loaded P c (payload buffer k)).length).map t.Program
        = loaded P c (payload buffer k) ∧
      t.Program (loaded P c (payload buffer k)).length = NUL ∧
      (loaded P c (payload buffer k)).length = min (c + k) 256 ∧
      (min (c + k) 256 < 256 → t.ProgramLength = min (c + k) 256) ∧
      t.ProgramPosition = min (c + k) 256) ∧
    (c = P.length → loaded P c (payload buffer k) = (P ++ payload buffer k).take 256) :=
  ⟨ProcessCommand_load_text fuel buffer k c P s hb hk hP hnul hlen hc hcL hpay hf,
    fun h => by rw [h, loaded, List.take_length]; rfl⟩

theorem load_writes_at_cursor_witness :
    loaded "RG".toList 2 (payload (command [2, 66, 87]) 2) = "RGBW".toList ∧
    (ProcessCommand 300 (command [2, 66, 87]) 3
        { engine_with "RG".toList with ProgramPosition := 2 }).map
      (fun t => ((List.range 4).map t.Program, t.Program 4, t.ProgramLength))
      = some ("RGBW".toList, NUL, 4) := by
  have h := load_writes_at_cursor 300 (command [2, 66, 87]) 2 2 "RG".toList
    { engine_with "RG".toList with ProgramPosition := 2 } (by decide) (by decide) (by decide)
    (by decide) (by decide) (by rfl) (by decide) (by decide) (by decide)
  obtain ⟨t, ht, h1, h2, h3, h4, _⟩ := h.1
  have hl : (loaded "RG".toList 2 (payload (command [2, 66, 87]) 2)).length = 4 := by decide
  rw [hl] at h1 h2
  refine ⟨by decide, ?_⟩
  rw [ht]
  show some ((List.range 4).map t.Program, t.Program 4, t.ProgramLength) = _
  rw [h1, h2, h4 (by decide)]
  decide

/-- C15: from every engine state `ResetTuring` leaves head 0, cursor 0, wait counter 0, the
27 tape squares black, the 10 variable slots free (the name empty) and the timer disabled,
with program text, program length and the two settings unchanged; the RUN command leaves
the same state but for the enabled timer, and the countdown of that state is the quotient
1000 / clock speed when the clock speed is not 0. -/
theorem ResetTuring_state (fuel : Nat) (buffer : Int → Char) (cnt : Nat) (s : Turing)
    (hb : (buffer 0).toNat = 3) :
    (ResetTuring s).HeadPosition = 0 ∧ (ResetTuring s).ProgramPosition = 0 ∧
    (ResetTuring s).WaitPeriods = 0 ∧
    (∀ i, i < NUM_SQUARES → (ResetTuring s).Symbols i = 'K') ∧
    (∀ i, i < MAX_VARIABLES → (ResetTuring s).VariableNames i = []) ∧
    (ResetTuring s).TimerEnabled = false ∧
    (ResetTuring s).Program = s.Program ∧ (ResetTuring s).ProgramLength = s.ProgramLength ∧
    (ResetTuring s).ClockSpeed = s.ClockSpeed ∧
    (ResetTuring s).TapeheadHighlighting = s.TapeheadHighlighting ∧
    ProcessCommand fuel buffer cnt s = some { ResetTuring s with TimerEnabled := true } ∧
    (s.ClockSpeed ≠ 0 → (ResetTuring s).TimerCnt = 1000 / s.ClockSpeed) := by
  refine ⟨rfl, rfl, rfl, fun i hi => ?_, fun i hi => ?_, rfl, rfl, rfl, rfl, rfl,
    ProcessCommand_run fuel buffer cnt s hb, fun h => timer_interval_eq s h⟩
  · show (if i < NUM_SQUARES then 'K' else _) = 'K'
    rw [if_pos hi]
  · show (if i < MAX_VARIABLES then [] else _) = []
    rw [if_pos hi]

theorem ResetTuring_state_witness :
    (ProcessCommand 0 (fun _ => Char.ofNat 3) 1
        { engine_with "R".toList with HeadPosition := 5, ClockSpeed := 5 }).map
      (fun t => (t.HeadPosition, t.TimerEnabled, t.TimerCnt)) = some (0, true, 200) := by
  have h := ResetTuring_state 0 (fun _ => Char.ofNat 3) 1
    { engine_with "R".toList with HeadPosition := 5, ClockSpeed := 5 } (by decide)
  rw [h.2.2.2.2.2.2.2.2.2.2.1]
  decide

/-- C16 (counterexample): with the program `R`, clock speed 5 and the timer started, 600
polls that each find the tick counter changed make 2 calls of `StepTuring`, not
600 / 200 = 3: the first call writes `R`, the second finds the end of the program and
stops the timer, and with the timer stopped no further call is made. -/
theorem scheduler_stops_counting :
    (polls 8 (List.range 600)
        (StartTuring { engine_with "R".toList with ClockSpeed := 5 })).map
      (fun q => (q.1, q.2.TimerEnabled, q.2.Symbols 0)) = some (2, false, 'R') ∧
    observed 65535 (List.range 600) / (1000 / 5) = 3 := by
  refine ⟨by decide!, by decide!⟩

/-- C16 (amended): a `TuringExec` poll that finds the tick counter unchanged changes
nothing.  With a clock speed `s` in 1..255 (the speeds 1, 2, 5, 10, 20, 40 among them) and
the timer started with its countdown at 1000 / s, over any sequence of polls, whatever the
tick values seen: the state left is reached by exactly as many calls of `StepTuring` as
polls are counted, one call in each counted poll; that number is at most the quotient of the
number `k` of polls that found the counter changed by 1000 / s; and when the timer is still
enabled after the polls (no step attempt has stopped it) the number is that quotient, also
with the next poll counted.  With the timer disabled a poll only records the tick value: no
call of `StepTuring`, countdown unchanged. -/
theorem scheduler_rate (fuel : Nat) (s : Turing)
    (hcs : 1 ≤ s.ClockSpeed ∧ s.ClockSpeed ≤ 255) :
    TuringExec fuel s.PrevTicks s = some s ∧
    (s.TimerEnabled = true → s.TimerCnt = 1000 / s.ClockSpeed →
      ∀ ticks q, polls fuel ticks s = some q →
        stepped fuel q.1 s q.2 ∧
        q.1 ≤ observed s.PrevTicks ticks / (1000 / s.ClockSpeed) ∧
        (q.2.TimerEnabled = true →
          q.1 = observed s.PrevTicks ticks / (1000 / s.ClockSpeed) ∧
          ∀ t, q.1 + (if (TuringExec_due t q.2).1 then 1 else 0)
            = observed s.PrevTicks (ticks ++ [t]) / (1000 / s.ClockSpeed))) ∧
    (s.TimerEnabled = false →
      ∀ t, TuringExec fuel t s = some { s with PrevTicks := t } ∧
        (TuringExec_due t s).1 = false) :=
  ⟨TuringExec_same_tick fuel s,
    fun _ hc ticks q hq => ⟨polls_stepped fuel ticks s q hq,
      polls_bound fuel s hcs hc ticks q hq,
      fun hen => polls_rate fuel s hcs hc ticks q hq hen⟩,
    fun he t => TuringExec_stopped fuel t s he⟩

theorem scheduler_rate_witness :
    (polls 8 (List.range 60)
        (StartTuring { engine_with "RGBW".toList with ClockSpeed := 40 })).map
      (fun q => q.1) = some (observed 65535 (List.range 60) / (1000 / 40)) ∧
    observed 65535 (List.range 60) / (1000 / 40) = 2 ∧
    (polls 8 (List.range 60)
        (StartTuring { engine_with "RGBW".toList with ClockSpeed := 40 })).map
      (fun q => (q.2.Symbols 0, q.2.ProgramPosition, q.2.TimerEnabled))
      = some ('G', 2, true) := by
  have hs : (polls 8 (List.range 60)
      (StartTuring { engine_with "RGBW".toList with ClockSpeed := 40 })).isSome = true := by
    decide!
  have h := ((scheduler_rate 8 (StartTuring { engine_with "RGBW".toList with ClockSpeed := 40 })
    (by decide)).2.1 (by rfl) (by rfl) (List.range 60) _
    (Option.some_get hs).symm).2.2
    (get_of_map_eq _ (fun q => q.2.TimerEnabled) true hs (by decide!))
  exact ⟨(map_eq_of_get _ (fun q => q.1) hs).trans (congrArg some h.1), by decide!, by decide!⟩

/-- C17: let the engine hold a program text of `n` bytes with its terminator within the 257
bytes of the buffer and the length field as `str_len` computes it, the first byte neither
0x00 nor 0xFF, and a clock speed that is neither 0 nor 255 (all of them bytes).  The flash
is a store of words in which an erased word reads 0x3FFF and programming clears bits.  Then
the STORE command returns, the Settings record read back from the flash it leaves is the
one written (the write of the Program rows has not disturbed it), and on every engine state
with that flash (the RAM lost at power-down) `InitTuring` returns with the same 257 bytes
in the program buffer, the same length, clock speed and highlighting flag. -/
theorem store_init_round_trip (fuel : Nat) (buffer : Int → Char) (cnt : Nat) (s : Turing)
    (n : Nat) (hb : (buffer 0).toNat = 7)
    (hbytes : ∀ i, i < 257 → (s.Program i).toNat < 256) (hcs : s.ClockSpeed < 256)
    (hn : n ≤ 256) (hnul : s.Program n = NUL) (htext : ∀ x, x < n → s.Program x ≠ NUL)
    (hlen : s.ProgramLength = n % 256)
    (h0 : (s.Program 0).toNat ≠ 0 ∧ (s.Program 0).toNat ≠ 255)
    (hcs2 : s.ClockSpeed ≠ 0 ∧ s.ClockSpeed ≠ 255) (hf : 256 < fuel) :
    ∃ s1, ProcessCommand fuel buffer cnt s = some s1 ∧
      read_mem s1.Flash SETTINGS_BASE SETTINGS_LEN
        = [s.ClockSpeed, if s.TapeheadHighlighting then 1 else 0] ∧
      ∀ r : Turing, r.Flash = s1.Flash →
        ∃ t, InitTuring fuel r = some t ∧ (∀ i, i ≤ 256 → t.Program i = s.Program i) ∧
          t.ProgramLength = s.ProgramLength ∧ t.ClockSpeed = s.ClockSpeed ∧
          t.TapeheadHighlighting = s.TapeheadHighlighting :=
  store_then_init fuel buffer cnt s n hb hbytes hcs hn hnul htext hlen h0 hcs2 hf

theorem store_init_round_trip_witness :
    ((ProcessCommand 300 (command [7]) 1
        { engine_with "RG".toList with ClockSpeed := 5, TapeheadHighlighting := false }).bind
      fun s1 => InitTuring 300 (power_up s1.Flash)).map
      (fun t => (t.Program 0, t.Program 1, t.Program 2, t.ProgramLength, t.ClockSpeed,
        t.TapeheadHighlighting)) = some ('R', 'G', NUL, 2, 5, false) := by
  obtain ⟨s1, h1, _, h2⟩ := store_init_round_trip 300 (command [7]) 1
    { engine_with "RG".toList with ClockSpeed := 5, TapeheadHighlighting := false } 2
    (by decide) (by decide!) (by decide) (by decide) (by decide) (by decide) (by decide)
    (by decide) (by decide) (by decide)
  obtain ⟨t, ht, hp, hl, hc, hh⟩ := h2 (power_up s1.Flash) rfl
  rw [h1]
  simp only [Option.some_bind, ht, Option.map_some']
  rw [hp 0 (by decide), hp 1 (by decide), hp 2 (by decide), hl, hc, hh]
  rfl

/-- C18 (evaluation at the failing input): at power-up with an erased flash, every word
0x3FFF and so every byte read 0xFF, `InitTuring` sets the clock speed 1 and the highlighting
and leaves the timer disabled, but the first byte of the program buffer is 0xFF, not the
terminator, and the length field is 1, not 0: the 257 bytes read are copied to the buffer
and `str_len` runs on to the first zero behind it.  A RUN command and one step attempt then
signal two flashes (`ERR_INSTRUCTION_ERROR`) for the byte 0xFF.  With a flash of zeros the
program is empty: first byte the terminator, length 0. -/
theorem init_erased_flash_program :
    (InitTuring 300 (power_up (fun _ => 0x3fff))).map
      (fun t => (t.ClockSpeed, t.TapeheadHighlighting, t.TimerEnabled, (t.Program 0).toNat,
        t.ProgramLength)) = some (1, true, false, 255, 1) ∧
    (((InitTuring 300 (power_up (fun _ => 0x3fff))).bind
        (ProcessCommand 300 (command [3]) 1)).bind (StepTuring 300)).map
      (fun r => (r.1, r.2.Flashes)) = some (true, 2) ∧
    (InitTuring 300 (power_up (fun _ => 0))).map
      (fun t => (t.ClockSpeed, t.TapeheadHighlighting, t.TimerEnabled, (t.Program 0).toNat,
        t.ProgramLength)) = some (1, true, false, 0, 0) := by
  refine ⟨by decide!, by decide!, by decide!⟩

/-- C19 (evaluation at the failing input): on a started engine with the program
`$y=$y+1 R` and no variable bound, `do_instruction` executes the assignment without an
error (no flash, timer still enabled, `y` bound with the value 1) and leaves the cursor at
8, in front of `R`; `skip_instruction` from the same state signals five flashes
(`ERR_VARIABLE_NOT_FOUND`), stops the timer and leaves the cursor at 9, the end of the
program: the skip evaluates `$y`, which only the executed assignment binds. -/
theorem skip_assignment_unbound_target :
    (do_instruction 12 (StartTuring (engine_with "$y=$y+1 R".toList))).map
      (fun t => (t.Flashes, t.TimerEnabled, t.ProgramPosition, t.VariableNames 0,
        t.VariableValues 0)) = some (0, true, 8, ['y'], 1) ∧
    (skip_instruction 12 (StartTuring (engine_with "$y=$y+1 R".toList))).map
      (fun t => (t.Flashes, t.TimerEnabled, t.ProgramPosition, t.VariableNames 0))
      = some (5, false, 9, []) := by
  refine ⟨by decide, by decide⟩

/-- C20 (evaluation at the failing input): the engine runs on a target on which the
variables lie in the order of their declarations, `HeadPosition` in front of `Program`
(`host_target`, with the padding of a 64-bit host, and `declared_target`, without padding).
After RESET, four LOAD commands delivering the 240 bytes `x` and 239 spaces, RUN and a STEP
command, the step has signalled `ERR_INSTRUCTION_ERROR` and `error` has left the cursor at
`(int8_t) 240` = -16 (the defect of C8), the head at 0.  A LOAD command with 16 bytes `d`
then returns with the cursor at 0: it has written `Program[-16]` to `Program[-1]`, the bytes
in front of the buffer, and the terminator to `Program[0]`.  On both targets the head
position is 100, the code of `d`, outside [-1, 27], and so is the value of the variable in
slot 0. -/
theorem load_in_front_moves_head :
    (step_failed host_target).map (fun t => (t.ProgramPosition, t.HeadPosition,
      (send_load 300 (List.replicate 16 'd') t).map
        (fun u => (u.ProgramPosition, u.HeadPosition, u.VariableValues 0))))
      = some (-16, 0, some (0, 100, 100)) ∧
    (step_failed declared_target).map (fun t => (t.ProgramPosition, t.HeadPosition,
      (send_load 300 (List.replicate 16 'd') t).map
        (fun u => (u.ProgramPosition, u.HeadPosition, u.VariableValues 0))))
      = some (-16, 0, some (0, 100, 100)) := by
  refine ⟨by decide!, by decide!⟩

/-- C21: in every state that a sequence of step attempts reaches from a reset engine,
whatever the program, no two occupied slots of the variable table hold the same name, at
most 10 slots are occupied and no name outside the 10 slots of the table has been written.
And in such a state an assignment whose name `find_variable` finds bound leaves all names
as they are, so no slot is allocated, and changes no value but that of the slot found. -/
theorem variable_names_stay_distinct (fuel k : Nat) (s : Turing) (q : List Bool × Turing)
    (h : attempts fuel k (ResetTuring s) = some q) :
    names_distinct q.2 ∧ occupied q.2 ≤ MAX_VARIABLES ∧
    (∀ i, MAX_VARIABLES ≤ i → q.2.VariableNames i = s.VariableNames i) ∧
    (∀ f r t, get_name f (step q.2) = some r → find_variable r.2 r.1 ≠ -1 →
      do_assignment f q.2 = some t →
      t.VariableNames = q.2.VariableNames ∧
      ∀ i : Nat, (i : Int) ≠ find_variable r.2 r.1 →
        t.VariableValues i = q.2.VariableValues i) := by
  obtain ⟨h1, _, h3⟩ := attempts_table fuel k (ResetTuring s) q h
  refine ⟨h1 (ResetTuring_distinct s), occupied_le q.2, fun i hi => ?_,
    fun f r t hr hb ht => do_assignment_of_bound f q.2 t r hr hb ht⟩
  rw [h3 i hi]
  show (if i < MAX_VARIABLES then [] else _) = _
  rw [if_neg (by omega)]
  rfl

theorem variable_names_stay_distinct_witness :
    (attempts 12 3 (ResetTuring (engine_with "$x=5 $y=1 $x=7".toList))).map
      (fun q => decide (names_distinct q.2)) = some true ∧
    (attempts 12 3 (ResetTuring (engine_with "$x=5 $y=1 $x=7".toList))).map
      (fun q => (q.2.VariableNames 0, q.2.VariableNames 1, q.2.VariableNames 2,
        q.2.VariableValues 0, q.2.VariableValues 1, occupied q.2))
      = some (['x'], ['y'], [], 7, 1, 2) := by
  have hs : (attempts 12 3 (ResetTuring (engine_with "$x=5 $y=1 $x=7".toList))).isSome
      = true := by decide
  have h := variable_names_stay_distinct 12 3 (engine_with "$x=5 $y=1 $x=7".toList) _
    (Option.some_get hs).symm
  exact ⟨(map_eq_of_get _ _ hs).trans (congrArg some (decide_eq_true h.1)), by decide⟩

/-- C22 (counterexample): on a reset engine with the program `%R` the step attempt that
dispatches the bare `%` returns false with the wait counter 0, not above 0, and the next
step attempt is not consumed by waiting: it writes `R` and returns true.  The same holds
for `%1R`. -/
theorem wait_of_one_is_over :
    (StepTuring 8 (engine_with "%R".toList)).map (fun r => (r.1, r.2.WaitPeriods))
      = some (false, 0) ∧
    (attempts 8 2 (engine_with "%R".toList)).map (fun q => (q.1, q.2.Symbols 0))
      = some ([false, true], 'R') ∧
    (StepTuring 8 (engine_with "%1R".toList)).map (fun r => (r.1, r.2.WaitPeriods))
      = some (false, 0) ∧
    (attempts 8 2 (engine_with "%1R".toList)).map (fun q => (q.1, q.2.Symbols 0))
      = some ([false, true], 'R') := by
  refine ⟨by decide, by decide, by decide, by decide⟩

/-- C22 (amended): let a step attempt from the state `s`, wait counter 0, step over
whitespace and labels to a wait instruction with the value `n` in 1..127, `s2` being the
state in which reading the instruction leaves the engine.  The attempt returns false with
the wait counter `n - 1`.  For `n` from 2 on this is above 0 and the next step attempt is
consumed by waiting: it returns false and takes one off the counter.  For `n = 1` the
counter is 0 and the next step attempt is no waiting attempt. -/
theorem wait_leaves_waiting (fuel : Nat) (s s1 s2 : Turing) (n : Nat)
    (hw : s.WaitPeriods = 0) (hp : s.Program 0 ≠ NUL)
    (hlt : s.ProgramPosition < s.ProgramLength) (hl : skip_labels fuel s = some s1)
    (hc : current s1 = '%')
    (hv : wait_value fuel s1 = some ((n : Int), s2)) (h1 : 1 ≤ n) (h2 : n ≤ 127) :
    StepTuring fuel s = some (false, { s2 with WaitPeriods := (n : Int) - 1 }) ∧
    (2 ≤ n → (0 : Int) < (n : Int) - 1 ∧
      StepTuring fuel { s2 with WaitPeriods := (n : Int) - 1 }
        = some (false, { s2 with WaitPeriods := (n : Int) - 1 - 1 })) ∧
    (n = 1 → StepTuring fuel { s2 with WaitPeriods := (n : Int) - 1 }
        = dispatch fuel { s2 with WaitPeriods := (n : Int) - 1 }) :=
  ⟨StepTuring_wait_value fuel s s1 s2 n hw hp hlt hl hc hv h1 h2,
    fun h => ⟨by omega, StepTuring_waiting fuel _ (by show (0 : Int) < (n : Int) - 1; omega)
      (by show (n : Int) - 1 ≤ 127; omega)⟩,
    fun h => StepTuring_dispatches fuel _ (by show (n : Int) - 1 = 0; omega)⟩

theorem wait_leaves_waiting_witness :
    StepTuring 8 (engine_with " %2R".toList)
      = some (false, { engine_with " %2R".toList with ProgramPosition := 3, WaitPeriods := 1 }) ∧
    StepTuring 8 { engine_with " %2R".toList with ProgramPosition := 3, WaitPeriods := 1 }
      = some (false,
          { engine_with " %2R".toList with ProgramPosition := 3, WaitPeriods := 0 }) := by
  have h := wait_leaves_waiting 8 (engine_with " %2R".toList)
    { engine_with " %2R".toList with ProgramPosition := 1 }
    { engine_with " %2R".toList with ProgramPosition := 3, WaitPeriods := 1 } 2
    (by rfl) (by decide) (by decide) (by rfl) (by decide) (by rfl) (by decide) (by decide)
  exact ⟨h.1, (h.2.1 (by decide)).2⟩

/-- C23 (evaluation at the failing input): on a reset engine with the program
`?0 #a R G` the first step attempt finds the test of `?0` false and leaves the cursor at 3,
on the `#` of the label: `skip_instruction` does nothing there.  The second step attempt
steps over the label and executes `R`, the instruction that was to be skipped: square 0
holds `R` and the cursor is 7, in front of `G`.  Without the label, program `?0 R G`, the
second step attempt executes `G`. -/
theorem label_shields_from_skip :
    (attempts 12 1 (engine_with "?0 #a R G".toList)).map
      (fun q => (q.1, q.2.ProgramPosition, q.2.Symbols 0)) = some ([true], 3, 'K') ∧
    (attempts 12 2 (engine_with "?0 #a R G".toList)).map
      (fun q => (q.1, q.2.ProgramPosition, q.2.Symbols 0)) = some ([true, true], 7, 'R') ∧
    (attempts 12 2 (engine_with "?0 R G".toList)).map
      (fun q => (q.1, q.2.ProgramPosition, q.2.Symbols 0)) = some ([true, true], 6, 'G') := by
  refine ⟨by decide, by decide, by decide⟩

/-- C24 (evaluation at the failing input): after RESET and five LOAD commands with four
times 63 bytes and once 4 bytes `R`, 256 bytes in all, the buffer holds 256 times `R` and
the terminator at index 256, the cursor is 256, and the length field is 0, not 256:
`str_len` counts in a `uint8_t`.  After RUN the next step attempt finds cursor 0 >= length
0, stops the timer and returns false; the first instruction is not dispatched, square 0 stays
black. -/
theorem full_program_has_length_zero :
    (((((((ProcessCommand 0 (command [1]) 1 (engine_with [])).bind
        (ProcessCommand 300 (command (2 :: List.replicate 63 82)) 64)).bind
        (ProcessCommand 300 (command (2 :: List.replicate 63 82)) 64)).bind
        (ProcessCommand 300 (command (2 :: List.replicate 63 82)) 64)).bind
        (ProcessCommand 300 (command (2 :: List.replicate 63 82)) 64)).bind
        (ProcessCommand 300 (command (2 :: List.replicate 4 82)) 5))).map
      (fun t => (t.ProgramLength, t.ProgramPosition, t.Program 0, t.Program 255, t.Program 256))
      = some (0, 256, 'R', 'R', NUL) ∧
    (((((((((ProcessCommand 0 (command [1]) 1 (engine_with [])).bind
        (ProcessCommand 300 (command (2 :: List.replicate 63 82)) 64)).bind
        (ProcessCommand 300 (command (2 :: List.replicate 63 82)) 64)).bind
        (ProcessCommand 300 (command (2 :: List.replicate 63 82)) 64)).bind
        (ProcessCommand 300 (command (2 :: List.replicate 63 82)) 64)).bind
        (ProcessCommand 300 (command (2 :: List.replicate 4 82)) 5))).bind
        (ProcessCommand 0 (command [3]) 1)).bind (StepTuring 300)).map
      (fun r => (r.1, r.2.TimerEnabled, r.2.Symbols 0, r.2.ProgramPosition))
      = some (false, false, 'K', 0) ∧
    ((((((ProcessCommand 0 (command [1]) 1 (engine_with [])).bind
        (ProcessCommand 300 (command (2 :: List.replicate 63 82)) 64)).bind
        (ProcessCommand 300 (command (2 :: List.replicate 63 82)) 64)).bind
        (ProcessCommand 300 (command (2 :: List.replicate 63 82)) 64)).bind
        (ProcessCommand 300 (command (2 :: List.replicate 63 82)) 64))).map
      (fun t => (t.ProgramLength, t.ProgramPosition)) = some (252, 252) := by
  refine ⟨by decide!, by decide!, by decide!⟩

/-- C25 (evaluation at the failing input): the engine runs on a target on which the
variables lie in the order of their declarations, `VariableValues` in front of
`HeadPosition` and `Program` (`host_target`, with the padding of a 64-bit host, and
`declared_target`, without padding).  RESET, four LOAD commands and RUN deliver
`values_program`, 246 bytes with the terminator at index 246; ten calls of `StepTuring`
execute its ten assignments and return true.  The engine then holds ten variables of value
63, the cursor is 60, inside the program, and the timer is enabled: no error has been
signalled.  The next call of `StepTuring` returns for no amount of fuel.  The test of `?0` is
false, so the conditional `?x` is skipped; its operand `x` is not recognised and `error`
puts the cursor at `(int8_t) 246` = -10; `skip_conditional` goes on to `skip_instruction`,
which reads `Program[-10]`, in front of the buffer: the byte 63 of a variable value, a `?`,
followed by another; so the same skip starts again, with the same error and the same
cursor, without end. -/
theorem step_on_long_program_never_returns :
    (values_loaded host_target).map (fun t => (t.ProgramPosition, t.ProgramLength,
      t.Program 246, (List.range 246).map t.Program)) = some (0, 246, NUL, values_program) ∧
    ((values_loaded host_target).bind (attempts 300 10)).map (fun q => (q.1,
      q.2.ProgramPosition, q.2.TimerEnabled, (List.range 10).map q.2.VariableValues))
      = some (List.replicate 10 true, 60, true, List.replicate 10 63) ∧
    (∀ fuel : Nat, (values_set host_target).bind (StepTuring fuel) = none) ∧
    (values_set declared_target).isSome = true ∧
    (∀ fuel : Nat, (values_set declared_target).bind (StepTuring fuel) = none) :=
  ⟨by decide!, by decide!, values_set_never_host.2, values_set_never_declared.1,
    values_set_never_declared.2⟩

/-- C26: let the stored variable values be `int8_t` values.  Every result of `get_operand`
and every result of `get_expression`, the values that `get_expression` compares with the
sentinel `ERROR` = 0x7fff, is the sentinel or lies in [-128, 127].  And the sentinel tells
failure exactly: `get_operand` and `get_expression` return what their flagged versions
return, in which failure is carried by a flag set at the unrecognised operand, at the
unbound variable and at the parenthesis that is not closed, and the value returned is the
sentinel if and only if that flag is set. -/
theorem sentinel_tells_failure (fuel : Nat) (s : Turing) (hv : values_int8 s) :
    (∀ r, get_operand fuel s = some r → r.1 = ERROR ∨ (-128 ≤ r.1 ∧ r.1 ≤ 127)) ∧
    (∀ r, get_expression fuel s = some r → r.1 = ERROR ∨ (-128 ≤ r.1 ∧ r.1 ≤ 127)) ∧
    get_operand_flagged fuel s
      = ((get_operand fuel s).bind fun r => some (r.1, decide (r.1 = ERROR), r.2)) ∧
    get_expression_flagged fuel s
      = ((get_expression fuel s).bind fun r => some (r.1, decide (r.1 = ERROR), r.2)) :=
  ⟨fun r h => get_operand_range fuel s hv r h,
    fun r h => get_expression_range fuel s r.1 r.2 h,
    get_operand_flagged_eq fuel s hv, get_expression_flagged_eq fuel s hv⟩

theorem sentinel_tells_failure_witness :
    (get_expression_flagged 12 (engine_with "(1+2".toList)).map (fun r => (r.1, r.2.1))
      = some (ERROR, true) ∧
    (get_expression_flagged 12 (engine_with "(1+2)*50".toList)).map (fun r => (r.1, r.2.1))
      = some (-106, false) := by
  have h1 := (sentinel_tells_failure 12 (engine_with "(1+2".toList)
    (by unfold values_int8; decide)).2.2.2
  have h2 := (sentinel_tells_failure 12 (engine_with "(1+2)*50".toList)
    (by unfold values_int8; decide)).2.2.2
  rw [h1, h2]
  exact ⟨by decide, by decide⟩

end TuringSnake
